import Mathlib

/-!
# Z-machine interpreter (awgh/zmachine): shallow embedding and verified properties

The Go sources `zstack.go`, `vars.go`, `zmachine.go` and `ops.go` are embedded as
pure functions over explicit state.

* A Go slice is a `List Nat`; an index outside the slice is the run-time panic
  `ZError.indexOutOfRange`.
* Every `panic(...)` of the source is a constructor of `ZError`; a function that
  can panic returns `Except ZError _`.
* `uint8`, `uint16` and `uint32` values are natural numbers; a reduction modulo
  `2^w` is written wherever the Go operation can leave the range of its type.
* A loop that the source does not bound takes a `fuel` argument and reports
  `ZError.outOfFuel` when it is used up.
-/

namespace Zmachine

/-! ## Constants (vars.go) -/

def OPERAND_LARGE : Nat := 0x0
def OPERAND_SMALL : Nat := 0x1
def OPERAND_VARIABLE : Nat := 0x2
def OPERAND_OMITTED : Nat := 0x3

def MAX_STACK : Nat := 1024
def MAX_OBJECT : Nat := 256

def OBJECT_ENTRY_SIZE : Nat := 9
def OBJECT_PARENT_INDEX : Nat := 4
def OBJECT_SIBLING_INDEX : Nat := 5
def OBJECT_CHILD_INDEX : Nat := 6
def NULL_OBJECT_INDEX : Nat := 0

def DICT_NOT_FOUND : Nat := 0

/-- The fatal conditions of the interpreter: one constructor for each `panic` of the
source, `indexOutOfRange` for a slice index outside its slice, `sliceBoundsOutOfRange`
for a slice expression with bounds outside its slice, and `outOfFuel` for a loop that did
not finish within the fuel it was given. -/
inductive ZError where
  | stackOverflow
  | popFromEmptyStack
  | invalidStackTop
  | localVarIndexOutOfBounds
  | stackUnderflow
  | invalidGlobal
  | invalidObject
  | attributeOutOfBounds
  | badPropertyWidth
  | propertyNotFound
  | invalidPropertyIndex
  | objectNotOnParentList
  | corruptedData
  | callWithoutArguments
  | accessViolation
  | divisionByZero
  | unknownOperandType
  | invalidMaxChars
  | sliceBoundsOutOfRange
  | indexOutOfRange
  | outOfFuel
  deriving DecidableEq, Repr

deriving instance DecidableEq for Except

/-- Slice read `xs[i]`. -/
def readAt (xs : List Nat) (i : Nat) : Except ZError Nat :=
  match xs[i]? with
  | some v => .ok v
  | none => .error .indexOutOfRange

/-- Slice write `xs[i] = v`. -/
def writeAt (xs : List Nat) (i v : Nat) : Except ZError (List Nat) :=
  if i < xs.length then .ok (xs.set i v) else .error .indexOutOfRange

/-! ## The stack (zstack.go) -/

structure ZStack where
  stack : List Nat
  top : Nat
  localFrame : Nat
  deriving DecidableEq, Repr

def NewStack : ZStack :=
  { stack := List.replicate MAX_STACK 0, top := MAX_STACK, localFrame := MAX_STACK }

namespace ZStack

def Push (s : ZStack) (value : Nat) : Except ZError ZStack :=
  if s.top = 0 then .error .stackOverflow
  else do
    let stack ← writeAt s.stack (s.top - 1) value
    pure { s with top := s.top - 1, stack := stack }

def Pop (s : ZStack) : Except ZError (Nat × ZStack) :=
  if s.top = MAX_STACK then .error .popFromEmptyStack
  else do
    let retValue ← readAt s.stack s.top
    pure (retValue, { s with top := s.top + 1 })

def Reset (s : ZStack) (newTop : Int) : Except ZError ZStack :=
  if newTop > MAX_STACK ∨ newTop < 0 then .error .invalidStackTop
  else pure { s with top := newTop.toNat }

def GetTopItem (s : ZStack) : Except ZError Nat :=
  readAt s.stack s.top

def SaveFrame (s : ZStack) : Except ZError ZStack := do
  let s1 ← s.Push (s.localFrame % 65536)
  pure { s1 with localFrame := s1.top }

/-- Returns the caller address (where to return to) and the stack. -/
def RestoreFrame (s : ZStack) : Except ZError (Nat × ZStack) := do
  let s1 : ZStack := { s with top := s.localFrame }
  let (f, s2) ← s1.Pop
  let s3 : ZStack := { s2 with localFrame := f }
  let (retLo, s4) ← s3.Pop
  let (retHi, s5) ← s4.Pop
  pure (((retHi <<< 16) ||| retLo), s5)

/-- The index of a local is a Go `int`; the callers only pass values from 0 to 254. -/
def ValidateLocalVarIndex (s : ZStack) (localVarIndex : Nat) : Except ZError Unit :=
  if localVarIndex > 0xF then .error .localVarIndexOutOfBounds
  else if s.localFrame < localVarIndex then .error .stackUnderflow
  else pure ()

def GetLocalVar (s : ZStack) (localVarIndex : Nat) : Except ZError Nat := do
  s.ValidateLocalVarIndex localVarIndex
  -- stackIndex = (localFrame - localVarIndex) - 1 is negative when they are equal
  if s.localFrame - localVarIndex = 0 then .error .indexOutOfRange
  else readAt s.stack (s.localFrame - localVarIndex - 1)

def SetLocalVar (s : ZStack) (localVarIndex : Nat) (value : Nat) : Except ZError ZStack := do
  s.ValidateLocalVarIndex localVarIndex
  if s.localFrame - localVarIndex = 0 then .error .indexOutOfRange
  else
    let stack ← writeAt s.stack (s.localFrame - localVarIndex - 1) value
    pure { s with stack := stack }

end ZStack

/-! ## The machine (vars.go, zmachine.go) -/

structure ZHeader where
  Version : Nat
  hiMemBase : Nat
  ip : Nat
  dictAddress : Nat
  objTableAddress : Nat
  globalVarAddress : Nat
  staticMemAddress : Nat
  abbreviationTable : Nat
  deriving DecidableEq, Repr

/-- The machine state. The field `localFrame` of the Go struct is never read or written
and is left out. -/
structure ZMachine where
  ip : Nat
  header : ZHeader
  buf : List Nat
  stack : ZStack
  Done : Bool
  deriving DecidableEq, Repr

/-- Byte address of a packed address (versions 1 to 3), in `uint32`. -/
def PackedAddress (a : Nat) : Nat := (a * 2) % 2 ^ 32

/-- Big-endian 16-bit read; `offset` is a `uint32`. -/
def GetUint16 (buf : List Nat) (offset : Nat) : Except ZError Nat := do
  let hi ← readAt buf offset
  let lo ← readAt buf ((offset + 1) % 2 ^ 32)
  pure (((hi <<< 8) % 65536) ||| lo)

/-- Big-endian 32-bit read; `offset` is a `uint32`. -/
def GetUint32 (buf : List Nat) (offset : Nat) : Except ZError Nat := do
  let b0 ← readAt buf offset
  let b1 ← readAt buf ((offset + 1) % 2 ^ 32)
  let b2 ← readAt buf ((offset + 2) % 2 ^ 32)
  let b3 ← readAt buf ((offset + 3) % 2 ^ 32)
  pure (((b0 <<< 24) % 2 ^ 32) ||| (b1 <<< 16) ||| (b2 <<< 8) ||| b3)

namespace ZMachine

def PeekByte (zm : ZMachine) : Except ZError Nat :=
  readAt zm.buf zm.ip

/-- Reads the byte at `ip` and advances `ip`. -/
def ReadByte (zm : ZMachine) : Except ZError (Nat × ZMachine) := do
  let b ← readAt zm.buf zm.ip
  pure (b, { zm with ip := (zm.ip + 1) % 2 ^ 32 })

/-- Reads two bytes at `ip` and advances `ip`. -/
def ReadUint16 (zm : ZMachine) : Except ZError (Nat × ZMachine) := do
  let retVal ← GetUint16 zm.buf zm.ip
  pure (retVal, { zm with ip := (zm.ip + 2) % 2 ^ 32 })

def IsSafeToWrite (zm : ZMachine) (address : Nat) : Bool :=
  address < zm.header.staticMemAddress

def SetUint16 (zm : ZMachine) (offset : Nat) (v : Nat) : Except ZError ZMachine := do
  let buf1 ← writeAt zm.buf offset ((v >>> 8) % 256)
  let buf2 ← writeAt buf1 ((offset + 1) % 2 ^ 32) ((v &&& 0xFF) % 256)
  pure { zm with buf := buf2 }

/-- The argument is a `uint8`. -/
def ReadGlobal (zm : ZMachine) (x : Nat) : Except ZError Nat :=
  if x < 0x10 then .error .invalidGlobal
  else GetUint16 zm.buf ((zm.header.globalVarAddress + PackedAddress (x - 0x10)) % 2 ^ 32)

/-- The argument `x` is a `uint16`. -/
def SetGlobal (zm : ZMachine) (x : Nat) (v : Nat) : Except ZError ZMachine :=
  if x < 0x10 then .error .invalidGlobal
  else zm.SetUint16 ((zm.header.globalVarAddress + PackedAddress (x - 0x10)) % 2 ^ 32) v

/-- Variable write: 0 = push, 1 to 15 = local, 16 and above = global. -/
def StoreAtLocation (zm : ZMachine) (storeLocation : Nat) (v : Nat) : Except ZError ZMachine :=
  if storeLocation = 0 then do
    let st ← zm.stack.Push v
    pure { zm with stack := st }
  else if storeLocation < 0x10 then do
    let st ← zm.stack.SetLocalVar (storeLocation - 1) v
    pure { zm with stack := st }
  else zm.SetGlobal storeLocation v

def StoreResult (zm : ZMachine) (v : Nat) : Except ZError ZMachine := do
  let (storeLocation, zm1) ← zm.ReadByte
  zm1.StoreAtLocation storeLocation v

end ZMachine

/-! ## Routine call and return (ops.go) -/

def ZRet (zm : ZMachine) (arg : Nat) : Except ZError ZMachine := do
  let (returnAddress, st) ← zm.stack.RestoreFrame
  ZMachine.StoreResult { zm with stack := st, ip := returnAddress } arg

def ZReturnTrue (zm : ZMachine) : Except ZError ZMachine := ZRet zm 1

def ZReturnFalse (zm : ZMachine) : Except ZError ZMachine := ZRet zm 0

/-- The loop of `ZCall` that creates the locals: `n` iterations are left, `i` is the
loop counter and `numArgs` the number of arguments not yet consumed. -/
def ZCall.locals (args : List Nat) : Nat → Nat → Nat → ZMachine → Except ZError ZMachine
  | 0, _, _, zm => pure zm
  | n + 1, i, numArgs, zm => do
    let (localVar, zm1) ← zm.ReadUint16
    if numArgs > 0 then
      let a ← readAt args (i + 1)
      let st ← zm1.stack.Push a
      ZCall.locals args n (i + 1) (numArgs - 1) { zm1 with stack := st }
    else
      let st ← zm1.stack.Push localVar
      ZCall.locals args n (i + 1) numArgs { zm1 with stack := st }

def ZCall (zm : ZMachine) (args : List Nat) (numArgs : Nat) : Except ZError ZMachine :=
  if numArgs = 0 then .error .callWithoutArguments
  else do
    -- Save return address
    let s1 ← zm.stack.Push (((zm.ip >>> 16) % 65536) &&& 0xFFFF)
    let s2 ← s1.Push ((zm.ip &&& 0xFFFF) % 65536)
    let a0 ← readAt args 0
    let functionAddress := PackedAddress a0
    -- Save local frame
    let s3 ← s2.SaveFrame
    let zm1 : ZMachine := { zm with ip := functionAddress, stack := s3 }
    if zm1.ip = 0 then ZReturnFalse zm1
    else do
      let (numLocals, zm2) ← zm1.ReadByte
      ZCall.locals args numLocals 0 (numArgs - 1) zm2

/-! ## Example states -/

/-- A small story image: a routine with two locals (initial values `0x1122` and `0x3344`)
at packed address 4, and a store byte 0 at address 3. -/
def exampleCall : ZMachine :=
  { ip := 3
    header := ZHeader.mk 3 0 0 0 0 0 0 0
    buf := [3, 0, 0, 0, 0, 0, 0, 0, 2, 0x11, 0x22, 0x33, 0x44, 0xB0]
    stack := NewStack
    Done := false }

/-- The same image with only two free words left on the stack. -/
def exampleNearlyFull : ZMachine :=
  { exampleCall with stack := ZStack.mk (List.replicate MAX_STACK 0) 2 MAX_STACK }

/-! ## The object table (zmachine.go) -/

namespace ZMachine

/-- The argument is a `uint16`. -/
def GetObjectEntryAddress (zm : ZMachine) (objectIndex : Nat) : Except ZError Nat :=
  if objectIndex > MAX_OBJECT ∨ objectIndex = 0 then .error .invalidObject
  else
    -- Convert from 1-based to 0-based, skip the 31 default properties
    pure ((zm.header.objTableAddress + 31 * 2 +
      ((objectIndex - 1) * OBJECT_ENTRY_SIZE) % 65536) % 2 ^ 32)

/-- True if the attribute is set. -/
def TestObjectAttr (zm : ZMachine) (objectIndex attr : Nat) : Except ZError Bool :=
  if attr > 31 then .error .attributeOutOfBounds
  else do
    let objectEntryAddress ← zm.GetObjectEntryAddress objectIndex
    let attribs ← GetUint32 zm.buf objectEntryAddress
    -- 0: top bit, 31: bottom bit
    let mask := (1 <<< (31 - attr)) % 2 ^ 32
    pure (decide ((attribs &&& mask) ≠ 0))

def SetObjectAttr (zm : ZMachine) (objectIndex attr : Nat) : Except ZError ZMachine :=
  if attr > 31 then .error .attributeOutOfBounds
  else do
    let objectEntryAddress ← zm.GetObjectEntryAddress objectIndex
    let byteIndex := attr >>> 3
    let shift := 7 - (attr &&& 0x7)
    let old ← readAt zm.buf ((objectEntryAddress + byteIndex) % 2 ^ 32)
    let buf ← writeAt zm.buf ((objectEntryAddress + byteIndex) % 2 ^ 32)
      ((old ||| ((1 <<< shift) % 256)) % 256)
    pure { zm with buf := buf }

def ClearObjectAttr (zm : ZMachine) (objectIndex attr : Nat) : Except ZError ZMachine :=
  if attr > 31 then .error .attributeOutOfBounds
  else do
    let objectEntryAddress ← zm.GetObjectEntryAddress objectIndex
    let byteIndex := attr >>> 3
    let shift := 7 - (attr &&& 0x7)
    let old ← readAt zm.buf ((objectEntryAddress + byteIndex) % 2 ^ 32)
    let buf ← writeAt zm.buf ((objectEntryAddress + byteIndex) % 2 ^ 32)
      (old &&& (((1 <<< shift) % 256) ^^^ 0xFF))
    pure { zm with buf := buf }

def GetParentObject (zm : ZMachine) (objectIndex : Nat) : Except ZError Nat := do
  let objectEntryAddress ← zm.GetObjectEntryAddress objectIndex
  readAt zm.buf ((objectEntryAddress + OBJECT_PARENT_INDEX) % 2 ^ 32)

def IsDirectParent (zm : ZMachine) (childIndex parentIndex : Nat) : Except ZError Bool := do
  let p ← zm.GetParentObject childIndex
  pure (decide (p = parentIndex))

def GetFirstChild (zm : ZMachine) (objectIndex : Nat) : Except ZError Nat := do
  let objectEntryAddress ← zm.GetObjectEntryAddress objectIndex
  readAt zm.buf ((objectEntryAddress + OBJECT_CHILD_INDEX) % 2 ^ 32)

def GetSibling (zm : ZMachine) (objectIndex : Nat) : Except ZError Nat := do
  let objectEntryAddress ← zm.GetObjectEntryAddress objectIndex
  readAt zm.buf ((objectEntryAddress + OBJECT_SIBLING_INDEX) % 2 ^ 32)

/-- The search loop of `UnlinkObject`: walks the sibling chain from `childIter` until it
meets `objectIndex` or the null object, and returns `(prevChild, childIter)`. Every
iteration uses one unit of fuel. -/
def UnlinkObject.findPrev (zm : ZMachine) (objectIndex : Nat) :
    Nat → Nat → Nat → Except ZError (Nat × Nat)
  | 0, prevChild, childIter =>
    if childIter ≠ objectIndex ∧ childIter ≠ NULL_OBJECT_INDEX then .error .outOfFuel
    else pure (prevChild, childIter)
  | fuel + 1, prevChild, childIter =>
    if childIter ≠ objectIndex ∧ childIter ≠ NULL_OBJECT_INDEX then do
      let s ← zm.GetSibling childIter
      UnlinkObject.findPrev zm objectIndex fuel childIter s
    else pure (prevChild, childIter)

/-- Unlink object from its parent. -/
def UnlinkObject (fuel : Nat) (zm : ZMachine) (objectIndex : Nat) : Except ZError ZMachine := do
  let objectEntryAddress ← zm.GetObjectEntryAddress objectIndex
  let currentParentIndex ← readAt zm.buf ((objectEntryAddress + OBJECT_PARENT_INDEX) % 2 ^ 32)
  if currentParentIndex ≠ NULL_OBJECT_INDEX then do
    let curParentAddress ← zm.GetObjectEntryAddress currentParentIndex
    let firstChild ← readAt zm.buf ((curParentAddress + OBJECT_CHILD_INDEX) % 2 ^ 32)
    let buf1 ←
      if firstChild = objectIndex then do
        -- first child: move to sibling
        let sibling ← readAt zm.buf ((objectEntryAddress + OBJECT_SIBLING_INDEX) % 2 ^ 32)
        writeAt zm.buf ((curParentAddress + OBJECT_CHILD_INDEX) % 2 ^ 32) sibling
      else do
        let (prevChild, childIter) ←
          UnlinkObject.findPrev zm objectIndex fuel NULL_OBJECT_INDEX firstChild
        if childIter = NULL_OBJECT_INDEX then .error .objectNotOnParentList
        else if prevChild = NULL_OBJECT_INDEX then .error .corruptedData
        else do
          let prevSiblingAddress ← zm.GetObjectEntryAddress prevChild
          let sibling ← readAt zm.buf ((objectEntryAddress + OBJECT_SIBLING_INDEX) % 2 ^ 32)
          writeAt zm.buf ((prevSiblingAddress + OBJECT_SIBLING_INDEX) % 2 ^ 32) sibling
    let buf2 ← writeAt buf1 ((objectEntryAddress + OBJECT_PARENT_INDEX) % 2 ^ 32)
      NULL_OBJECT_INDEX
    pure { zm with buf := buf2 }
  else pure zm

def ReparentObject (fuel : Nat) (zm : ZMachine) (objectIndex newParentIndex : Nat) :
    Except ZError ZMachine := do
  let objectEntryAddress ← zm.GetObjectEntryAddress objectIndex
  let currentParentIndex ← readAt zm.buf ((objectEntryAddress + OBJECT_PARENT_INDEX) % 2 ^ 32)
  if currentParentIndex = newParentIndex then pure zm
  else do
    let zm1 ← UnlinkObject fuel zm objectIndex
    -- Make the first child of our new parent
    let newParentAddress ← zm1.GetObjectEntryAddress newParentIndex
    let child ← readAt zm1.buf ((newParentAddress + OBJECT_CHILD_INDEX) % 2 ^ 32)
    let buf1 ← writeAt zm1.buf ((objectEntryAddress + OBJECT_SIBLING_INDEX) % 2 ^ 32) child
    let buf2 ← writeAt buf1 ((newParentAddress + OBJECT_CHILD_INDEX) % 2 ^ 32)
      (objectIndex % 256)
    let buf3 ← writeAt buf2 ((objectEntryAddress + OBJECT_PARENT_INDEX) % 2 ^ 32)
      (newParentIndex % 256)
    pure { zm1 with buf := buf3 }

/-! ### Properties -/

def GetFirstPropertyAddress (zm : ZMachine) (objectIndex : Nat) : Except ZError Nat := do
  let objectEntryAddress ← zm.GetObjectEntryAddress objectIndex
  let propertiesAddress ← GetUint16 zm.buf ((objectEntryAddress + 7) % 2 ^ 32)
  let nameByte ← readAt zm.buf propertiesAddress
  let nameLength := (nameByte * 2) % 65536 -- in 2-byte words
  pure ((propertiesAddress + nameLength + 1) % 65536)

/-- The search loop of `GetObjectPropertyInfo`; `propData` is a `uint16`. Every iteration
uses one unit of fuel. -/
def GetObjectPropertyInfo.loop (zm : ZMachine) (propertyId : Nat) :
    Nat → Nat → Except ZError (Nat × Nat)
  | 0, _ => .error .outOfFuel
  | fuel + 1, propData => do
    let propSize ← readAt zm.buf propData
    if propSize = 0 then pure (0, 0)
    else
      let propData1 := (propData + 1) % 65536
      let propNo := propSize &&& 0x1F
      -- Props are sorted
      if propNo < propertyId then pure (0, 0)
      else
        let numBytes := (propSize >>> 5) + 1
        if propNo = propertyId then pure (propData1, numBytes)
        else GetObjectPropertyInfo.loop zm propertyId fuel ((propData1 + numBytes) % 65536)

/-- Returns prop data address, number of property bytes (0 if not found). -/
def GetObjectPropertyInfo (fuel : Nat) (zm : ZMachine) (objectIndex propertyId : Nat) :
    Except ZError (Nat × Nat) := do
  let propData ← zm.GetFirstPropertyAddress objectIndex
  GetObjectPropertyInfo.loop zm propertyId fuel propData

def GetObjectPropertyAddress (fuel : Nat) (zm : ZMachine) (objectIndex propertyId : Nat) :
    Except ZError Nat := do
  let (address, _) ← GetObjectPropertyInfo fuel zm objectIndex propertyId
  pure address

def GetPropertyDefault (zm : ZMachine) (propertyIndex : Nat) : Except ZError Nat :=
  if propertyIndex < 1 ∨ propertyIndex > 31 then .error .invalidPropertyIndex
  else
    -- 1-based -> 0-based
    GetUint16 zm.buf ((zm.header.objTableAddress + ((propertyIndex - 1) * 2) % 65536) % 2 ^ 32)

def GetObjectProperty (fuel : Nat) (zm : ZMachine) (objectIndex propertyId : Nat) :
    Except ZError Nat := do
  let (propData, numBytes) ← GetObjectPropertyInfo fuel zm objectIndex propertyId
  if propData = 0 then
    -- Get a default one
    zm.GetPropertyDefault propertyId
  else if numBytes = 1 then readAt zm.buf propData
  else if numBytes = 2 then GetUint16 zm.buf propData
  else .error .badPropertyWidth

end ZMachine

/-! ## Object opcodes (ops.go) -/

def ZGetPropAddr (fuel : Nat) (zm : ZMachine) (args : List Nat) : Except ZError ZMachine := do
  let a0 ← readAt args 0
  let a1 ← readAt args 1
  let addr ← ZMachine.GetObjectPropertyAddress fuel zm a0 a1
  zm.StoreResult addr

def ZGetProp (fuel : Nat) (zm : ZMachine) (args : List Nat) : Except ZError ZMachine := do
  let a0 ← readAt args 0
  let a1 ← readAt args 1
  let prop ← ZMachine.GetObjectProperty fuel zm a0 a1
  zm.StoreResult prop

def ZInsertObj (fuel : Nat) (zm : ZMachine) (args : List Nat) : Except ZError ZMachine := do
  let a0 ← readAt args 0
  let a1 ← readAt args 1
  ZMachine.ReparentObject fuel zm a0 a1

def ZRemoveObj (fuel : Nat) (zm : ZMachine) (arg : Nat) : Except ZError ZMachine :=
  ZMachine.UnlinkObject fuel zm arg

/-! ## Well-formedness of the image -/

/-- Every element of the buffer is a byte. -/
def BytesOK (buf : List Nat) : Prop := ∀ x ∈ buf, x < 256

/-- The address of the entry of object `i` (1-based) in the object table. -/
def entryAddr (zm : ZMachine) (i : Nat) : Nat :=
  zm.header.objTableAddress + 62 + (i - 1) * 9

/-- An image with three objects; the object table is at address 0. Object 2 is the only
child of object 1, object 3 has no parent. All three share the property table at address
89: no name, property 18 (2 bytes `AB CD`), property 10 (1 byte `7F`), property 5 (3
bytes). The default of property 5 is `0x1234`. -/
def exampleObjects : ZMachine :=
  { ip := 0
    header := ZHeader.mk 3 0 0 0 0 0 0 0
    buf := [0, 0, 0, 0, 0, 0, 0, 0, 0x12, 0x34] ++ List.replicate 52 0 ++
      [0x80, 0, 0, 1, 0, 0, 2, 0, 89,
       0, 0, 0, 0, 1, 0, 0, 0, 89,
       0, 0, 0, 0, 0, 0, 0, 0, 89,
       0, 0x32, 0xAB, 0xCD, 0x0A, 0x7F, 0x45, 1, 2, 3, 0]
    stack := NewStack
    Done := false }

/-- The image of `exampleObjects` with objects 2 and 3 both children of object 1, in this
order. -/
def exampleSiblings : ZMachine :=
  { exampleObjects with
    buf := [0, 0, 0, 0, 0, 0, 0, 0, 0x12, 0x34] ++ List.replicate 52 0 ++
      [0x80, 0, 0, 1, 0, 0, 2, 0, 89,
       0, 0, 0, 0, 1, 3, 0, 0, 89,
       0, 0, 0, 0, 1, 0, 0, 0, 89,
       0, 0x32, 0xAB, 0xCD, 0x0A, 0x7F, 0x45, 1, 2, 3, 0] }

/-- Sibling chain, `SiblingChain zm c l`: following the sibling fields from object `c` visits exactly
the objects of `l`, in this order, and then reaches the null object. A chain that is a
finite list is acyclic. -/
def SiblingChain (zm : ZMachine) : Nat → List Nat → Prop
  | c, [] => c = NULL_OBJECT_INDEX
  | c, x :: xs =>
    c = x ∧ x ≠ NULL_OBJECT_INDEX ∧ ∃ s, zm.GetSibling x = .ok s ∧ SiblingChain zm s xs

/-- The child chain of object `p` is the list `l`: the chain of siblings that starts at
the first child of `p`. -/
def ChildChain (zm : ZMachine) (p : Nat) (l : List Nat) : Prop :=
  ∃ c, zm.GetFirstChild p = .ok c ∧ SiblingChain zm c l

/-- A well-formed object tree with objects `1..n`: the entries of the objects lie in the
buffer, the parent of an object is the null object or one of the objects, and every object
has an acyclic child chain whose members are exactly the objects that name it as their
parent. -/
def WellFormedTree (zm : ZMachine) (n : Nat) : Prop :=
  n ≤ 255 ∧ zm.header.objTableAddress < 65536 ∧ entryAddr zm n + 9 ≤ zm.buf.length ∧
  (∀ o, 1 ≤ o → o ≤ n → ∃ q, zm.GetParentObject o = .ok q ∧ q ≤ n) ∧
  (∀ p, 1 ≤ p → p ≤ n → ∃ l, ChildChain zm p l ∧
    ∀ o, o ∈ l ↔ (1 ≤ o ∧ o ≤ n ∧ zm.GetParentObject o = .ok p))

namespace ZMachine

/-- The search loop of `SetObjectProperty`; `propData` is a `uint32`. The loop ends with
the iteration that finds the property (`found`), so that iteration returns the new state;
leaving the loop without `found` is the panic `Property not found!`. Every iteration uses
one unit of fuel. -/
def SetObjectProperty.loop (zm : ZMachine) (propertyId value : Nat) :
    Nat → Nat → Except ZError ZMachine
  | 0, _ => .error .outOfFuel
  | fuel + 1, propData => do
    let propSize ← readAt zm.buf propData
    if propSize = 0 then .error .propertyNotFound
    else
      let propData1 := (propData + 1) % 2 ^ 32
      let propNo := propSize &&& 0x1F
      -- Props are sorted
      if propNo < propertyId then .error .propertyNotFound
      else
        let numBytes := ((propSize >>> 5) + 1) % 256
        if propNo = propertyId then
          if numBytes = 1 then do
            let buf ← writeAt zm.buf propData1 ((value &&& 0xFF) % 256)
            pure { zm with buf := buf }
          else if numBytes = 2 then zm.SetUint16 propData1 value
          else .error .badPropertyWidth
        else SetObjectProperty.loop zm propertyId value fuel ((propData1 + numBytes) % 2 ^ 32)

def SetObjectProperty (fuel : Nat) (zm : ZMachine) (objectIndex propertyId value : Nat) :
    Except ZError ZMachine := do
  let objectEntryAddress ← zm.GetObjectEntryAddress objectIndex
  let propertiesAddress ← GetUint16 zm.buf ((objectEntryAddress + 7) % 2 ^ 32)
  let nameByte ← readAt zm.buf propertiesAddress
  let nameLength := (nameByte * 2) % 65536 -- in 2-byte words
  -- Find property
  let propData := (propertiesAddress + nameLength + 1) % 65536
  SetObjectProperty.loop zm propertyId value fuel propData

end ZMachine

def ZPutProp (fuel : Nat) (zm : ZMachine) (args : List Nat) : Except ZError ZMachine := do
  let a0 ← readAt args 0
  let a1 ← readAt args 1
  let a2 ← readAt args 2
  ZMachine.SetObjectProperty fuel zm a0 a1 a2

/-- Opcode `storew array word-index value`; the address is computed in `uint16`. -/
def ZStoreW (zm : ZMachine) (args : List Nat) : Except ZError ZMachine := do
  let a0 ← readAt args 0
  let a1 ← readAt args 1
  let address := (a0 + (a1 * 2) % 65536) % 65536
  if !zm.IsSafeToWrite address then .error .accessViolation
  else do
    let a2 ← readAt args 2
    zm.SetUint16 address a2

/-- Opcode `storeb array byte-index value`; the address is computed in `uint16`. -/
def ZStoreB (zm : ZMachine) (args : List Nat) : Except ZError ZMachine := do
  let a0 ← readAt args 0
  let a1 ← readAt args 1
  let address := (a0 + a1) % 65536
  if !zm.IsSafeToWrite address then .error .accessViolation
  else do
    let a2 ← readAt args 2
    let buf ← writeAt zm.buf address (a2 % 256)
    pure { zm with buf := buf }

/-! ## Text (vars.go, zmachine.go) -/

/-- The three alphabets, as lists of character codes. -/
def alphabets : List (List Nat) :=
  ["abcdefghijklmnopqrstuvwxyz".toList.map Char.toNat,
   "ABCDEFGHIJKLMNOPQRSTUVWXYZ".toList.map Char.toNat,
   " \n0123456789.,!?_#\x27\x22/\x5c-:()".toList.map Char.toNat]

/-- Go `strings.IndexByte`: the index of the first occurrence of `c`, if there is one. -/
def IndexByte : List Nat → Nat → Option Nat
  | [], _ => none
  | x :: xs, c => if x = c then some 0 else (IndexByte xs c).map (fun k => k + 1)

/-- The alphabet search of `EncodeText`: the first alphabet, from number `a` on, that
contains `c`, as `(ai, alphabetType)`; `none` stands for `ai = -1`. -/
def EncodeText.findAlphabet (c : Nat) : List (List Nat) → Nat → Option (Nat × Nat)
  | [], _ => none
  | al :: rest, a =>
    match IndexByte al c with
    | some index => some (index, a)
    | none => EncodeText.findAlphabet c rest (a + 1)

/-- The main loop of `EncodeText` (`for i < 6`), with `encodedChars` a slice of 12 bytes.
Every iteration uses one unit of fuel. -/
def EncodeText.loop (txt : List Nat) : Nat → Nat → Nat → List Nat → Except ZError (List Nat)
  | 0, i, _, encodedChars => if i < 6 then .error .outOfFuel else pure encodedChars
  | fuel + 1, i, j, encodedChars =>
    if i < 6 then
      if j < txt.length then do
        let c ← readAt txt j
        -- See if we can find any alphabet
        match EncodeText.findAlphabet c alphabets 0 with
        | some (ai, alphabetType) =>
          if alphabetType ≠ 0 then do
            -- Alphabet change
            let e1 ← writeAt encodedChars i ((alphabetType + 3) % 256)
            let e2 ← writeAt e1 (i + 1) ((ai + 6) % 256)
            EncodeText.loop txt fuel (i + 2) (j + 1) e2
          else do
            let e1 ← writeAt encodedChars i ((ai + 6) % 256)
            EncodeText.loop txt fuel (i + 1) (j + 1) e1
        | none => do
          -- 10-bit ZC
          let e1 ← writeAt encodedChars i 5
          let e2 ← writeAt e1 (i + 1) 6
          let e3 ← writeAt e2 (i + 2) (c >>> 5)
          let e4 ← writeAt e3 (i + 3) (c &&& 0x1F)
          EncodeText.loop txt fuel (i + 4) (j + 1) e4
      else do
        -- Padding
        let e1 ← writeAt encodedChars i 5
        EncodeText.loop txt fuel (i + 1) j e1
    else pure encodedChars

/-- Encoding of a text (a list of bytes) for the dictionary. The loop gets fuel 6: every
iteration increases `i`, so it runs at most six times. Does not support abbreviations. -/
def EncodeText (txt : List Nat) : Except ZError Nat := do
  let encodedChars ← EncodeText.loop txt 6 0 0 (List.replicate 12 0)
  let c0 ← readAt encodedChars 0
  let c1 ← readAt encodedChars 1
  let c2 ← readAt encodedChars 2
  let c3 ← readAt encodedChars 3
  let c4 ← readAt encodedChars 4
  let c5 ← readAt encodedChars 5
  let w0 := ((c0 <<< 10) % 65536) ||| ((c1 <<< 5) % 65536) ||| c2
  let w1 := (((c3 <<< 10) % 65536) ||| ((c4 <<< 5) % 65536) ||| c5) ||| 0x8000
  pure (((w0 <<< 16) % 2 ^ 32) ||| w1)

/-- The characters `PrintZChar` writes for a ZSCII code: a newline for 13, the character
itself for 32 to 126, nothing otherwise. -/
def PrintZChar (ch : Nat) : List Nat :=
  if ch = 13 then [10]
  else if ch ≥ 32 ∧ ch ≤ 126 then [ch]
  else []

/-- The first loop of `DecodeZString`: reads words from `i` on until one has its top bit
set; returns the Z-characters and the offset after the last word. Every iteration uses one
unit of fuel. -/
def DecodeZString.readWords (buf : List Nat) : Nat → Nat → List Nat →
    Except ZError (List Nat × Nat)
  | 0, _, _ => .error .outOfFuel
  | fuel + 1, i, zchars => do
    let w16 ← GetUint16 buf i
    let zchars1 := zchars ++ [(w16 >>> 10) &&& 0x1F, (w16 >>> 5) &&& 0x1F, w16 &&& 0x1F]
    if w16 &&& 0x8000 ≠ 0 then pure (zchars1, (i + 2) % 2 ^ 32)
    else DecodeZString.readWords buf fuel ((i + 2) % 2 ^ 32) zchars1

/-- The second loop of `DecodeZString` (`for i := 0; i < len(zchars); i++`): `out` is the
text written so far and `decodeAbbrev` the recursive call for an abbreviation, which
returns the text it writes. Every iteration uses one of the `steps`. -/
def DecodeZString.chars (decodeAbbrev : Nat → Except ZError (List Nat)) (zm : ZMachine)
    (zchars : List Nat) : Nat → Nat → Nat → List Nat → Except ZError (List Nat)
  | 0, i, _, out => if i < zchars.length then .error .outOfFuel else pure out
  | steps + 1, i, alphabetType, out =>
    if i < zchars.length then do
      let zc ← readAt zchars i
      if zc > 0 ∧ zc < 4 then do
        -- Abbreviation
        let abbrevIndex ← readAt zchars (i + 1)
        let abbrevAddress ← GetUint16 zm.buf ((zm.header.abbreviationTable +
          (((32 * (zc - 1) + abbrevIndex) % 256) * 2) % 2 ^ 32) % 2 ^ 32)
        let sub ← decodeAbbrev (PackedAddress abbrevAddress)
        DecodeZString.chars decodeAbbrev zm zchars steps (i + 2) 0 (out ++ sub)
      else if zc = 4 then DecodeZString.chars decodeAbbrev zm zchars steps (i + 1) 1 out
      else if zc = 5 then DecodeZString.chars decodeAbbrev zm zchars steps (i + 1) 2 out
      else if alphabetType = 2 ∧ zc = 6 then do
        -- ten-bit ZSCII character code
        let z1 ← readAt zchars (i + 1)
        let z2 ← readAt zchars (i + 2)
        let zc10 := ((z1 <<< 5) % 65536) ||| z2
        DecodeZString.chars decodeAbbrev zm zchars steps (i + 3) 0 (out ++ PrintZChar zc10)
      else if zc = 0 then
        DecodeZString.chars decodeAbbrev zm zchars steps (i + 1) 0 (out ++ [32])
      else do
        -- here zc >= 6; alphabet tables are indexed starting at 6
        let al ← match alphabets[alphabetType]? with
          | some al => pure al
          | none => .error .indexOutOfRange
        let ch ← readAt al (zc - 6)
        DecodeZString.chars decodeAbbrev zm zchars steps (i + 1) 0 (out ++ [ch])
    else pure out

/-- Decoding of the Z-string at `startOffset` (version 3): returns the text written and
the offset just after the string data. The fuel bounds the number of words of a string
and the nesting of abbreviations; the second loop gets one step for each Z-character. -/
def DecodeZString : Nat → ZMachine → Nat → Except ZError (List Nat × Nat)
  | 0, _, _ => .error .outOfFuel
  | fuel + 1, zm, startOffset => do
    let (zchars, i) ← DecodeZString.readWords zm.buf (fuel + 1) startOffset []
    let out ← DecodeZString.chars
      (fun a => do
        let r ← DecodeZString fuel zm a
        pure r.1) zm zchars zchars.length 0 0 []
    pure (out, i)

/-- Opcode `print`: writes the inline string and moves `ip` past it. -/
def ZPrint (fuel : Nat) (zm : ZMachine) : Except ZError (List Nat × ZMachine) := do
  let (out, i) ← DecodeZString fuel zm zm.ip
  pure (out, { zm with ip := i })

/-! ## Dictionary (zmachine.go) -/

/-- The binary search of `FindInDictionary`; the bounds are `uint16`. Every iteration
uses one unit of fuel. -/
def FindInDictionary.search (buf : List Nat) (entriesAddress entryLength encodedText : Nat) :
    Nat → Nat → Nat → Except ZError Nat
  | 0, lowerBound, upperBound =>
    if lowerBound ≤ upperBound then .error .outOfFuel else pure DICT_NOT_FOUND
  | fuel + 1, lowerBound, upperBound =>
    if lowerBound ≤ upperBound then do
      let currentIndex := (lowerBound + (upperBound - lowerBound) / 2) % 65536
      let offset := (entriesAddress + (currentIndex * entryLength) % 65536) % 2 ^ 32
      let dictValue ← GetUint32 buf offset
      if encodedText < dictValue then
        FindInDictionary.search buf entriesAddress entryLength encodedText fuel lowerBound
          ((currentIndex + 65536 - 1) % 65536)
      else if encodedText > dictValue then
        FindInDictionary.search buf entriesAddress entryLength encodedText fuel
          ((currentIndex + 1) % 65536) upperBound
      else pure (offset % 65536)
    else pure DICT_NOT_FOUND

/-- Returns `DICT_NOT_FOUND` (= 0) if not found, the address in the dictionary
otherwise. -/
def FindInDictionary (fuel : Nat) (zm : ZMachine) (str : List Nat) : Except ZError Nat := do
  let numSeparators ← readAt zm.buf zm.header.dictAddress
  let entryLength ← readAt zm.buf ((zm.header.dictAddress + 1 + numSeparators) % 2 ^ 32)
  let numEntries ← GetUint16 zm.buf ((zm.header.dictAddress + 1 + numSeparators + 1) % 2 ^ 32)
  let entriesAddress := (zm.header.dictAddress + 1 + numSeparators + 1 + 2) % 2 ^ 32
  -- Dictionary entries are sorted, so we can use binary search
  let upperBound := (numEntries + 65536 - 1) % 65536
  let encodedText ← EncodeText str
  FindInDictionary.search zm.buf entriesAddress entryLength encodedText fuel 0 upperBound

/-! ## Specification-side functions and further example states -/

/-- A six-byte image whose static memory starts at address 4: the bytes at 0..3 are
dynamic memory, the bytes at 4 and 5 are not writable. -/
def exampleStore : ZMachine :=
  { ip := 0
    header := ZHeader.mk 3 0 0 0 0 0 4 0
    buf := [0, 0, 0, 0, 0, 0]
    stack := NewStack
    Done := false }

/-- The Z-characters that stand for one byte `c` in an encoded text: `[k + 6]` when `c`
is at index `k` of alphabet 0, `[4, k + 6]` when at index `k` of alphabet 1, `[5, k + 6]`
when at index `k` of alphabet 2 (the alphabets are tried in this order), and the escape
`[5, 6, c >>> 5, c &&& 0x1F]` when `c` is in no alphabet. -/
def charZchars (c : Nat) : List Nat :=
  if c ∈ alphabets.getD 0 [] then [(alphabets.getD 0 []).indexOf c + 6]
  else if c ∈ alphabets.getD 1 [] then [4, (alphabets.getD 1 []).indexOf c + 6]
  else if c ∈ alphabets.getD 2 [] then [5, (alphabets.getD 2 []).indexOf c + 6]
  else [5, 6, c >>> 5, c &&& 0x1F]

/-- The Z-characters of a text: those of its bytes, one after the other. -/
def textZchars : List Nat → List Nat
  | [] => []
  | c :: cs => charZchars c ++ textZchars cs

/-- A four-byte image that holds the encoded text of `"lookou"`: the words `0x4694` and
`0xC29A`. -/
def exampleLookout : ZMachine :=
  { ip := 0
    header := ZHeader.mk 3 0 0 0 0 0 0 0
    buf := [0x46, 0x94, 0xC2, 0x9A]
    stack := NewStack
    Done := false }

/-- A five-byte image that holds the words `0x11AA` and `0xC634` at address 1. -/
def exampleHello : ZMachine :=
  { ip := 1
    header := ZHeader.mk 3 0 0 0 0 0 0 0
    buf := [0, 0x11, 0xAA, 0xC6, 0x34]
    stack := NewStack
    Done := false }

/-- A two-byte image that holds the word `0x94C0`: the Z-characters 5, 6, 0 and the top
bit, that is the start of a ten-bit character code that lacks its last Z-character. -/
def exampleTruncated : ZMachine :=
  { ip := 0
    header := ZHeader.mk 3 0 0 0 0 0 0 0
    buf := [0x94, 0xC0]
    stack := NewStack
    Done := false }

/-- Strictly ascending keys: of two keys of the list the one at the smaller index is the
smaller number. -/
def Ascending (keys : List Nat) : Prop :=
  ∀ (i j x y : Nat), i < j → keys[i]? = some x → keys[j]? = some y → x < y

/-- The address of the first entry of the dictionary, after `sep` separator bytes. -/
def dictEntries (zm : ZMachine) (sep : Nat) : Nat :=
  zm.header.dictAddress + 1 + sep + 1 + 2

/-- Dictionary layout, `DictLayout zm sep len keys`: at the dictionary address the buffer holds the
number `sep` of separators, after the separators the entry length `len` and the big-endian
number of entries, and then the entries, of `len` bytes each, where entry `k` starts with
the big-endian 32-bit number `keys[k]`. The entries take less than 65536 bytes, and the
key of every entry lies in the buffer and below address 65536. -/
def DictLayout (zm : ZMachine) (sep len : Nat) (keys : List Nat) : Prop :=
  zm.buf[zm.header.dictAddress]? = some sep ∧
  zm.buf[zm.header.dictAddress + 1 + sep]? = some len ∧
  GetUint16 zm.buf (zm.header.dictAddress + 1 + sep + 1) = .ok keys.length ∧
  keys.length < 65536 ∧ dictEntries zm sep < 65536 ∧ keys.length * len < 65536 ∧
  ∀ k v, keys[k]? = some v →
    GetUint32 zm.buf (dictEntries zm sep + k * len) = .ok v ∧
    dictEntries zm sep + k * len + 3 < 65536

/-- A linear scan over `r` dictionary entries from entry `j` on: the address of the first
entry whose key is `v`, or `DICT_NOT_FOUND`. -/
def linearScan (buf : List Nat) (entriesAddress entryLength v : Nat) :
    Nat → Nat → Except ZError Nat
  | 0, _ => pure DICT_NOT_FOUND
  | r + 1, j => do
    let key ← GetUint32 buf (entriesAddress + j * entryLength)
    if key = v then pure (entriesAddress + j * entryLength)
    else linearScan buf entriesAddress entryLength v r (j + 1)

/-- Dictionary lookup by a linear scan over all entries, from the first one on. -/
def FindInDictionaryLinear (zm : ZMachine) (str : List Nat) : Except ZError Nat := do
  let numSeparators ← readAt zm.buf zm.header.dictAddress
  let entryLength ← readAt zm.buf (zm.header.dictAddress + 1 + numSeparators)
  let numEntries ← GetUint16 zm.buf (zm.header.dictAddress + 1 + numSeparators + 1)
  let encodedText ← EncodeText str
  linearScan zm.buf (zm.header.dictAddress + 1 + numSeparators + 1 + 2) entryLength encodedText
    numEntries 0

/-- An image that is a dictionary at address 0: no separators, entries of 4 bytes, and
the two entries `"look"` (`0x4694C0A5`, at address 4) and `"zork"` (`0x7E97C0A5`, at
address 8). -/
def exampleDict : ZMachine :=
  { ip := 0
    header := ZHeader.mk 3 0 0 0 0 0 0 0
    buf := [0, 4, 0, 2, 0x46, 0x94, 0xC0, 0xA5, 0x7E, 0x97, 0xC0, 0xA5]
    stack := NewStack
    Done := false }

/-- An image that is a dictionary without entries. -/
def exampleEmptyDict : ZMachine :=
  { ip := 0
    header := ZHeader.mk 3 0 0 0 0 0 0 0
    buf := [0, 4, 0, 0]
    stack := NewStack
    Done := false }

/-- The three Z-characters of a 16-bit word of a Z-string. -/
def wordZchars (w : Nat) : List Nat :=
  [w / 1024 % 32, w / 32 % 32, w % 32]

/-- The Z-characters of a Z-string given as the list of its words. -/
def stringZchars : List Nat → List Nat
  | [] => []
  | w :: ws => wordZchars w ++ stringZchars ws

/-! ## Signed arithmetic (ops.go) -/

/-- Go conversion `int16(x)` of a `uint16` value. -/
def toInt16 (x : Nat) : Int :=
  if x % 65536 < 32768 then ((x % 65536 : Nat) : Int) else ((x % 65536 : Nat) : Int) - 65536

/-- The `int16` value that an integer result wraps around to. -/
def wrapInt16 (i : Int) : Int := (i + 32768) % 65536 - 32768

/-- Go conversion `uint16(i)` of a signed value. -/
def toUint16 (i : Int) : Nat := (i % 65536).toNat

/-- Go conversion `int32(x)` of a `uint32` value. -/
def toInt32 (x : Nat) : Int :=
  if x % 2 ^ 32 < 2 ^ 31 then ((x % 2 ^ 32 : Nat) : Int) else ((x % 2 ^ 32 : Nat) : Int) - 2 ^ 32

/-- The `int32` value that an integer result wraps around to. -/
def wrapInt32 (i : Int) : Int := (i + 2 ^ 31) % 2 ^ 32 - 2 ^ 31

/-- Go conversion `uint32(i)` of a signed value. -/
def toUint32 (i : Int) : Nat := (i % 2 ^ 32).toNat

def ZAdd (zm : ZMachine) (args : List Nat) : Except ZError ZMachine := do
  let a0 ← readAt args 0
  let a1 ← readAt args 1
  let r := wrapInt16 (toInt16 a0 + toInt16 a1)
  zm.StoreResult (toUint16 r)

def ZSub (zm : ZMachine) (args : List Nat) : Except ZError ZMachine := do
  let a0 ← readAt args 0
  let a1 ← readAt args 1
  let r := wrapInt16 (toInt16 a0 - toInt16 a1)
  zm.StoreResult (toUint16 r)

def ZMul (zm : ZMachine) (args : List Nat) : Except ZError ZMachine := do
  let a0 ← readAt args 0
  let a1 ← readAt args 1
  let r := wrapInt16 (toInt16 a0 * toInt16 a1)
  zm.StoreResult (toUint16 r)

/-- Opcode `div`; the Go operator `/` on `int16` truncates toward zero and wraps around. -/
def ZDiv (zm : ZMachine) (args : List Nat) : Except ZError ZMachine := do
  let b ← readAt args 1
  if b = 0 then .error .divisionByZero
  else do
    let a0 ← readAt args 0
    let a1 ← readAt args 1
    let r := wrapInt16 (Int.tdiv (toInt16 a0) (toInt16 a1))
    zm.StoreResult (toUint16 r)

/-- Opcode `mod`; the Go operator `%` on `int16` is the remainder of the truncated
division. -/
def ZMod (zm : ZMachine) (args : List Nat) : Except ZError ZMachine := do
  let b ← readAt args 1
  if b = 0 then .error .divisionByZero
  else do
    let a0 ← readAt args 0
    let a1 ← readAt args 1
    let r := wrapInt16 (Int.tmod (toInt16 a0) (toInt16 a1))
    zm.StoreResult (toUint16 r)

/-! ## Branches (ops.go) -/

/-- Reads the branch data at `ip` and jumps, returns or goes on. The `|` of the two `int16`
halves of a long offset is taken on their 16-bit patterns. -/
def GenericBranch (zm : ZMachine) (conditionSatisfied : Bool) : Except ZError ZMachine := do
  let (branchInfo, zm1) ← zm.ReadByte
  -- if bit 7 of the first byte is 0, a branch occurs when the condition was false
  let branchOnFalse : Bool := decide ((branchInfo >>> 7) = 0)
  -- returnFromCurrent: 0 = return false, 1 = return true, 2 = standard jump
  let (branchOffset, returnFromCurrent, zm2) ←
    (if (branchInfo &&& (1 <<< 6)) ≠ 0 then
      let branchOffset : Int := ((branchInfo &&& 0x3F : Nat) : Int)
      pure (branchOffset, (if branchOffset ≤ 1 then branchOffset else 2), zm1)
    else do
      let (secondPart, zm2) ← zm1.ReadByte
      let firstPart := branchInfo &&& 0x3F
      -- propagate the sign bit
      let firstPart := if (firstPart &&& 0x20) ≠ 0 then firstPart ||| ((1 <<< 6) ||| (1 <<< 7))
        else firstPart
      let branchOffset16 := toInt16 (((firstPart <<< 8) % 65536) ||| secondPart)
      pure (branchOffset16, 2, zm2) : Except ZError (Int × Int × ZMachine))
  let ip := toInt32 zm2.ip
  let jumpAddress := wrapInt32 (ip + branchOffset - 2)
  let doJump := conditionSatisfied != branchOnFalse
  if doJump then
    if returnFromCurrent ≠ 2 then ZRet zm2 (toUint16 returnFromCurrent)
    else pure { zm2 with ip := toUint32 jumpAddress }
  else pure zm2

/-! ## Operands and instruction decoding (zmachine.go) -/

namespace ZMachine

/-- Reads one operand of the given type at `ip`; the type is a byte. -/
def GetOperand (zm : ZMachine) (operandType : Nat) : Except ZError (Nat × ZMachine) :=
  if operandType = OPERAND_SMALL then do
    let retValue ← readAt zm.buf zm.ip
    pure (retValue, { zm with ip := (zm.ip + 1) % 2 ^ 32 })
  else if operandType = OPERAND_VARIABLE then do
    let varType ← readAt zm.buf zm.ip
    -- 0 = top of the stack, 1 - 0xF = locals, 0x10 - 0xFF = globals
    let (retValue, zm1) ←
      (if varType = 0 then do
        let (v, st) ← zm.stack.Pop
        pure (v, { zm with stack := st })
      else if varType < 0x10 then do
        let v ← zm.stack.GetLocalVar (varType - 1)
        pure (v, zm)
      else do
        let v ← zm.ReadGlobal varType
        pure (v, zm) : Except ZError (Nat × ZMachine))
    pure (retValue, { zm1 with ip := (zm1.ip + 1) % 2 ^ 32 })
  else if operandType = OPERAND_LARGE then do
    let retValue ← GetUint16 zm.buf zm.ip
    pure (retValue, { zm with ip := (zm.ip + 2) % 2 ^ 32 })
  else if operandType = OPERAND_OMITTED then pure (0, zm)
  else .error .unknownOperandType

/-- The loop of `GetOperands`: `n` iterations are left, `shift` is a `uint8`. Returns
`numOperands`, the slice `operandValues` and the machine. -/
def GetOperands.loop (opTypesByte : Nat) :
    Nat → Nat → ZMachine → List Nat → Nat → Except ZError (Nat × List Nat × ZMachine)
  | 0, _, zm, operandValues, numOperands => pure (numOperands, operandValues, zm)
  | n + 1, shift, zm, operandValues, numOperands =>
    let opType := (opTypesByte >>> shift) &&& 0x3
    if opType = OPERAND_OMITTED then pure (numOperands, operandValues, zm)
    else do
      let (opValue, zm1) ← zm.GetOperand opType
      let operandValues1 ← writeAt operandValues numOperands opValue
      GetOperands.loop opTypesByte n ((shift + 256 - 2) % 256) zm1 operandValues1
        ((numOperands + 1) % 65536)

/-- Reads up to four operands whose types are the 2-bit fields of `opTypesByte`, most
significant first, into `operandValues`. -/
def GetOperands (zm : ZMachine) (opTypesByte : Nat) (operandValues : List Nat) :
    Except ZError (Nat × List Nat × ZMachine) :=
  GetOperands.loop opTypesByte 4 6 zm operandValues 0

end ZMachine

/-- Go type `ZFunction`: the handler of a 2OP or VAR opcode gets the machine, the operand
values and their number. -/
abbrev ZFunction := ZMachine → List Nat → Nat → Except ZError ZMachine

/-- Go type `ZFunction1Op`. -/
abbrev ZFunction1Op := ZMachine → Nat → Except ZError ZMachine

/-- Go type `ZFunction0Op`. -/
abbrev ZFunction0Op := ZMachine → Except ZError ZMachine

/-- The four tables of opcode handlers `ZFunctions_VAR`, `ZFunctions_2OP`, `ZFunctions_1OP`
and `ZFunctions_0P` of vars.go. The decoder is embedded for arbitrary tables. -/
structure ZFunctions where
  fVAR : List ZFunction
  f2OP : List ZFunction
  f1OP : List ZFunction1Op
  f0P : List ZFunction0Op

namespace ZMachine

def InterpretVARInstruction (fns : ZFunctions) (zm : ZMachine) : Except ZError ZMachine := do
  let (opcode, zm1) ← zm.ReadByte
  -- in variable form, if bit 5 is 0 then the count is 2OP; if it is 1, then the count is VAR
  let instruction := opcode &&& 0x1F
  let twoOp : Bool := decide (((opcode >>> 5) &&& 0x1) = 0)
  let (opTypesByte, zm2) ← zm1.ReadByte
  let (numOperands, opValues, zm3) ← zm2.GetOperands opTypesByte (List.replicate 4 0)
  if twoOp then
    match fns.f2OP[instruction]? with
    | some fn => fn zm3 opValues numOperands
    | none => .error .indexOutOfRange
  else
    match fns.fVAR[instruction]? with
    | some fn => fn zm3 opValues numOperands
    | none => .error .indexOutOfRange

def InterpretShortInstruction (fns : ZFunctions) (zm : ZMachine) : Except ZError ZMachine := do
  let (opcode, zm1) ← zm.ReadByte
  let opType := (opcode >>> 4) &&& 0x3
  let instruction := opcode &&& 0x0F
  if opType ≠ OPERAND_OMITTED then do
    let (opValue, zm2) ← zm1.GetOperand opType
    match fns.f1OP[instruction]? with
    | some fn => fn zm2 opValue
    | none => .error .indexOutOfRange
  else
    match fns.f0P[instruction]? with
    | some fn => fn zm1
    | none => .error .indexOutOfRange

def InterpretLongInstruction (fns : ZFunctions) (zm : ZMachine) : Except ZError ZMachine := do
  let (opcode, zm1) ← zm.ReadByte
  -- in long form the operand count is always 2OP
  let instruction := opcode &&& 0x1F
  let operandType0 := (((opcode &&& 0x40) >>> 6) + 1) % 256
  let operandType1 := (((opcode &&& 0x20) >>> 5) + 1) % 256
  let (opValue0, zm2) ← zm1.GetOperand operandType0
  let (opValue1, zm3) ← zm2.GetOperand operandType1
  let opValues := [opValue0, opValue1]
  match fns.f2OP[instruction]? with
  | some fn => fn zm3 opValues 2
  | none => .error .indexOutOfRange

def InterpretInstruction (fns : ZFunctions) (zm : ZMachine) : Except ZError ZMachine := do
  let opcode ← zm.PeekByte
  -- the form is stored in the top 2 bits
  let form := (opcode >>> 6) &&& 0x3
  if form = 0x2 then zm.InterpretShortInstruction fns
  else if form = 0x3 then zm.InterpretVARInstruction fns
  else zm.InterpretLongInstruction fns

end ZMachine

/-! ## Reading a line (ops.go) -/

/-- Go `copy(buf[lo:hi], src)` for a slice `buf` of capacity `capacity` (at least its
length): the slice expression needs `lo ≤ hi ≤ cap(buf)`; as many bytes are copied as fit
into `hi - lo`, and the bytes copied to positions from `len(buf)` on are outside `buf`. -/
def copyInto (capacity : Nat) (buf : List Nat) (lo hi : Nat) (src : List Nat) :
    Except ZError (List Nat) :=
  if lo > hi ∨ hi > capacity then .error .sliceBoundsOutOfRange
  else pure (buf.take lo ++ (src.take (hi - lo)).take (buf.length - lo) ++
    buf.drop (lo + min (hi - lo) src.length))

/-- The first stage of `ZRead`, up to the store of the terminator: `input` is the line
read from the standard input, after `strings.ToLower` and `strings.Trim`, and `capacity`
is the capacity of the slice `zm.buf`. The addresses are `uint16`. -/
def ZRead.storeInput (capacity : Nat) (zm : ZMachine) (args : List Nat) (input : List Nat) :
    Except ZError ZMachine := do
  let textAddress ← readAt args 0
  let maxChars ← readAt zm.buf textAddress
  if maxChars = 0 then .error .invalidMaxChars
  else do
    let maxChars := maxChars - 1
    let buf1 ← copyInto capacity zm.buf ((textAddress + 1) % 65536)
      ((textAddress + maxChars) % 65536) input
    let buf2 ← writeAt buf1 ((textAddress + input.length % 65536 + 1) % 65536) 0
    pure { zm with buf := buf2 }

/-- The loop of `ZRead` that splits the text at spaces; `i` and `prevWordStart` are
`uint16`. Returns `words`, `wordStarts`, `prevWordStart` and `stringBuffer` at the end of
the loop. Every iteration uses one unit of fuel. -/
def ZRead.split (buf : List Nat) (textAddress : Nat) :
    Nat → Nat → Nat → List Nat → List (List Nat) → List Nat →
      Except ZError (List (List Nat) × List Nat × Nat × List Nat)
  | 0, _, _, _, _, _ => .error .outOfFuel
  | fuel + 1, i, prevWordStart, stringBuffer, words, wordStarts => do
    let ch ← readAt buf ((textAddress + i) % 65536)
    if ch = 0 then pure (words, wordStarts, prevWordStart, stringBuffer)
    else if ch = 32 then
      if prevWordStart < 0xFFFF then
        ZRead.split buf textAddress fuel ((i + 1) % 65536) 0xFFFF []
          (words ++ [stringBuffer]) (wordStarts ++ [prevWordStart])
      else
        ZRead.split buf textAddress fuel ((i + 1) % 65536) 0xFFFF stringBuffer words wordStarts
    else
      ZRead.split buf textAddress fuel ((i + 1) % 65536)
        (if prevWordStart = 0xFFFF then i else prevWordStart) (stringBuffer ++ [ch]) words
        wordStarts

/-- The words of the text buffer and their start offsets: the loop of `ZRead` from
`i = 1` with `prevWordStart = 1`, and the last word. -/
def ZRead.words (fuel : Nat) (buf : List Nat) (textAddress : Nat) :
    Except ZError (List (List Nat) × List Nat) := do
  let (words, wordStarts, prevWordStart, stringBuffer) ←
    ZRead.split buf textAddress fuel 1 1 [] [] []
  -- last word
  if prevWordStart < 0xFFFF then pure (words ++ [stringBuffer], wordStarts ++ [prevWordStart])
  else pure (words, wordStarts)

/-- The loop of `ZRead` that writes one block for each word: `i` is the loop index and
`parseAddress` a `uint32`. -/
def ZRead.blocks (fuel maxTokens : Nat) (wordStarts : List Nat) :
    List (List Nat) → Nat → Nat → ZMachine → Except ZError ZMachine
  | [], _, _, zm => pure zm
  | w :: ws, i, parseAddress, zm =>
    if i % 256 ≥ maxTokens then pure zm
    else do
      let dictionaryAddress ← FindInDictionary fuel zm w
      let zm1 ← zm.SetUint16 parseAddress dictionaryAddress
      let buf2 ← writeAt zm1.buf ((parseAddress + 2) % 2 ^ 32) (w.length % 256)
      let start ← readAt wordStarts i
      let buf3 ← writeAt buf2 ((parseAddress + 3) % 2 ^ 32) (start % 256)
      ZRead.blocks fuel maxTokens wordStarts ws (i + 1) ((parseAddress + 4) % 2 ^ 32)
        { zm1 with buf := buf3 }

/-- Opcode `sread text parse`. The fuel bounds the loop over the text and each dictionary
search; `capacity` is the capacity of the slice `zm.buf`. -/
def ZRead (fuel capacity : Nat) (zm : ZMachine) (args : List Nat) (input : List Nat) :
    Except ZError ZMachine := do
  let zm1 ← ZRead.storeInput capacity zm args input
  let textAddress ← readAt args 0
  let (words, wordStarts) ← ZRead.words fuel zm1.buf textAddress
  let parseAddress ← readAt args 1
  let maxTokens ← readAt zm1.buf parseAddress
  let parseAddress := (parseAddress + 1) % 2 ^ 32
  let numTokens := words.length % 256
  let numTokens := if numTokens > maxTokens then maxTokens else numTokens
  let buf ← writeAt zm1.buf parseAddress numTokens
  let parseAddress := (parseAddress + 1) % 2 ^ 32
  ZRead.blocks fuel maxTokens wordStarts words 0 parseAddress { zm1 with buf := buf }

/-- The branch offset of the branch bytes `B`, `S`: the low six bits of `B` when bit 6 of `B`
is set, and otherwise the 14-bit number made of the low six bits of `B` and of `S`, read
as a signed number. -/
def branchOffsetRef (B S : Nat) : Int :=
  if B.testBit 6 then ((B % 64 : Nat) : Int)
  else if (B % 64) * 256 + S < 8192 then (((B % 64) * 256 + S : Nat) : Int)
  else (((B % 64) * 256 + S : Nat) : Int) - 16384

/-- The number of branch bytes: 1 when bit 6 of the first byte is set, and 2 otherwise. -/
def branchLength (B : Nat) : Nat := if B.testBit 6 then 1 else 2

/-- A two-byte image with the branch byte `0xC1` at address 0: branch on true, one-byte
form, offset 1. -/
def exampleBranch : ZMachine :=
  { ip := 0
    header := ZHeader.mk 3 0 0 0 0 0 0 0
    buf := [0xC1, 0x00]
    stack := NewStack
    Done := false }

/-- The four operations of the stack that the invariant is about. -/
inductive StackOp where
  | push (v : Nat)
  | pop
  | saveFrame
  | restoreFrame
  deriving DecidableEq, Repr

/-- One operation on the stack; the value a `Pop` or a `RestoreFrame` returns is dropped. -/
def StackOp.run (s : ZStack) : StackOp → Except ZError ZStack
  | .push v => s.Push v
  | .pop => do
    let (_, s1) ← s.Pop
    pure s1
  | .saveFrame => s.SaveFrame
  | .restoreFrame => do
    let (_, s1) ← s.RestoreFrame
    pure s1

/-- A sequence of operations on the stack, from left to right; it fails when one of the
operations fails. -/
def runOps : List StackOp → ZStack → Except ZError ZStack
  | [], s => pure s
  | op :: ops, s => do
    let s1 ← op.run s
    runOps ops s1

/-- A sequence of stack operations in which a `Pop` consumes the saved frame word and a
`Push` puts 60000 in its place, so that `RestoreFrame` loads `F = 60000`. -/
def exampleFrameOps : List StackOp :=
  [.push 7, .push 8, .push 9, .saveFrame, .pop, .push 60000, .restoreFrame]

/-- The stack that `exampleFrameOps` reaches from the new stack: `T = 1023` and
`F = 60000`. -/
def exampleReloaded : ZStack :=
  { stack := (((((List.replicate MAX_STACK 0).set 1023 7).set 1022 8).set 1021 9).set 1020
      1024).set 1020 60000
    top := 1023
    localFrame := 60000 }

/-- The forms of an instruction. -/
inductive ZForm where
  | long
  | short
  | variable
  deriving DecidableEq, Repr

/-- The operand-count classes of an instruction. -/
inductive ZCount where
  | op0
  | op1
  | op2
  | var
  deriving DecidableEq, Repr

/-- What the decoder finds in an opcode byte and the byte of operand types: the form, the
operand count, the opcode number and the types of the operands that are read. -/
structure ZDecoded where
  form : ZForm
  count : ZCount
  number : Nat
  types : List Nat
  deriving DecidableEq, Repr

/-- The fields before the first `omitted` one. -/
def leadingTypes : List Nat → List Nat
  | [] => []
  | t :: ts => if t = OPERAND_OMITTED then [] else t :: leadingTypes ts

/-- The reference classification of the opcode byte `b` (with `t` the byte after it): top
two bits `11` is the variable form, count 2OP if bit 5 is 0 and VAR otherwise, opcode number
in the low five bits, operand types the leading fields of `t` that are not `omitted`; top
two bits `10` is the short form, operand type in bits 4 and 5, count 0OP if that type is
`omitted` and 1OP otherwise, opcode number in the low four bits; everything else is the long
form, count 2OP, opcode number in the low five bits, the first operand a small constant if
bit 6 is 0 and a variable otherwise, the second likewise from bit 5. -/
def decodeRef (b t : Nat) : ZDecoded :=
  if b / 64 % 4 = 3 then
    { form := .variable
      count := if b / 32 % 2 = 0 then .op2 else .var
      number := b % 32
      types := leadingTypes [t / 64 % 4, t / 16 % 4, t / 4 % 4, t % 4] }
  else if b / 64 % 4 = 2 then
    { form := .short
      count := if b / 16 % 4 = OPERAND_OMITTED then .op0 else .op1
      number := b % 16
      types := if b / 16 % 4 = OPERAND_OMITTED then [] else [b / 16 % 4] }
  else
    { form := .long
      count := .op2
      number := b % 32
      types := [if b / 64 % 2 = 0 then OPERAND_SMALL else OPERAND_VARIABLE,
        if b / 32 % 2 = 0 then OPERAND_SMALL else OPERAND_VARIABLE] }

/-- The number of bytes of an operand: 2 for a large constant, 1 for a small constant or a
variable. -/
def operandSize (t : Nat) : Nat := if t = OPERAND_LARGE then 2 else 1

/-- The number of bytes of the opcode, the byte of operand types of the variable form, and
the operands. -/
def instructionLength (d : ZDecoded) : Nat :=
  1 + (if d.form = .variable then 1 else 0) + (d.types.map operandSize).sum

/-- Reads operands of the given types one after the other. -/
def readOperands : List Nat → ZMachine → Except ZError (List Nat × ZMachine)
  | [], zm => pure ([], zm)
  | t :: ts, zm => do
    let (v, zm1) ← zm.GetOperand t
    let (vs, zm2) ← readOperands ts zm1
    pure (v :: vs, zm2)

/-- The call of a handler in a table; an opcode number outside the table is an index out of
range. -/
def callHandler {α : Type} (table : List α) (number : Nat)
    (call : α → Except ZError ZMachine) : Except ZError ZMachine :=
  match table[number]? with
  | some fn => call fn
  | none => .error .indexOutOfRange

/-- The handler call that belongs to a decoded instruction: the table of the operand count
at the opcode number, with the operand values read (in the variable form in a slice of four
words, together with their number). -/
def dispatchRef (fns : ZFunctions) (d : ZDecoded) (zm : ZMachine) (vals : List Nat) :
    Except ZError ZMachine :=
  match d.form, d.count with
  | .variable, .var =>
    callHandler fns.fVAR d.number
      (fun fn => fn zm (vals ++ List.replicate (4 - vals.length) 0) vals.length)
  | .variable, _ =>
    callHandler fns.f2OP d.number
      (fun fn => fn zm (vals ++ List.replicate (4 - vals.length) 0) vals.length)
  | .short, .op0 => callHandler fns.f0P d.number (fun fn => fn zm)
  | .short, _ => callHandler fns.f1OP d.number (fun fn => fn zm (vals.headD 0))
  | .long, _ => callHandler fns.f2OP d.number (fun fn => fn zm vals 2)

/-- The last `n` of the 2-bit fields of the byte `tb`, most significant first. -/
def typeFields (tb : Nat) : Nat → List Nat
  | 0 => []
  | n + 1 => (tb / 4 ^ n % 4) :: typeFields tb n

/-- A five-byte image with one instruction at address 0: opcode byte `0xE0` (variable form,
count VAR, opcode number 0), the byte of types `0x1F` (a large constant, a small constant,
then omitted), and the operands `0x1234` and `0x05`. -/
def exampleInstruction : ZMachine :=
  { ip := 0
    header := ZHeader.mk 3 0 0 0 0 0 0 0
    buf := [0xE0, 0x1F, 0x12, 0x34, 0x05]
    stack := NewStack
    Done := false }

/-- Tables of handlers with `ZCall` as the VAR opcode 0, as in vars.go, and nothing else. -/
def exampleHandlers : ZFunctions :=
  { fVAR := [ZCall]
    f2OP := []
    f1OP := []
    f0P := [] }

/-- A 13-byte image with a text buffer at address 2: `M[2] = 5`, so that the buffer is
`M[3 .. 7]`, and every byte after `M[2]` is `0xFF`. -/
def exampleTextBuffer : ZMachine :=
  { ip := 0
    header := ZHeader.mk 3 0 0 0 0 0 0 0
    buf := [0, 0, 5, 0xFF, 0xFF, 0xFF, 0xFF, 0xFF, 0xFF, 0xFF, 0xFF, 0xFF, 0xFF]
    stack := NewStack
    Done := false }

/-- A 4-byte image with a text buffer at address 2 whose first byte is 1. -/
def exampleTextBufferOne : ZMachine :=
  { ip := 0
    header := ZHeader.mk 3 0 0 0 0 0 0 0
    buf := [0, 0, 1, 0xFF]
    stack := NewStack
    Done := false }

/-- The line `abcdefgh`. -/
def exampleLine : List Nat := [97, 98, 99, 100, 101, 102, 103, 104]

/-- An image with a dictionary at address 0 (no separators, entries of 4 bytes, the two
entries `"A"` = `0x10C594A5` and `"look"` = `0x4694C0A5`), a text buffer at address 12
with `M[12] = 10`, and a parse buffer at address 24 with `M[24] = 4`. -/
def exampleParse : ZMachine :=
  { ip := 0
    header := ZHeader.mk 3 0 0 0 0 0 0 0
    buf := [0, 4, 0, 2, 0x10, 0xC5, 0x94, 0xA5, 0x46, 0x94, 0xC0, 0xA5,
      10, 0, 0, 0, 0, 0, 0, 0, 0, 0, 0, 0,
      4, 0, 0, 0, 0, 0, 0, 0, 0, 0, 0, 0, 0, 0, 0, 0, 0, 0]
    stack := NewStack
    Done := false }

/-- An image of zero bytes with room for the property defaults and 256 object entries; the
object table is at address 0, and no object has a parent, a sibling or a child. -/
def exampleManyObjects : ZMachine :=
  { ip := 0
    header := ZHeader.mk 3 0 0 0 0 0 0 0
    buf := List.replicate (62 + 256 * 9) 0
    stack := NewStack
    Done := false }

end Zmachine

/-! # Verified properties -/

namespace Zmachine

/-! ## Slices -/

theorem readAt_eq_ok {xs : List Nat} {i v : Nat} (h : xs[i]? = some v) : readAt xs i = .ok v := by
  simp [readAt, h]

theorem readAt_of_lt {xs : List Nat} {i : Nat} (h : i < xs.length) :
    readAt xs i = .ok (xs.getD i 0) := by
  simp [readAt, List.getD, List.getElem?_eq_getElem h]

theorem readAt_of_le {xs : List Nat} {i : Nat} (h : xs.length ≤ i) :
    readAt xs i = .error .indexOutOfRange := by
  simp [readAt, List.getElem?_eq_none h]

theorem writeAt_of_lt {xs : List Nat} {i : Nat} (v : Nat) (h : i < xs.length) :
    writeAt xs i v = .ok (xs.set i v) := by
  simp [writeAt, h]

theorem getD_set_same {xs : List Nat} {i : Nat} (v : Nat) (h : i < xs.length) :
    (xs.set i v).getD i 0 = v := by
  simp [List.getD, List.getElem?_set, h]

theorem getD_set_other {xs : List Nat} {i j : Nat} (v : Nat) (h : i ≠ j) :
    (xs.set i v).getD j 0 = xs.getD j 0 := by
  simp [List.getD, List.getElem?_set, h]

/-! ## Stack primitives on a well-formed stack -/

theorem Push_ok (s : ZStack) (v : Nat) (h0 : 0 < s.top) (h1 : s.top ≤ s.stack.length) :
    s.Push v = .ok { s with top := s.top - 1, stack := s.stack.set (s.top - 1) v } := by
  have h2 : s.top - 1 < s.stack.length := by omega
  simp [ZStack.Push, writeAt_of_lt v h2, Nat.pos_iff_ne_zero.mp h0, bind, Except.bind, pure,
    Except.pure]

theorem Pop_ok (s : ZStack) (h0 : s.top ≠ MAX_STACK) (h1 : s.top < s.stack.length) :
    s.Pop = .ok (s.stack.getD s.top 0, { s with top := s.top + 1 }) := by
  simp [ZStack.Pop, h0, readAt_of_lt h1, bind, Except.bind, pure, Except.pure]

theorem and_0xFFFF (x : Nat) : x &&& 0xFFFF = x % 65536 :=
  Nat.and_pow_two_sub_one_eq_mod x 16

theorem and_0xFF (x : Nat) : x &&& 0xFF = x % 256 :=
  Nat.and_pow_two_sub_one_eq_mod x 8

theorem shl16_or (a b : Nat) (hb : b < 65536) : (a <<< 16) ||| b = a * 65536 + b := by
  have h := Nat.mul_add_lt_is_or (i := 16) hb a
  rw [Nat.shiftLeft_eq, ← Nat.mul_comm (2 ^ 16) a, ← h]

theorem shl8_or (a b : Nat) (hb : b < 256) : (a <<< 8) ||| b = a * 256 + b := by
  have h := Nat.mul_add_lt_is_or (i := 8) hb a
  rw [Nat.shiftLeft_eq, ← Nat.mul_comm (2 ^ 8) a, ← h]

/-- The two words `ZCall` pushes for the return address recombine to the address. -/
theorem return_address_split (ip : Nat) (h : ip < 2 ^ 32) :
    ((((ip >>> 16) % 65536) &&& 0xFFFF) <<< 16) ||| ((ip &&& 0xFFFF) % 65536) = ip := by
  rw [and_0xFFFF, and_0xFFFF, shl16_or _ _ (by omega), Nat.shiftRight_eq_div_pow]
  omega

/-! ## Stack: push followed by pop -/

/-- C4. On a stack of capacity 1024 with `0 < T ≤ 1024`, `Push w` succeeds and the
`Pop` that follows returns `w`, leaves `T` and `F` at their values before the push, and
leaves every stack word at an index `≥ T` unchanged. -/
theorem push_pop_identity (s : ZStack) (w : Nat)
    (hlen : s.stack.length = MAX_STACK) (h0 : 0 < s.top) (hT : s.top ≤ MAX_STACK) :
    ∃ s1 s2, s.Push w = .ok s1 ∧ s1.Pop = .ok (w, s2) ∧ s2.top = s.top ∧
      s2.localFrame = s.localFrame ∧ s2.stack.length = MAX_STACK ∧
      ∀ i, s.top ≤ i → s2.stack[i]? = s.stack[i]? := by
  have h1 : s.top - 1 < s.stack.length := by rw [hlen]; omega
  refine ⟨{ s with top := s.top - 1, stack := s.stack.set (s.top - 1) w },
    { s with top := s.top - 1 + 1, stack := s.stack.set (s.top - 1) w }, ?_, ?_, ?_, rfl, ?_, ?_⟩
  · simp [ZStack.Push, writeAt_of_lt w h1, Nat.pos_iff_ne_zero.mp h0, bind, Except.bind, pure,
      Except.pure]
  · have h2 : s.top - 1 ≠ MAX_STACK := by omega
    simp [ZStack.Pop, h2, readAt, List.getElem?_set, h1, bind, Except.bind, pure, Except.pure]
  · show s.top - 1 + 1 = s.top
    omega
  · simp [hlen]
  · intro i hi
    have : s.top - 1 ≠ i := by omega
    simp [List.getElem?_set, this]

/-- C4 at the empty stack of a new machine: push 7, then pop. -/
theorem push_pop_identity_witness :
    ∃ s1 s2, NewStack.Push 7 = .ok s1 ∧ s1.Pop = .ok (7, s2) ∧ s2.top = NewStack.top ∧
      s2.localFrame = NewStack.localFrame ∧ s2.stack.length = MAX_STACK ∧
      ∀ i, NewStack.top ≤ i → s2.stack[i]? = NewStack.stack[i]? :=
  push_pop_identity NewStack 7 (by simp [NewStack]) (by decide) (by decide)

/-! ## Routine call: the frame and the locals -/

theorem GetUint16_ok (buf : List Nat) (a : Nat) (h : a + 1 < buf.length) (h32 : a + 1 < 2 ^ 32) :
    GetUint16 buf a = .ok (((buf.getD a 0 <<< 8) % 65536) ||| buf.getD (a + 1) 0) := by
  have h1 : a < buf.length := by omega
  have e : (a + 1) % 2 ^ 32 = a + 1 := Nat.mod_eq_of_lt h32
  unfold GetUint16
  rw [e, readAt_of_lt h1, readAt_of_lt h]
  rfl

/-- The loop of `ZCall` that creates the locals, on a stack with room for them. -/
theorem ZCall_locals_spec (args : List Nat) :
    ∀ (n i numArgs : Nat) (zm : ZMachine), zm.stack.stack.length = MAX_STACK →
      n ≤ zm.stack.top → zm.stack.top ≤ MAX_STACK → zm.ip + 2 * n < 2 ^ 32 →
      zm.ip + 2 * n ≤ zm.buf.length → (0 < n → 0 < numArgs → i + min n numArgs < args.length) →
      ∃ m, ZCall.locals args n i numArgs zm = .ok m ∧ m.ip = zm.ip + 2 * n ∧ m.buf = zm.buf ∧
        m.header = zm.header ∧ m.Done = zm.Done ∧ m.stack.localFrame = zm.stack.localFrame ∧
        m.stack.top = zm.stack.top - n ∧ m.stack.stack.length = MAX_STACK ∧
        (∀ x, zm.stack.top ≤ x → m.stack.stack[x]? = zm.stack.stack[x]?) ∧
        (∀ j, j < n → Except.ok (m.stack.stack.getD (zm.stack.top - 1 - j) 0) =
          if j < numArgs then readAt args (i + 1 + j) else GetUint16 zm.buf (zm.ip + 2 * j)) := by
  intro n
  induction n with
  | zero =>
    intro i numArgs zm hlen _ _ _ _ _
    exact ⟨zm, rfl, rfl, rfl, rfl, rfl, rfl, rfl, hlen, fun _ _ => rfl,
      fun j hj => absurd hj (Nat.not_lt_zero j)⟩
  | succ n ih =>
    intro i numArgs zm hlen hn hT h32 hbuf hargs
    have hw : GetUint16 zm.buf zm.ip = _ := GetUint16_ok zm.buf zm.ip (by omega) (by omega)
    have hip2 : (zm.ip + 2) % 4294967296 = zm.ip + 2 := Nat.mod_eq_of_lt (by omega)
    have hpos : 0 < zm.stack.top := by omega
    have hle : zm.stack.top ≤ zm.stack.stack.length := by omega
    by_cases hA : 0 < numArgs
    · have hai : i + 1 < args.length := by
        have := hargs (by omega) hA
        have : 1 ≤ min (n + 1) numArgs := by simp [Nat.le_min]; omega
        omega
      obtain ⟨m, hm, hmip, hmbuf, hmhdr, hmdone, hmF, hmT, hmlen, hmhi, hmloc⟩ :=
        ih (i + 1) (numArgs - 1)
          (ZMachine.mk (zm.ip + 2) zm.header zm.buf
            (ZStack.mk (zm.stack.stack.set (zm.stack.top - 1) (args.getD (i + 1) 0))
              (zm.stack.top - 1) zm.stack.localFrame) zm.Done)
          (by simp [hlen]) (by simp; omega) (by simp; omega) (by simp; omega) (by simp; omega)
          (by
            intro h1 h2
            have := hargs (by omega) hA
            simp only [Nat.lt_min, Nat.le_min] at *
            omega)
      refine ⟨m, ?_, ?_, hmbuf, hmhdr, hmdone, hmF, ?_, hmlen, ?_, ?_⟩
      · rw [← hm]
        simp [ZCall.locals, ZMachine.ReadUint16, hw, hip2, hA, readAt_of_lt hai,
          Push_ok _ _ hpos hle, bind, Except.bind, pure, Except.pure]
      · rw [hmip]; simp; omega
      · rw [hmT]; simp; omega
      · intro x hx
        rw [hmhi x (by simp; omega)]
        have : zm.stack.top - 1 ≠ x := by omega
        simp [List.getElem?_set, this]
      · intro j hj
        rcases Nat.eq_zero_or_pos j with rfl | hj0
        · have hlt : zm.stack.top - 1 < zm.stack.stack.length := by omega
          have h0 := hmhi (zm.stack.top - 1) (by simp)
          simp [List.getElem?_set, hlt] at h0
          simp [List.getD, h0, hA, readAt_of_lt hai]
        · have h1 := hmloc (j - 1) (by omega)
          simp only at h1
          have e1 : zm.stack.top - 1 - 1 - (j - 1) = zm.stack.top - 1 - j := by omega
          have e2 : i + 1 + 1 + (j - 1) = i + 1 + j := by omega
          have e3 : zm.ip + 2 + 2 * (j - 1) = zm.ip + 2 * j := by omega
          rw [e1, e2, e3] at h1
          rw [h1]
          have e4 : (j - 1 < numArgs - 1) ↔ (j < numArgs) := by omega
          simp [e4]
    · have hA0 : numArgs = 0 := by omega
      subst hA0
      obtain ⟨m, hm, hmip, hmbuf, hmhdr, hmdone, hmF, hmT, hmlen, hmhi, hmloc⟩ :=
        ih (i + 1) 0
          (ZMachine.mk (zm.ip + 2) zm.header zm.buf
            (ZStack.mk (zm.stack.stack.set (zm.stack.top - 1)
                (((zm.buf.getD zm.ip 0 <<< 8) % 65536) ||| zm.buf.getD (zm.ip + 1) 0))
              (zm.stack.top - 1) zm.stack.localFrame) zm.Done)
          (by simp [hlen]) (by simp; omega) (by simp; omega) (by simp; omega) (by simp; omega)
          (by intro _ h2; omega)
      refine ⟨m, ?_, ?_, hmbuf, hmhdr, hmdone, hmF, ?_, hmlen, ?_, ?_⟩
      · rw [← hm]
        simp [ZCall.locals, ZMachine.ReadUint16, hw, hip2, Push_ok _ _ hpos hle, bind,
          Except.bind, pure, Except.pure]
      · rw [hmip]; simp; omega
      · rw [hmT]; simp; omega
      · intro x hx
        rw [hmhi x (by simp; omega)]
        have : zm.stack.top - 1 ≠ x := by omega
        simp [List.getElem?_set, this]
      · intro j hj
        rcases Nat.eq_zero_or_pos j with rfl | hj0
        · have hlt : zm.stack.top - 1 < zm.stack.stack.length := by omega
          have h0 := hmhi (zm.stack.top - 1) (by simp)
          simp [List.getElem?_set, hlt] at h0
          simp [List.getD, h0, hw]
        · have h1 := hmloc (j - 1) (by omega)
          simp only at h1
          have e1 : zm.stack.top - 1 - 1 - (j - 1) = zm.stack.top - 1 - j := by omega
          have e3 : zm.ip + 2 + 2 * (j - 1) = zm.ip + 2 * j := by omega
          rw [e1, e3] at h1
          rw [h1]
          simp

theorem RestoreFrame_ok (s : ZStack) (hlen : s.stack.length = MAX_STACK)
    (hF : s.localFrame + 2 < MAX_STACK) :
    s.RestoreFrame = .ok ((s.stack.getD (s.localFrame + 2) 0 <<< 16) |||
        s.stack.getD (s.localFrame + 1) 0,
      ZStack.mk s.stack (s.localFrame + 3) (s.stack.getD s.localFrame 0)) := by
  have h1 := Pop_ok (ZStack.mk s.stack s.localFrame s.localFrame)
    (by show s.localFrame ≠ MAX_STACK; omega) (by show s.localFrame < s.stack.length; omega)
  have h2 := Pop_ok (ZStack.mk s.stack (s.localFrame + 1) (s.stack.getD s.localFrame 0))
    (by show s.localFrame + 1 ≠ MAX_STACK; omega)
    (by show s.localFrame + 1 < s.stack.length; omega)
  have h3 := Pop_ok (ZStack.mk s.stack (s.localFrame + 1 + 1) (s.stack.getD s.localFrame 0))
    (by show s.localFrame + 1 + 1 ≠ MAX_STACK; omega)
    (by show s.localFrame + 1 + 1 < s.stack.length; omega)
  simp only at h1 h2 h3
  unfold ZStack.RestoreFrame
  simp only [bind, Except.bind, pure, Except.pure, h1, h2, h3]

/-- The words `ZCall` pushes before it looks at the routine: the return address, high
half first, and the caller's frame pointer. -/
theorem call_prologue (s : ZStack) (hi lo : Nat) (hlen : s.stack.length = MAX_STACK)
    (h3 : 3 ≤ s.top) (hT : s.top ≤ MAX_STACK) :
    ∃ stk, stk.length = MAX_STACK ∧ (∀ x, s.top ≤ x → stk[x]? = s.stack[x]?) ∧
      stk[s.top - 1]? = some hi ∧ stk[s.top - 2]? = some lo ∧
      stk[s.top - 3]? = some (s.localFrame % 65536) ∧
      s.Push hi = .ok (ZStack.mk (s.stack.set (s.top - 1) hi) (s.top - 1) s.localFrame) ∧
      (ZStack.mk (s.stack.set (s.top - 1) hi) (s.top - 1) s.localFrame).Push lo =
        .ok (ZStack.mk ((s.stack.set (s.top - 1) hi).set (s.top - 2) lo) (s.top - 2)
          s.localFrame) ∧
      (ZStack.mk ((s.stack.set (s.top - 1) hi).set (s.top - 2) lo) (s.top - 2)
          s.localFrame).SaveFrame = .ok (ZStack.mk stk (s.top - 3) (s.top - 3)) := by
  refine ⟨((s.stack.set (s.top - 1) hi).set (s.top - 2) lo).set (s.top - 3)
    (s.localFrame % 65536), by simp [hlen], ?_, ?_, ?_, ?_, ?_, ?_, ?_⟩
  · intro x hx
    have e1 : s.top - 1 ≠ x := by omega
    have e2 : s.top - 2 ≠ x := by omega
    have e3 : s.top - 3 ≠ x := by omega
    simp [List.getElem?_set, e1, e2, e3]
  · have e2 : s.top - 2 ≠ s.top - 1 := by omega
    have e3 : s.top - 3 ≠ s.top - 1 := by omega
    have l1 : s.top - 1 < s.stack.length := by omega
    simp [List.getElem?_set, e2, e3, l1]
  · have e3 : s.top - 3 ≠ s.top - 2 := by omega
    have l1 : s.top - 2 < s.stack.length := by omega
    simp [List.getElem?_set, e3, l1]
  · have l1 : s.top - 3 < s.stack.length := by omega
    simp [List.getElem?_set, l1]
  · exact Push_ok s hi (by omega) (by omega)
  · have h := Push_ok (ZStack.mk (s.stack.set (s.top - 1) hi) (s.top - 1) s.localFrame) lo
      (by show 0 < s.top - 1; omega) (by simp; omega)
    simp only at h
    rw [h]
    have e : s.top - 1 - 1 = s.top - 2 := by omega
    rw [e]
  · have h := Push_ok (ZStack.mk ((s.stack.set (s.top - 1) hi).set (s.top - 2) lo) (s.top - 2)
      s.localFrame) (s.localFrame % 65536) (by show 0 < s.top - 2; omega) (by simp; omega)
    simp only at h
    unfold ZStack.SaveFrame
    simp only [bind, Except.bind, pure, Except.pure, h]
    have e : s.top - 2 - 1 = s.top - 3 := by omega
    rw [e]

/-- What `ZCall` does for a routine at a non-zero packed address. -/
theorem ZCall_spec (zm : ZMachine) (args : List Nat) (numArgs packed L : Nat)
    (hn : numArgs ≠ 0) (hargs : numArgs ≤ args.length) (ha : args[0]? = some packed)
    (hp0 : packed ≠ 0) (hp : packed < 65536) (hL : zm.buf[2 * packed]? = some L)
    (hbuf : 2 * packed + 1 + 2 * L ≤ zm.buf.length)
    (hlen : zm.stack.stack.length = MAX_STACK) (h3 : 3 + L ≤ zm.stack.top)
    (hT : zm.stack.top ≤ MAX_STACK) :
    ∃ m, ZCall zm args numArgs = .ok m ∧ m.ip = 2 * packed + 1 + 2 * L ∧ m.buf = zm.buf ∧
      m.header = zm.header ∧ m.Done = zm.Done ∧ m.stack.localFrame = zm.stack.top - 3 ∧
      m.stack.top = zm.stack.top - 3 - L ∧ m.stack.stack.length = MAX_STACK ∧
      (∀ x, zm.stack.top ≤ x → m.stack.stack[x]? = zm.stack.stack[x]?) ∧
      m.stack.stack[zm.stack.top - 1]? = some (((zm.ip >>> 16) % 65536) &&& 0xFFFF) ∧
      m.stack.stack[zm.stack.top - 2]? = some ((zm.ip &&& 0xFFFF) % 65536) ∧
      m.stack.stack[zm.stack.top - 3]? = some (zm.stack.localFrame % 65536) ∧
      (∀ j, j < L → Except.ok (m.stack.stack.getD (zm.stack.top - 3 - 1 - j) 0) =
        if j < numArgs - 1 then readAt args (1 + j)
        else GetUint16 zm.buf (2 * packed + 1 + 2 * j)) := by
  obtain ⟨stk, hstk, hhi, h1, h2, h3', hP1, hP2, hSF⟩ :=
    call_prologue zm.stack (((zm.ip >>> 16) % 65536) &&& 0xFFFF) ((zm.ip &&& 0xFFFF) % 65536)
      hlen (by omega) hT
  have hPA : PackedAddress packed = 2 * packed := by
    unfold PackedAddress
    rw [Nat.mod_eq_of_lt (by omega)]
    omega
  have hne : 2 * packed ≠ 0 := by omega
  have hT' : zm.stack.top ≤ 1024 := hT
  have hrd : readAt zm.buf (2 * packed) = .ok L := readAt_eq_ok hL
  have hmod : (2 * packed + 1) % 4294967296 = 2 * packed + 1 := Nat.mod_eq_of_lt (by omega)
  obtain ⟨m, hm, hmip, hmbuf, hmhdr, hmdone, hmF, hmT, hmlen, hmhi, hmloc⟩ :=
    ZCall_locals_spec args L 0 (numArgs - 1)
      (ZMachine.mk (2 * packed + 1) zm.header zm.buf
        (ZStack.mk stk (zm.stack.top - 3) (zm.stack.top - 3)) zm.Done)
      hstk (by show L ≤ zm.stack.top - 3; omega) (by show zm.stack.top - 3 ≤ MAX_STACK; omega)
      (by show 2 * packed + 1 + 2 * L < 2 ^ 32; omega) hbuf
      (by
        intro _ hk
        have : min L (numArgs - 1) ≤ numArgs - 1 := Nat.min_le_right _ _
        omega)
  simp only at hm hmip hmbuf hmhdr hmdone hmF hmT hmhi hmloc
  refine ⟨m, ?_, hmip, hmbuf, hmhdr, hmdone, hmF, hmT, hmlen, ?_, ?_, ?_, ?_, ?_⟩
  · rw [← hm]
    simp [ZCall, hn, hP1, hP2, readAt_eq_ok ha, hSF, hPA, hne, ZMachine.ReadByte, hrd, hmod, bind,
      Except.bind, pure, Except.pure]
  · intro x hx
    rw [hmhi x (by omega), hhi x hx]
  · rw [hmhi _ (by omega), h1]
  · rw [hmhi _ (by omega), h2]
  · rw [hmhi _ (by omega), h3']
  · intro j hj
    have := hmloc j hj
    rw [this]

/-! ## Call and return -/

/-- C2. A call with `k = numArgs - 1` arguments to the routine at packed address
`packed ≠ 0` whose header declares `L` locals succeeds on a stack with `3 + L` free words
and leaves `PC = 2*packed + 1 + 2*L`, `F = T - 3`, `T = T - 3 - L`, the caller's `F` at
`stack[F]`, the low and the high 16 bits of the return address at `stack[F+1]` and
`stack[F+2]`, and in local `i < L` (the word `stack[F-i-1]`) argument `i+1` when `i < k` and
the `i`-th initial value of the routine header otherwise. -/
theorem call_builds_frame (zm : ZMachine) (args : List Nat) (numArgs packed L : Nat)
    (hn : numArgs ≠ 0) (hargs : numArgs ≤ args.length) (ha : args[0]? = some packed)
    (hp0 : packed ≠ 0) (hp : packed < 65536) (hL : zm.buf[2 * packed]? = some L)
    (hbuf : 2 * packed + 1 + 2 * L ≤ zm.buf.length)
    (hlen : zm.stack.stack.length = MAX_STACK) (h3 : 3 + L ≤ zm.stack.top)
    (hT : zm.stack.top ≤ MAX_STACK) (hF : zm.stack.localFrame < 65536)
    (hip : zm.ip < 2 ^ 32) :
    ∃ m, ZCall zm args numArgs = .ok m ∧ m.ip = 2 * packed + 1 + 2 * L ∧
      m.stack.localFrame = zm.stack.top - 3 ∧ m.stack.top = zm.stack.top - 3 - L ∧
      m.stack.stack[m.stack.localFrame]? = some zm.stack.localFrame ∧
      m.stack.stack[m.stack.localFrame + 1]? = some (zm.ip % 65536) ∧
      m.stack.stack[m.stack.localFrame + 2]? = some (zm.ip / 65536) ∧
      (∀ i, i < L → Except.ok (m.stack.stack.getD (m.stack.localFrame - i - 1) 0) =
        if i < numArgs - 1 then readAt args (i + 1)
        else GetUint16 zm.buf (2 * packed + 1 + 2 * i)) ∧
      (∀ x, zm.stack.top ≤ x → m.stack.stack[x]? = zm.stack.stack[x]?) ∧
      m.buf = zm.buf := by
  obtain ⟨m, hm, hmip, hmbuf, -, -, hmF, hmT, -, hmhi, h1, h2, h3', hloc⟩ :=
    ZCall_spec zm args numArgs packed L hn hargs ha hp0 hp hL hbuf hlen h3 hT
  refine ⟨m, hm, hmip, hmF, hmT, ?_, ?_, ?_, ?_, hmhi, hmbuf⟩
  · rw [hmF, h3', Nat.mod_eq_of_lt hF]
  · have e : zm.stack.top - 3 + 1 = zm.stack.top - 2 := by omega
    rw [hmF, e, h2, and_0xFFFF]
    simp
  · have e : zm.stack.top - 3 + 2 = zm.stack.top - 1 := by omega
    rw [hmF, e, h1, and_0xFFFF, Nat.shiftRight_eq_div_pow]
    have : zm.ip / 65536 < 65536 := by omega
    simp [Nat.mod_eq_of_lt this]
  · intro i hi
    have e : m.stack.localFrame - i - 1 = zm.stack.top - 3 - 1 - i := by omega
    rw [e, hloc i hi, Nat.add_comm 1 i]

/-- C2 on the example image: a call of the routine at packed address 4 with one
argument. -/
theorem call_builds_frame_witness :
    ∃ m, ZCall exampleCall [4, 0x1234, 0, 0] 2 = .ok m ∧ m.ip = 2 * 4 + 1 + 2 * 2 ∧
      m.stack.localFrame = exampleCall.stack.top - 3 ∧
      m.stack.top = exampleCall.stack.top - 3 - 2 ∧
      m.stack.stack[m.stack.localFrame]? = some exampleCall.stack.localFrame ∧
      m.stack.stack[m.stack.localFrame + 1]? = some (exampleCall.ip % 65536) ∧
      m.stack.stack[m.stack.localFrame + 2]? = some (exampleCall.ip / 65536) ∧
      (∀ i, i < 2 → Except.ok (m.stack.stack.getD (m.stack.localFrame - i - 1) 0) =
        if i < 2 - 1 then readAt [4, 0x1234, 0, 0] (i + 1)
        else GetUint16 exampleCall.buf (2 * 4 + 1 + 2 * i)) ∧
      (∀ x, exampleCall.stack.top ≤ x → m.stack.stack[x]? = exampleCall.stack.stack[x]?) ∧
      m.buf = exampleCall.buf :=
  call_builds_frame exampleCall [4, 0x1234, 0, 0] 2 4 2 (by decide) (by decide) rfl (by decide)
    (by decide) rfl (by decide) (by simp [exampleCall, NewStack]) (by decide) (by decide)
    (by decide) (by decide)

theorem ReadByte_ok (zm : ZMachine) (b : Nat) (h : zm.buf[zm.ip]? = some b) :
    zm.ReadByte = .ok (b, ZMachine.mk ((zm.ip + 1) % 2 ^ 32) zm.header zm.buf zm.stack zm.Done) := by
  unfold ZMachine.ReadByte
  rw [readAt_eq_ok h]
  rfl

theorem StoreResult_ok (zm : ZMachine) (b v : Nat) (h : zm.buf[zm.ip]? = some b) :
    zm.StoreResult v =
      (ZMachine.mk ((zm.ip + 1) % 2 ^ 32) zm.header zm.buf zm.stack zm.Done).StoreAtLocation b v := by
  unfold ZMachine.StoreResult
  rw [ReadByte_ok zm b h]
  rfl

/-- The effect of `ZRet` on a stack whose frame words `stack[F]`, `stack[F+1]`, `stack[F+2]` are known. -/
theorem ZRet_ok (zm : ZMachine) (v f lo hi : Nat) (hlen : zm.stack.stack.length = MAX_STACK)
    (h0 : zm.stack.stack[zm.stack.localFrame]? = some f)
    (h1 : zm.stack.stack[zm.stack.localFrame + 1]? = some lo)
    (h2 : zm.stack.stack[zm.stack.localFrame + 2]? = some hi) :
    ZRet zm v = ZMachine.StoreResult (ZMachine.mk ((hi <<< 16) ||| lo) zm.header zm.buf
      (ZStack.mk zm.stack.stack (zm.stack.localFrame + 3) f) zm.Done) v := by
  have hlt : zm.stack.localFrame + 2 < zm.stack.stack.length := by
    rcases Nat.lt_or_ge (zm.stack.localFrame + 2) zm.stack.stack.length with h | h
    · exact h
    · rw [List.getElem?_eq_none h] at h2
      cases h2
  have hR := RestoreFrame_ok zm.stack hlen (by rw [← hlen]; exact hlt)
  rw [List.getD_eq_getElem?_getD, List.getD_eq_getElem?_getD, List.getD_eq_getElem?_getD, h0, h1, h2] at hR
  unfold ZRet
  rw [hR]
  rfl

/-- C1. A call of a routine at a non-zero packed address with `L` locals, on a stack
with `3 + L` free words, succeeds; and from every later state whose frame pointer and
frame words are those the call left (the callee's evaluation stack is balanced),
`ret v` behaves as the store of `v` through the byte at the pre-call `PC`, executed in a
state whose `PC`, `T` and `F` are the pre-call values. With store byte 0 the result is
the pre-call stack with `v` pushed and `PC` advanced by one. -/
theorem call_then_ret_restores (zm : ZMachine) (args : List Nat) (numArgs packed L : Nat)
    (hn : numArgs ≠ 0) (hargs : numArgs ≤ args.length) (ha : args[0]? = some packed)
    (hp0 : packed ≠ 0) (hp : packed < 65536) (hL : zm.buf[2 * packed]? = some L)
    (hbuf : 2 * packed + 1 + 2 * L ≤ zm.buf.length)
    (hlen : zm.stack.stack.length = MAX_STACK) (h3 : 3 + L ≤ zm.stack.top)
    (hT : zm.stack.top ≤ MAX_STACK) (hF : zm.stack.localFrame < 65536)
    (hip : zm.ip < 2 ^ 32) :
    ∃ m1, ZCall zm args numArgs = .ok m1 ∧
      ∀ (m2 : ZMachine) (v : Nat), m2.stack.localFrame = m1.stack.localFrame →
        m2.stack.top = m1.stack.top → m2.stack.stack.length = MAX_STACK →
        (∀ x, m1.stack.localFrame ≤ x → m2.stack.stack[x]? = m1.stack.stack[x]?) →
        ZRet m2 v = ZMachine.StoreResult (ZMachine.mk zm.ip m2.header m2.buf
          (ZStack.mk m2.stack.stack zm.stack.top zm.stack.localFrame) m2.Done) v ∧
        (m2.buf[zm.ip]? = some 0 → ∃ m3, ZRet m2 v = .ok m3 ∧ m3.ip = (zm.ip + 1) % 2 ^ 32 ∧
          m3.stack.localFrame = zm.stack.localFrame ∧ m3.stack.top = zm.stack.top - 1 ∧
          m3.stack.stack[zm.stack.top - 1]? = some v ∧
          (∀ x, zm.stack.top ≤ x → m3.stack.stack[x]? = zm.stack.stack[x]?) ∧
          m3.buf = m2.buf) := by
  obtain ⟨m, hm, -, -, -, -, hmF, -, -, hmhi, h1, h2, h3', -⟩ :=
    ZCall_spec zm args numArgs packed L hn hargs ha hp0 hp hL hbuf hlen h3 hT
  refine ⟨m, hm, ?_⟩
  intro m2 v hF2 _ hlen2 hfr
  have hT' : zm.stack.top ≤ 1024 := hT
  have e0 : m2.stack.stack[m2.stack.localFrame]? = some (zm.stack.localFrame % 65536) := by
    rw [hF2, hfr _ (Nat.le_refl _), hmF, h3']
  have e1 : m2.stack.stack[m2.stack.localFrame + 1]? = some ((zm.ip &&& 0xFFFF) % 65536) := by
    have e : zm.stack.top - 3 + 1 = zm.stack.top - 2 := by omega
    rw [hF2, hfr _ (by omega), hmF, e, h2]
  have e2 : m2.stack.stack[m2.stack.localFrame + 2]? =
      some (((zm.ip >>> 16) % 65536) &&& 0xFFFF) := by
    have e : zm.stack.top - 3 + 2 = zm.stack.top - 1 := by omega
    rw [hF2, hfr _ (by omega), hmF, e, h1]
  have hR := ZRet_ok m2 v _ _ _ hlen2 e0 e1 e2
  have eT : m2.stack.localFrame + 3 = zm.stack.top := by omega
  rw [return_address_split zm.ip hip, Nat.mod_eq_of_lt hF, eT] at hR
  refine ⟨hR, ?_⟩
  intro hb
  rw [hR, StoreResult_ok _ 0 v hb]
  have hP := Push_ok (ZStack.mk m2.stack.stack zm.stack.top zm.stack.localFrame) v
    (by show 0 < zm.stack.top; omega) (by show zm.stack.top ≤ m2.stack.stack.length; omega)
  simp only at hP
  refine ⟨ZMachine.mk ((zm.ip + 1) % 2 ^ 32) m2.header m2.buf
    (ZStack.mk (m2.stack.stack.set (zm.stack.top - 1) v) (zm.stack.top - 1)
      zm.stack.localFrame) m2.Done, ?_, rfl, rfl, rfl, ?_, ?_, rfl⟩
  · simp [ZMachine.StoreAtLocation, hP, bind, Except.bind, pure, Except.pure]
  · have l1 : zm.stack.top - 1 < m2.stack.stack.length := by omega
    simp [List.getElem?_set, l1]
  · intro x hx
    have ne : zm.stack.top - 1 ≠ x := by omega
    simp only [List.getElem?_set, ne, if_false]
    rw [hfr x (by omega), hmhi x hx]

/-- C1 on the example image: call the routine at packed address 4, then return. -/
theorem call_then_ret_restores_witness :
    ∃ m1, ZCall exampleCall [4, 0x1234, 0, 0] 2 = .ok m1 ∧
      ∀ (m2 : ZMachine) (v : Nat), m2.stack.localFrame = m1.stack.localFrame →
        m2.stack.top = m1.stack.top → m2.stack.stack.length = MAX_STACK →
        (∀ x, m1.stack.localFrame ≤ x → m2.stack.stack[x]? = m1.stack.stack[x]?) →
        ZRet m2 v = ZMachine.StoreResult (ZMachine.mk exampleCall.ip m2.header m2.buf
          (ZStack.mk m2.stack.stack exampleCall.stack.top exampleCall.stack.localFrame)
          m2.Done) v ∧
        (m2.buf[exampleCall.ip]? = some 0 → ∃ m3, ZRet m2 v = .ok m3 ∧
          m3.ip = (exampleCall.ip + 1) % 2 ^ 32 ∧
          m3.stack.localFrame = exampleCall.stack.localFrame ∧
          m3.stack.top = exampleCall.stack.top - 1 ∧
          m3.stack.stack[exampleCall.stack.top - 1]? = some v ∧
          (∀ x, exampleCall.stack.top ≤ x →
            m3.stack.stack[x]? = exampleCall.stack.stack[x]?) ∧
          m3.buf = m2.buf) :=
  call_then_ret_restores exampleCall [4, 0x1234, 0, 0] 2 4 2 (by decide) (by decide) rfl
    (by decide) (by decide) rfl (by decide) (by simp [exampleCall, NewStack]) (by decide)
    (by decide) (by decide) (by decide)

set_option maxRecDepth 100000 in
/-- C3 (as stated) fails: with only two free stack words a call of packed address 0
stops with a stack overflow while it saves the frame it is about to discard. -/
theorem call_zero_overflow_counterexample :
    exampleNearlyFull.stack.top = 2 ∧ exampleNearlyFull.stack.stack.length = MAX_STACK ∧
      ZCall exampleNearlyFull [0, 0, 0, 0] 1 = .error .stackOverflow :=
  ⟨rfl, List.length_replicate _ _, rfl⟩

/-- C3 (amended). With at least three free stack words, a call whose first operand is 0
is the store of 0 through the store byte at `PC`: it runs `StoreResult 0` in the
pre-call state (same `PC`, `T`, `F`, memory; only the three dead words below `T` are
overwritten), so `PC` ends just after the store byte. -/
theorem call_zero_stores_false (zm : ZMachine) (args : List Nat) (numArgs : Nat)
    (hn : numArgs ≠ 0) (ha : args[0]? = some 0)
    (hlen : zm.stack.stack.length = MAX_STACK) (h3 : 3 ≤ zm.stack.top)
    (hT : zm.stack.top ≤ MAX_STACK) (hF : zm.stack.localFrame < 65536)
    (hip : zm.ip < 2 ^ 32) :
    ∃ stk, stk.length = MAX_STACK ∧ (∀ x, zm.stack.top ≤ x → stk[x]? = zm.stack.stack[x]?) ∧
      ZCall zm args numArgs = ZMachine.StoreResult (ZMachine.mk zm.ip zm.header zm.buf
        (ZStack.mk stk zm.stack.top zm.stack.localFrame) zm.Done) 0 ∧
      (∀ b, zm.buf[zm.ip]? = some b →
        ZCall zm args numArgs = ZMachine.StoreAtLocation (ZMachine.mk ((zm.ip + 1) % 2 ^ 32)
          zm.header zm.buf (ZStack.mk stk zm.stack.top zm.stack.localFrame) zm.Done) b 0) := by
  obtain ⟨stk, hstk, hhi, h1, h2, h3', hP1, hP2, hSF⟩ :=
    call_prologue zm.stack (((zm.ip >>> 16) % 65536) &&& 0xFFFF) ((zm.ip &&& 0xFFFF) % 65536)
      hlen h3 hT
  have hPA : PackedAddress 0 = 0 := rfl
  have e1 : zm.stack.top - 3 + 1 = zm.stack.top - 2 := by omega
  have e2 : zm.stack.top - 3 + 2 = zm.stack.top - 1 := by omega
  have e3 : zm.stack.top - 3 + 3 = zm.stack.top := by omega
  have hR := ZRet_ok (ZMachine.mk 0 zm.header zm.buf
      (ZStack.mk stk (zm.stack.top - 3) (zm.stack.top - 3)) zm.Done) 0
      (zm.stack.localFrame % 65536) ((zm.ip &&& 0xFFFF) % 65536)
      (((zm.ip >>> 16) % 65536) &&& 0xFFFF) hstk h3' (by simp only [e1]; exact h2)
      (by simp only [e2]; exact h1)
  simp only [e3] at hR
  rw [return_address_split zm.ip hip, Nat.mod_eq_of_lt hF] at hR
  have hcall : ZCall zm args numArgs = ZMachine.StoreResult (ZMachine.mk zm.ip zm.header zm.buf
      (ZStack.mk stk zm.stack.top zm.stack.localFrame) zm.Done) 0 := by
    unfold ZCall
    rw [if_neg hn, hP1]
    simp only [bind, Except.bind]
    rw [hP2]
    simp only [readAt_eq_ok ha, hPA, hSF, if_true, ZReturnFalse]
    exact hR
  refine ⟨stk, hstk, hhi, hcall, ?_⟩
  intro b hb
  rw [hcall]
  exact StoreResult_ok (ZMachine.mk zm.ip zm.header zm.buf
    (ZStack.mk stk zm.stack.top zm.stack.localFrame) zm.Done) b 0 hb

/-- C3 (amended) on the example image: a call of packed address 0 on the empty stack. -/
theorem call_zero_stores_false_witness :
    ∃ stk, stk.length = MAX_STACK ∧
      (∀ x, exampleCall.stack.top ≤ x → stk[x]? = exampleCall.stack.stack[x]?) ∧
      ZCall exampleCall [0, 0, 0, 0] 1 = ZMachine.StoreResult (ZMachine.mk exampleCall.ip
        exampleCall.header exampleCall.buf
        (ZStack.mk stk exampleCall.stack.top exampleCall.stack.localFrame)
        exampleCall.Done) 0 ∧
      (∀ b, exampleCall.buf[exampleCall.ip]? = some b →
        ZCall exampleCall [0, 0, 0, 0] 1 = ZMachine.StoreAtLocation
          (ZMachine.mk ((exampleCall.ip + 1) % 2 ^ 32) exampleCall.header exampleCall.buf
            (ZStack.mk stk exampleCall.stack.top exampleCall.stack.localFrame)
            exampleCall.Done) b 0) :=
  call_zero_stores_false exampleCall [0, 0, 0, 0] 1 (by decide) rfl
    (by simp [exampleCall, NewStack]) (by decide) (by decide) (by decide) (by decide)

/-! ## Object attributes -/

theorem byte_testBit_high {b j : Nat} (hb : b < 256) (hj : 8 ≤ j) : b.testBit j = false := by
  apply Nat.testBit_lt_two_pow
  calc b < 2 ^ 8 := hb
    _ ≤ 2 ^ j := Nat.pow_le_pow_right (by decide) hj

theorem and_two_pow_ne_zero (x k : Nat) : (x &&& 2 ^ k ≠ 0) ↔ x.testBit k = true := by
  constructor
  · intro h
    by_contra hk
    apply h
    apply Nat.eq_of_testBit_eq
    intro i
    rw [Nat.testBit_and, Nat.testBit_two_pow, Nat.zero_testBit]
    by_cases e : k = i
    · subst e; simp [hk]
    · simp [e]
  · intro h e
    have := congrArg (fun y => y.testBit k) e
    simp [Nat.testBit_two_pow_self, h] at this

/-- Bit `n` of the big-endian word made of four bytes. -/
theorem word32_testBit (b0 b1 b2 b3 n : Nat) (h1 : b1 < 256) (h2 : b2 < 256)
    (h3 : b3 < 256) (hn : n < 32) :
    ((((b0 <<< 24) % 2 ^ 32) ||| (b1 <<< 16) ||| (b2 <<< 8) ||| b3)).testBit n =
      if n < 8 then b3.testBit n else if n < 16 then b2.testBit (n - 8)
      else if n < 24 then b1.testBit (n - 16) else b0.testBit (n - 24) := by
  simp only [Nat.testBit_or, Nat.testBit_shiftLeft, Nat.testBit_mod_two_pow]
  by_cases c1 : n < 8
  · have a1 : ¬ (n ≥ 24) := by omega
    have a2 : ¬ (n ≥ 16) := by omega
    have a3 : ¬ (n ≥ 8) := by omega
    simp [c1, a1, a2, a3]
  · by_cases c2 : n < 16
    · have a1 : ¬ (n ≥ 24) := by omega
      have a2 : ¬ (n ≥ 16) := by omega
      have a3 : n ≥ 8 := by omega
      simp [c1, c2, a1, a2, a3, byte_testBit_high h3 a3]
    · by_cases c3 : n < 24
      · have a1 : ¬ (n ≥ 24) := by omega
        have a2 : n ≥ 16 := by omega
        have a3 : n ≥ 8 := by omega
        have a4 : 8 ≤ n - 8 := by omega
        simp [c1, c2, c3, a1, a2, a3, byte_testBit_high h3 a3, byte_testBit_high h2 a4]
      · have a1 : n ≥ 24 := by omega
        have a2 : n ≥ 16 := by omega
        have a3 : n ≥ 8 := by omega
        have a4 : 8 ≤ n - 8 := by omega
        have a5 : 8 ≤ n - 16 := by omega
        simp [c1, c2, c3, a1, a2, a3, hn, byte_testBit_high h3 a3, byte_testBit_high h2 a4,
          byte_testBit_high h1 a5]

theorem set_bit_testBit (old s t : Nat) (hold : old < 256) (hs : s ≤ 7) :
    ((old ||| ((1 <<< s) % 256)) % 256).testBit t = (old.testBit t || decide (s = t)) := by
  have h1 : (1 <<< s) % 256 = 2 ^ s := by
    rw [Nat.shiftLeft_eq, Nat.one_mul]
    apply Nat.mod_eq_of_lt
    calc 2 ^ s ≤ 2 ^ 7 := Nat.pow_le_pow_right (by decide) hs
      _ < 256 := by decide
  have h2 : 2 ^ s < 2 ^ 8 := by
    calc 2 ^ s ≤ 2 ^ 7 := Nat.pow_le_pow_right (by decide) hs
      _ < 2 ^ 8 := by decide
  have h3 : old ||| 2 ^ s < 256 := Nat.or_lt_two_pow (n := 8) hold h2
  rw [h1, Nat.mod_eq_of_lt h3, Nat.testBit_or, Nat.testBit_two_pow]

theorem set_bit_lt (old s : Nat) : (old ||| ((1 <<< s) % 256)) % 256 < 256 :=
  Nat.mod_lt _ (by decide)

theorem clear_bit_testBit (old s t : Nat) (hs : s ≤ 7) :
    (old &&& (((1 <<< s) % 256) ^^^ 0xFF)).testBit t =
      (old.testBit t && decide (t < 8) && !decide (s = t)) := by
  have h1 : (1 <<< s) % 256 = 2 ^ s := by
    rw [Nat.shiftLeft_eq, Nat.one_mul]
    apply Nat.mod_eq_of_lt
    calc 2 ^ s ≤ 2 ^ 7 := Nat.pow_le_pow_right (by decide) hs
      _ < 256 := by decide
  have h2 : (0xFF : Nat) = 2 ^ 8 - 1 := by decide
  rw [h1, Nat.testBit_and, Nat.testBit_xor, Nat.testBit_two_pow, h2, Nat.testBit_two_pow_sub_one]
  by_cases e : s = t
  · subst e
    have : s < 8 := by omega
    simp [this]
  · by_cases lt : t < 8 <;> simp [e, lt]

theorem clear_bit_lt (old s : Nat) (hold : old < 256) :
    old &&& (((1 <<< s) % 256) ^^^ 0xFF) < 256 :=
  Nat.lt_of_le_of_lt Nat.and_le_left hold

theorem GetObjectEntryAddress_ok (zm : ZMachine) (i : Nat) (hobj : zm.header.objTableAddress < 65536)
    (h1 : 1 ≤ i) (h2 : i ≤ 256) : zm.GetObjectEntryAddress i = .ok (entryAddr zm i) := by
  have e1 : ¬ (i > MAX_OBJECT ∨ i = 0) := by
    show ¬ (i > 256 ∨ i = 0)
    omega
  have e2 : ((i - 1) * OBJECT_ENTRY_SIZE) % 65536 = (i - 1) * 9 := by
    show ((i - 1) * 9) % 65536 = (i - 1) * 9
    omega
  have e3 : (zm.header.objTableAddress + 31 * 2 + (i - 1) * 9) % 2 ^ 32 = entryAddr zm i := by
    unfold entryAddr
    omega
  unfold ZMachine.GetObjectEntryAddress
  rw [if_neg e1, e2, e3]
  rfl

theorem GetObjectEntryAddress_invalid (zm : ZMachine) (i : Nat) (h : i = 0 ∨ 256 < i) :
    zm.GetObjectEntryAddress i = .error .invalidObject := by
  have e1 : i > MAX_OBJECT ∨ i = 0 := by
    show i > 256 ∨ i = 0
    omega
  unfold ZMachine.GetObjectEntryAddress
  rw [if_pos e1]

theorem GetObjectEntryAddress_header (zm zm' : ZMachine) (i : Nat) (h : zm'.header = zm.header) :
    zm'.GetObjectEntryAddress i = zm.GetObjectEntryAddress i := by
  unfold ZMachine.GetObjectEntryAddress
  rw [h]

theorem readAt_congr {xs ys : List Nat} {i : Nat} (h : xs[i]? = ys[i]?) :
    readAt xs i = readAt ys i := by
  unfold readAt
  rw [h]

theorem BytesOK_getD {buf : List Nat} (h : BytesOK buf) (i : Nat) : buf.getD i 0 < 256 := by
  rw [List.getD_eq_getElem?_getD]
  rcases Nat.lt_or_ge i buf.length with hi | hi
  · rw [List.getElem?_eq_getElem hi]
    exact h _ (List.getElem_mem hi)
  · rw [List.getElem?_eq_none hi]
    decide

theorem BytesOK_set {buf : List Nat} (h : BytesOK buf) (i v : Nat) (hv : v < 256) :
    BytesOK (buf.set i v) := by
  intro x hx
  rcases List.mem_or_eq_of_mem_set hx with h1 | h1
  · exact h x h1
  · rw [h1]; exact hv

theorem GetUint32_ok (buf : List Nat) (a : Nat) (h : a + 3 < buf.length) (h32 : a + 3 < 2 ^ 32) :
    GetUint32 buf a = .ok ((((buf.getD a 0 <<< 24) % 2 ^ 32) ||| (buf.getD (a + 1) 0 <<< 16) |||
      (buf.getD (a + 2) 0 <<< 8) ||| buf.getD (a + 3) 0)) := by
  have e1 : (a + 1) % 2 ^ 32 = a + 1 := Nat.mod_eq_of_lt (by omega)
  have e2 : (a + 2) % 2 ^ 32 = a + 2 := Nat.mod_eq_of_lt (by omega)
  have e3 : (a + 3) % 2 ^ 32 = a + 3 := Nat.mod_eq_of_lt (by omega)
  unfold GetUint32
  rw [e1, e2, e3, readAt_of_lt (by omega : a < buf.length),
    readAt_of_lt (by omega : a + 1 < buf.length), readAt_of_lt (by omega : a + 2 < buf.length),
    readAt_of_lt h]
  rfl

/-- The test `TestObjectAttr` reads bit `7 - (a & 7)` of byte `a >> 3` of the entry. -/
theorem TestObjectAttr_eq (zm : ZMachine) (i a : Nat) (hB : BytesOK zm.buf)
    (hobj : zm.header.objTableAddress < 65536) (h1 : 1 ≤ i) (h2 : i ≤ 256) (ha : a ≤ 31)
    (hbuf : entryAddr zm i + 4 ≤ zm.buf.length) :
    zm.TestObjectAttr i a = .ok ((zm.buf.getD (entryAddr zm i + a / 8) 0).testBit (7 - a % 8)) := by
  have hE : entryAddr zm i < 70000 := by unfold entryAddr; omega
  have e1 : ¬ a > 31 := by omega
  have e2 : (1 <<< (31 - a)) % 2 ^ 32 = 2 ^ (31 - a) := by
    rw [Nat.shiftLeft_eq, Nat.one_mul]
    apply Nat.mod_eq_of_lt
    exact Nat.pow_lt_pow_right (by decide) (by omega)
  unfold ZMachine.TestObjectAttr
  rw [if_neg e1, GetObjectEntryAddress_ok zm i hobj h1 h2]
  simp only [bind, Except.bind]
  rw [GetUint32_ok zm.buf _ (by omega) (by omega), e2]
  simp only [pure, Except.pure]
  congr 1
  rw [Bool.eq_iff_iff, decide_eq_true_iff, and_two_pow_ne_zero,
    word32_testBit _ _ _ _ _ (BytesOK_getD hB _) (BytesOK_getD hB _) (BytesOK_getD hB _)
      (by omega)]
  by_cases c1 : 31 - a < 8
  · have k : a / 8 = 3 := by omega
    have t : 31 - a = 7 - a % 8 := by omega
    rw [if_pos c1, k, t]
  · by_cases c2 : 31 - a < 16
    · have k : a / 8 = 2 := by omega
      have t : 31 - a - 8 = 7 - a % 8 := by omega
      rw [if_neg c1, if_pos c2, k, t]
    · by_cases c3 : 31 - a < 24
      · have k : a / 8 = 1 := by omega
        have t : 31 - a - 16 = 7 - a % 8 := by omega
        rw [if_neg c1, if_neg c2, if_pos c3, k, t]
      · have k : a / 8 = 0 := by omega
        have t : 31 - a - 24 = 7 - a % 8 := by omega
        rw [if_neg c1, if_neg c2, if_neg c3, k, t, Nat.add_zero]

theorem shr3_and7 (a : Nat) : a >>> 3 = a / 8 ∧ a &&& 0x7 = a % 8 :=
  ⟨Nat.shiftRight_eq_div_pow a 3, Nat.and_pow_two_sub_one_eq_mod a 3⟩

/-- Replacing byte `a >> 3` of the entry of object `i` by a byte that differs from the old
one at most in bit `7 - (a & 7)` changes no attribute test other than that of `(i, a)`. -/
theorem attr_update_frame (zm : ZMachine) (i a v : Nat) (hB : BytesOK zm.buf)
    (hobj : zm.header.objTableAddress < 65536) (h1 : 1 ≤ i) (h2 : i ≤ 256) (ha : a ≤ 31)
    (hbuf : entryAddr zm i + 4 ≤ zm.buf.length) (hv : v < 256)
    (hbit : ∀ t, t < 8 → t ≠ 7 - a % 8 →
      v.testBit t = (zm.buf.getD (entryAddr zm i + a / 8) 0).testBit t)
    (j b : Nat) (hne : (j, b) ≠ (i, a)) :
    (ZMachine.mk zm.ip zm.header (zm.buf.set (entryAddr zm i + a / 8) v) zm.stack
      zm.Done).TestObjectAttr j b = zm.TestObjectAttr j b := by
  by_cases hb : b > 31
  · unfold ZMachine.TestObjectAttr
    rw [if_pos hb, if_pos hb]
  by_cases hj : j = 0 ∨ 256 < j
  · unfold ZMachine.TestObjectAttr
    rw [if_neg hb, if_neg hb, GetObjectEntryAddress_invalid _ j hj,
      GetObjectEntryAddress_invalid _ j hj]
    rfl
  by_cases hji : j = i
  · subst hji
    have hba : b ≠ a := fun e => hne (by rw [e])
    have hT := TestObjectAttr_eq (ZMachine.mk zm.ip zm.header
      (zm.buf.set (entryAddr zm j + a / 8) v) zm.stack zm.Done) j b (BytesOK_set hB _ _ hv)
      hobj h1 h2 (by omega)
      (by show entryAddr zm j + 4 ≤ (zm.buf.set _ _).length
          simp only [List.length_set]; exact hbuf)
    change _ = Except.ok (((zm.buf.set (entryAddr zm j + a / 8) v).getD
      (entryAddr zm j + b / 8) 0).testBit (7 - b % 8)) at hT
    rw [TestObjectAttr_eq zm j b hB hobj h1 h2 (by omega) hbuf, hT]
    congr 1
    by_cases hk : a / 8 = b / 8
    · rw [hk, getD_set_same v (by omega), hbit _ (by omega) (by omega), hk]
    · rw [getD_set_other v (by omega)]
  · unfold ZMachine.TestObjectAttr
    rw [if_neg hb, if_neg hb]
    have hA : ∀ z : ZMachine, z.header = zm.header →
        z.GetObjectEntryAddress j = .ok (entryAddr zm j) := by
      intro z hz
      rw [GetObjectEntryAddress_header zm z j hz]
      exact GetObjectEntryAddress_ok zm j hobj (by omega) (by omega)
    rw [hA (ZMachine.mk zm.ip zm.header (zm.buf.set (entryAddr zm i + a / 8) v) zm.stack
      zm.Done) rfl, hA zm rfl]
    simp only [bind, Except.bind]
    have hG : GetUint32 (zm.buf.set (entryAddr zm i + a / 8) v) (entryAddr zm j) =
        GetUint32 zm.buf (entryAddr zm j) := by
      have hE : entryAddr zm j < 70000 := by unfold entryAddr; omega
      have e1 : (entryAddr zm j + 1) % 2 ^ 32 = entryAddr zm j + 1 := Nat.mod_eq_of_lt (by omega)
      have e2 : (entryAddr zm j + 2) % 2 ^ 32 = entryAddr zm j + 2 := Nat.mod_eq_of_lt (by omega)
      have e3 : (entryAddr zm j + 3) % 2 ^ 32 = entryAddr zm j + 3 := Nat.mod_eq_of_lt (by omega)
      have hd : ∀ k, k ≤ 3 → entryAddr zm i + a / 8 ≠ entryAddr zm j + k := by
        intro k hk
        unfold entryAddr
        omega
      unfold GetUint32
      rw [e1, e2, e3,
        readAt_congr (List.getElem?_set_ne (by simpa using hd 0 (by omega))),
        readAt_congr (List.getElem?_set_ne (hd 1 (by omega))),
        readAt_congr (List.getElem?_set_ne (hd 2 (by omega))),
        readAt_congr (List.getElem?_set_ne (hd 3 (by omega)))]
    rw [hG]

/-- C5. For a valid object `i` whose entry lies in the buffer and an attribute `a ≤ 31`:
after `SetObjectAttr i a` the test of `(i, a)` is true, after `ClearObjectAttr i a` it is
false, and in both cases the test of every other pair `(j, b)` is unchanged and no byte
of memory other than byte `a >> 3` of the entry of `i` is modified. -/
theorem attr_set_clear_test (zm : ZMachine) (i a : Nat) (hB : BytesOK zm.buf)
    (hobj : zm.header.objTableAddress < 65536) (h1 : 1 ≤ i) (h2 : i ≤ MAX_OBJECT) (ha : a ≤ 31)
    (hbuf : entryAddr zm i + 4 ≤ zm.buf.length) :
    (∃ zs, zm.SetObjectAttr i a = .ok zs ∧ zs.TestObjectAttr i a = .ok true ∧
      (∀ j b, (j, b) ≠ (i, a) → zs.TestObjectAttr j b = zm.TestObjectAttr j b) ∧
      zs.buf.length = zm.buf.length ∧
      (∀ x, x ≠ entryAddr zm i + a / 8 → zs.buf[x]? = zm.buf[x]?) ∧
      zs.header = zm.header ∧ zs.ip = zm.ip ∧ zs.stack = zm.stack) ∧
    (∃ zc, zm.ClearObjectAttr i a = .ok zc ∧ zc.TestObjectAttr i a = .ok false ∧
      (∀ j b, (j, b) ≠ (i, a) → zc.TestObjectAttr j b = zm.TestObjectAttr j b) ∧
      zc.buf.length = zm.buf.length ∧
      (∀ x, x ≠ entryAddr zm i + a / 8 → zc.buf[x]? = zm.buf[x]?) ∧
      zc.header = zm.header ∧ zc.ip = zm.ip ∧ zc.stack = zm.stack) := by
  have h2' : i ≤ 256 := h2
  have hE : entryAddr zm i < 70000 := by unfold entryAddr; omega
  have e1 : ¬ a > 31 := by omega
  have hmod : (entryAddr zm i + a / 8) % 2 ^ 32 = entryAddr zm i + a / 8 :=
    Nat.mod_eq_of_lt (by omega)
  have hlt : entryAddr zm i + a / 8 < zm.buf.length := by omega
  have hold := BytesOK_getD hB (entryAddr zm i + a / 8)
  have hs : 7 - a % 8 ≤ 7 := by omega
  constructor
  · refine ⟨ZMachine.mk zm.ip zm.header (zm.buf.set (entryAddr zm i + a / 8)
      ((zm.buf.getD (entryAddr zm i + a / 8) 0 ||| ((1 <<< (7 - a % 8)) % 256)) % 256))
      zm.stack zm.Done, ?_, ?_, ?_, ?_, ?_, rfl, rfl, rfl⟩
    · unfold ZMachine.SetObjectAttr
      rw [if_neg e1, GetObjectEntryAddress_ok zm i hobj h1 h2']
      simp only [bind, Except.bind, (shr3_and7 a).1, (shr3_and7 a).2]
      rw [hmod, readAt_of_lt hlt]
      simp only [writeAt_of_lt _ hlt]
      rfl
    · have hT := TestObjectAttr_eq (ZMachine.mk zm.ip zm.header
        (zm.buf.set (entryAddr zm i + a / 8)
          ((zm.buf.getD (entryAddr zm i + a / 8) 0 ||| ((1 <<< (7 - a % 8)) % 256)) % 256))
        zm.stack zm.Done) i a (BytesOK_set hB _ _ (set_bit_lt _ _)) hobj h1 h2' ha
        (by show entryAddr zm i + 4 ≤ (zm.buf.set _ _).length
            simp only [List.length_set]; exact hbuf)
      change _ = Except.ok (((zm.buf.set (entryAddr zm i + a / 8) _).getD
        (entryAddr zm i + a / 8) 0).testBit (7 - a % 8)) at hT
      rw [hT, getD_set_same _ hlt, set_bit_testBit _ _ _ hold hs]
      simp
    · intro j b hne
      exact attr_update_frame zm i a _ hB hobj h1 h2' ha hbuf (set_bit_lt _ _)
        (fun t _ hts => by
          rw [set_bit_testBit _ _ _ hold hs]
          simp [Ne.symm hts]) j b hne
    · simp
    · intro x hx
      exact List.getElem?_set_ne (Ne.symm hx)
  · refine ⟨ZMachine.mk zm.ip zm.header (zm.buf.set (entryAddr zm i + a / 8)
      (zm.buf.getD (entryAddr zm i + a / 8) 0 &&& (((1 <<< (7 - a % 8)) % 256) ^^^ 0xFF)))
      zm.stack zm.Done, ?_, ?_, ?_, ?_, ?_, rfl, rfl, rfl⟩
    · unfold ZMachine.ClearObjectAttr
      rw [if_neg e1, GetObjectEntryAddress_ok zm i hobj h1 h2']
      simp only [bind, Except.bind, (shr3_and7 a).1, (shr3_and7 a).2]
      rw [hmod, readAt_of_lt hlt]
      simp only [writeAt_of_lt _ hlt]
      rfl
    · have hT := TestObjectAttr_eq (ZMachine.mk zm.ip zm.header
        (zm.buf.set (entryAddr zm i + a / 8)
          (zm.buf.getD (entryAddr zm i + a / 8) 0 &&& (((1 <<< (7 - a % 8)) % 256) ^^^ 0xFF)))
        zm.stack zm.Done) i a (BytesOK_set hB _ _ (clear_bit_lt _ _ hold)) hobj h1 h2' ha
        (by show entryAddr zm i + 4 ≤ (zm.buf.set _ _).length
            simp only [List.length_set]; exact hbuf)
      change _ = Except.ok (((zm.buf.set (entryAddr zm i + a / 8) _).getD
        (entryAddr zm i + a / 8) 0).testBit (7 - a % 8)) at hT
      rw [hT, getD_set_same _ hlt, clear_bit_testBit _ _ _ hs]
      simp
    · intro j b hne
      exact attr_update_frame zm i a _ hB hobj h1 h2' ha hbuf (clear_bit_lt _ _ hold)
        (fun t ht hts => by
          rw [clear_bit_testBit _ _ _ hs]
          simp [Ne.symm hts, ht]) j b hne
    · simp
    · intro x hx
      exact List.getElem?_set_ne (Ne.symm hx)

theorem exampleObjects_bytes : BytesOK exampleObjects.buf := by
  unfold BytesOK
  decide

theorem exampleSiblings_bytes : BytesOK exampleSiblings.buf := by
  unfold BytesOK
  decide

/-- C5 on the example image: attribute 13 of object 2. -/
theorem attr_set_clear_test_witness :
    (∃ zs, exampleObjects.SetObjectAttr 2 13 = .ok zs ∧ zs.TestObjectAttr 2 13 = .ok true ∧
      (∀ j b, (j, b) ≠ (2, 13) → zs.TestObjectAttr j b = exampleObjects.TestObjectAttr j b) ∧
      zs.buf.length = exampleObjects.buf.length ∧
      (∀ x, x ≠ entryAddr exampleObjects 2 + 13 / 8 → zs.buf[x]? = exampleObjects.buf[x]?) ∧
      zs.header = exampleObjects.header ∧ zs.ip = exampleObjects.ip ∧
      zs.stack = exampleObjects.stack) ∧
    (∃ zc, exampleObjects.ClearObjectAttr 2 13 = .ok zc ∧ zc.TestObjectAttr 2 13 = .ok false ∧
      (∀ j b, (j, b) ≠ (2, 13) → zc.TestObjectAttr j b = exampleObjects.TestObjectAttr j b) ∧
      zc.buf.length = exampleObjects.buf.length ∧
      (∀ x, x ≠ entryAddr exampleObjects 2 + 13 / 8 → zc.buf[x]? = exampleObjects.buf[x]?) ∧
      zc.header = exampleObjects.header ∧ zc.ip = exampleObjects.ip ∧
      zc.stack = exampleObjects.stack) :=
  attr_set_clear_test exampleObjects 2 13 exampleObjects_bytes (by decide) (by decide)
    (by decide) (by decide) (by decide)

/-! ## Property tables -/

theorem word_join (hi lo : Nat) (h1 : hi < 256) (h2 : lo < 256) :
    ((hi <<< 8) % 65536) ||| lo = hi * 256 + lo := by
  have e : (hi <<< 8) % 65536 = hi <<< 8 := by
    rw [Nat.shiftLeft_eq]
    exact Nat.mod_eq_of_lt (by omega)
  rw [e, shl8_or _ _ h2]

theorem GetUint16_bytes (buf : List Nat) (a hi lo : Nat) (ha : a + 1 < 2 ^ 32)
    (h1 : buf[a]? = some hi) (h2 : buf[a + 1]? = some lo) :
    GetUint16 buf a = .ok (((hi <<< 8) % 65536) ||| lo) := by
  have e : (a + 1) % 2 ^ 32 = a + 1 := Nat.mod_eq_of_lt ha
  unfold GetUint16
  rw [e, readAt_eq_ok h1, readAt_eq_ok h2]
  rfl

theorem chain_congr (zm zm' : ZMachine) :
    ∀ (l : List Nat) (c : Nat), (∀ x ∈ l, zm'.GetSibling x = zm.GetSibling x) →
      SiblingChain zm c l → SiblingChain zm' c l := by
  intro l
  induction l with
  | nil => intro c _ h; exact h
  | cons x xs ih =>
    intro c hx h
    obtain ⟨h1, h2, s, h3, h4⟩ := h
    refine ⟨h1, h2, s, ?_, ih s (fun y hy => hx y (List.mem_cons_of_mem _ hy)) h4⟩
    rw [hx x (List.mem_cons_self _ _)]
    exact h3

theorem chain_functional (zm : ZMachine) :
    ∀ (l1 l2 : List Nat) (c : Nat), SiblingChain zm c l1 → SiblingChain zm c l2 → l1 = l2 := by
  intro l1
  induction l1 with
  | nil =>
    intro l2 c h1 h2
    cases l2 with
    | nil => rfl
    | cons y ys =>
      obtain ⟨e, hy, _⟩ := h2
      exact absurd (e ▸ h1 : y = NULL_OBJECT_INDEX) hy
  | cons x xs ih =>
    intro l2 c h1 h2
    obtain ⟨e1, hx, s, hs, hrest⟩ := h1
    cases l2 with
    | nil => exact absurd (e1 ▸ h2 : x = NULL_OBJECT_INDEX) hx
    | cons y ys =>
      obtain ⟨e2, _, s', hs', hrest'⟩ := h2
      have exy : x = y := e1.symm.trans e2
      subst exy
      rw [hs] at hs'
      cases hs'
      rw [ih ys s hrest hrest']

theorem chain_suffix (zm : ZMachine) :
    ∀ (pre : List Nat) (c x : Nat) (post : List Nat), SiblingChain zm c (pre ++ x :: post) →
      SiblingChain zm x (x :: post) := by
  intro pre
  induction pre with
  | nil =>
    intro c x post h
    obtain ⟨_, h2, h3⟩ := h
    exact ⟨rfl, h2, h3⟩
  | cons y ys ih =>
    intro c x post h
    obtain ⟨_, _, s, _, h4⟩ := h
    exact ih s x post h4

theorem chain_ne_zero (zm : ZMachine) :
    ∀ (l : List Nat) (c : Nat), SiblingChain zm c l → ∀ x ∈ l, x ≠ 0 := by
  intro l
  induction l with
  | nil => intro c _ x hx; cases hx
  | cons y ys ih =>
    intro c h x hx
    obtain ⟨_, h2, s, _, h4⟩ := h
    rcases List.mem_cons.mp hx with e | e
    · rw [e]; exact h2
    · exact ih s h4 x e

theorem chain_nodup (zm : ZMachine) :
    ∀ (l : List Nat) (c : Nat), SiblingChain zm c l → l.Nodup := by
  intro l
  induction l with
  | nil => intro c _; exact List.nodup_nil
  | cons x xs ih =>
    intro c h
    have h' := h
    obtain ⟨_, h2, s, h3, h4⟩ := h'
    refine List.nodup_cons.mpr ⟨?_, ih s h4⟩
    intro hx
    obtain ⟨pre, post, e⟩ := List.append_of_mem hx
    rw [e] at h4
    have hsuf := chain_suffix zm pre s x post h4
    obtain ⟨_, _, s', h3', h4'⟩ := hsuf
    rw [h3] at h3'
    cases h3'
    have := chain_functional zm _ _ s h4 h4'
    have hl := congrArg List.length this
    simp at hl
    omega

theorem chain_unlink (zm zm' : ZMachine) (prev i : Nat) (post : List Nat) :
    ∀ (pre : List Nat) (c : Nat), SiblingChain zm c (pre ++ prev :: i :: post) →
      zm'.GetSibling prev = zm.GetSibling i →
      (∀ x, x ∈ pre ++ post → zm'.GetSibling x = zm.GetSibling x) →
      SiblingChain zm' c (pre ++ prev :: post) := by
  intro pre
  induction pre with
  | nil =>
    intro c h hp hx
    obtain ⟨h1, h2, s, _, _, _, s', hs', hrest⟩ := h
    refine ⟨h1, h2, s', ?_, chain_congr zm zm' post s' (fun y hy => hx y (by simpa using hy)) hrest⟩
    rw [hp]
    exact hs'
  | cons y ys ih =>
    intro c h hp hx
    obtain ⟨h1, h2, s, hs, hrest⟩ := h
    refine ⟨h1, h2, s, ?_, ih s hrest hp (fun x hxm => hx x ?_)⟩
    · rw [hx y (by simp)]
      exact hs
    · simp only [List.cons_append, List.mem_cons]
      exact Or.inr hxm

/-- The search loop of `UnlinkObject` on a chain that contains `i`: it stops at `i` and
returns the member just before it. -/
theorem findPrev_spec (zm : ZMachine) (i : Nat) (post : List Nat) :
    ∀ (pre : List Nat) (c p0 fuel : Nat), SiblingChain zm c (pre ++ i :: post) → i ∉ pre →
      pre.length ≤ fuel →
      ZMachine.UnlinkObject.findPrev zm i fuel p0 c = .ok (pre.getLast?.getD p0, i) := by
  intro pre
  induction pre with
  | nil =>
    intro c p0 fuel h _ _
    obtain ⟨h1, _, _⟩ := h
    have e : ¬ (c ≠ i ∧ c ≠ NULL_OBJECT_INDEX) := fun hc => hc.1 h1
    cases fuel with
    | zero =>
      unfold ZMachine.UnlinkObject.findPrev
      rw [if_neg e, h1]
      rfl
    | succ f =>
      unfold ZMachine.UnlinkObject.findPrev
      rw [if_neg e, h1]
      rfl
  | cons y ys ih =>
    intro c p0 fuel h hni hf
    obtain ⟨h1, h2, s, hs, hrest⟩ := h
    have hyi : y ≠ i := fun e => hni (by rw [e]; simp)
    have e : c ≠ i ∧ c ≠ NULL_OBJECT_INDEX := by
      rw [h1]
      exact ⟨hyi, h2⟩
    obtain ⟨f, rfl⟩ : ∃ f, fuel = f + 1 := ⟨fuel - 1, by simp at hf; omega⟩
    unfold ZMachine.UnlinkObject.findPrev
    rw [if_pos e, h1, hs]
    simp only [bind, Except.bind]
    rw [ih s y f hrest (fun hm => hni (List.mem_cons_of_mem _ hm)) (by simp at hf; omega)]
    congr 2
    cases ys with
    | nil => rfl
    | cons z zs =>
      rw [List.getLast?_cons_cons, List.getLast?_eq_getLast (z :: zs) (List.cons_ne_nil _ _)]
      rfl

theorem GetParentObject_eq (zm : ZMachine) (o : Nat) (hobj : zm.header.objTableAddress < 65536)
    (h1 : 1 ≤ o) (h2 : o ≤ 256) :
    zm.GetParentObject o = readAt zm.buf (entryAddr zm o + 4) := by
  have hE : entryAddr zm o < 70000 := by unfold entryAddr; omega
  have e : (entryAddr zm o + OBJECT_PARENT_INDEX) % 2 ^ 32 = entryAddr zm o + 4 :=
    Nat.mod_eq_of_lt (by show entryAddr zm o + 4 < 2 ^ 32; omega)
  unfold ZMachine.GetParentObject
  rw [GetObjectEntryAddress_ok zm o hobj h1 h2]
  simp only [bind, Except.bind, e]

theorem GetSibling_eq (zm : ZMachine) (o : Nat) (hobj : zm.header.objTableAddress < 65536)
    (h1 : 1 ≤ o) (h2 : o ≤ 256) :
    zm.GetSibling o = readAt zm.buf (entryAddr zm o + 5) := by
  have hE : entryAddr zm o < 70000 := by unfold entryAddr; omega
  have e : (entryAddr zm o + OBJECT_SIBLING_INDEX) % 2 ^ 32 = entryAddr zm o + 5 :=
    Nat.mod_eq_of_lt (by show entryAddr zm o + 5 < 2 ^ 32; omega)
  unfold ZMachine.GetSibling
  rw [GetObjectEntryAddress_ok zm o hobj h1 h2]
  simp only [bind, Except.bind, e]

theorem GetFirstChild_eq (zm : ZMachine) (o : Nat) (hobj : zm.header.objTableAddress < 65536)
    (h1 : 1 ≤ o) (h2 : o ≤ 256) :
    zm.GetFirstChild o = readAt zm.buf (entryAddr zm o + 6) := by
  have hE : entryAddr zm o < 70000 := by unfold entryAddr; omega
  have e : (entryAddr zm o + OBJECT_CHILD_INDEX) % 2 ^ 32 = entryAddr zm o + 6 :=
    Nat.mod_eq_of_lt (by show entryAddr zm o + 6 < 2 ^ 32; omega)
  unfold ZMachine.GetFirstChild
  rw [GetObjectEntryAddress_ok zm o hobj h1 h2]
  simp only [bind, Except.bind, e]

theorem getter_invalid (zm : ZMachine) (o : Nat) (h : o = 0 ∨ 256 < o) :
    zm.GetParentObject o = .error .invalidObject ∧ zm.GetSibling o = .error .invalidObject ∧
      zm.GetFirstChild o = .error .invalidObject := by
  unfold ZMachine.GetParentObject ZMachine.GetSibling ZMachine.GetFirstChild
  rw [GetObjectEntryAddress_invalid zm o h]
  exact ⟨rfl, rfl, rfl⟩

theorem entryAddr_header (zm zm' : ZMachine) (h : zm'.header = zm.header) (o : Nat) :
    entryAddr zm' o = entryAddr zm o := by
  unfold entryAddr
  rw [h]

/-- A machine with the same header and the same bytes in the link fields of an object
gives the same parent, sibling and first child for it. -/
theorem getter_frame (zm zm' : ZMachine) (hobj : zm.header.objTableAddress < 65536)
    (hh : zm'.header = zm.header) (o : Nat) :
    (zm'.buf[entryAddr zm o + 4]? = zm.buf[entryAddr zm o + 4]? →
      zm'.GetParentObject o = zm.GetParentObject o) ∧
    (zm'.buf[entryAddr zm o + 5]? = zm.buf[entryAddr zm o + 5]? →
      zm'.GetSibling o = zm.GetSibling o) ∧
    (zm'.buf[entryAddr zm o + 6]? = zm.buf[entryAddr zm o + 6]? →
      zm'.GetFirstChild o = zm.GetFirstChild o) := by
  by_cases hv : o = 0 ∨ 256 < o
  · obtain ⟨a1, a2, a3⟩ := getter_invalid zm o hv
    obtain ⟨b1, b2, b3⟩ := getter_invalid zm' o hv
    rw [a1, a2, a3, b1, b2, b3]
    exact ⟨fun _ => rfl, fun _ => rfl, fun _ => rfl⟩
  · have h1 : 1 ≤ o := by omega
    have h2 : o ≤ 256 := by omega
    have hobj' : zm'.header.objTableAddress < 65536 := by rw [hh]; exact hobj
    rw [GetParentObject_eq zm o hobj h1 h2, GetSibling_eq zm o hobj h1 h2,
      GetFirstChild_eq zm o hobj h1 h2, GetParentObject_eq zm' o hobj' h1 h2,
      GetSibling_eq zm' o hobj' h1 h2, GetFirstChild_eq zm' o hobj' h1 h2,
      entryAddr_header zm zm' hh]
    exact ⟨readAt_congr, readAt_congr, readAt_congr⟩

theorem readAt_ok_iff {xs : List Nat} {i v : Nat} : readAt xs i = .ok v ↔ xs[i]? = some v := by
  unfold readAt
  cases h : xs[i]? with
  | none => simp
  | some w => simp

theorem getElem?_lt {xs : List Nat} {i v : Nat} (h : xs[i]? = some v) : i < xs.length := by
  rcases Nat.lt_or_ge i xs.length with h1 | h1
  · exact h1
  · rw [List.getElem?_eq_none h1] at h
    cases h

theorem getElem?_set_set {xs : List Nat} {X Y Z v w : Nat} (h1 : X ≠ Z) (h2 : Y ≠ Z) :
    ((xs.set X v).set Y w)[Z]? = xs[Z]? := by
  rw [List.getElem?_set_ne h2, List.getElem?_set_ne h1]

/-- What `UnlinkObject` does for an object `i` that has a parent `q` and occurs in the
child chain `l` of `q`: it overwrites one link (the child field of `q` or the sibling field
of the member of `l` before `i`) and clears the parent field of `i`; afterwards the child
chain of `q` is `l` without `i`. -/
theorem UnlinkObject_spec (fuel : Nat) (zm : ZMachine) (i q : Nat) (l : List Nat)
    (hobj : zm.header.objTableAddress < 65536) (hi1 : 1 ≤ i) (hi2 : i ≤ 255)
    (hpar : zm.GetParentObject i = .ok q) (hq0 : q ≠ 0) (hq : q ≤ 255)
    (hchain : ChildChain zm q l) (hil : i ∈ l) (hl : ∀ x ∈ l, x ≤ 255)
    (hfuel : l.length ≤ fuel) :
    ∃ zm' X v, ZMachine.UnlinkObject fuel zm i = .ok zm' ∧ zm'.header = zm.header ∧
      zm'.ip = zm.ip ∧ zm'.stack = zm.stack ∧ zm'.Done = zm.Done ∧
      zm'.buf = (zm.buf.set X v).set (entryAddr zm i + 4) 0 ∧
      (X = entryAddr zm q + 6 ∨ ∃ prev, prev ∈ l ∧ X = entryAddr zm prev + 5) ∧
      entryAddr zm i + 4 < zm.buf.length ∧ ChildChain zm' q (l.erase i) := by
  obtain ⟨c, hc, hsc⟩ := hchain
  have hnz := chain_ne_zero zm l c hsc
  have hnd := chain_nodup zm l c hsc
  have hEi := GetObjectEntryAddress_ok zm i hobj hi1 (by omega)
  have hEq := GetObjectEntryAddress_ok zm q hobj (by omega) (by omega)
  have hAi : entryAddr zm i < 70000 := by unfold entryAddr; omega
  have hAq : entryAddr zm q < 70000 := by unfold entryAddr; omega
  have m4 : (entryAddr zm i + OBJECT_PARENT_INDEX) % 2 ^ 32 = entryAddr zm i + 4 :=
    Nat.mod_eq_of_lt (by show entryAddr zm i + 4 < 2 ^ 32; omega)
  have m5 : (entryAddr zm i + OBJECT_SIBLING_INDEX) % 2 ^ 32 = entryAddr zm i + 5 :=
    Nat.mod_eq_of_lt (by show entryAddr zm i + 5 < 2 ^ 32; omega)
  have m6 : (entryAddr zm q + OBJECT_CHILD_INDEX) % 2 ^ 32 = entryAddr zm q + 6 :=
    Nat.mod_eq_of_lt (by show entryAddr zm q + 6 < 2 ^ 32; omega)
  have hpar' : readAt zm.buf (entryAddr zm i + 4) = .ok q := by
    rw [← GetParentObject_eq zm i hobj hi1 (by omega)]; exact hpar
  have hc' : readAt zm.buf (entryAddr zm q + 6) = .ok c := by
    rw [← GetFirstChild_eq zm q hobj (by omega) (by omega)]; exact hc
  have hlt4 : entryAddr zm i + 4 < zm.buf.length := getElem?_lt (readAt_ok_iff.mp hpar')
  have hlt6 : entryAddr zm q + 6 < zm.buf.length := getElem?_lt (readAt_ok_iff.mp hc')
  have hq0' : q ≠ NULL_OBJECT_INDEX := hq0
  obtain ⟨P, post, hl_eq, hiP⟩ := List.eq_append_cons_of_mem hil
  subst hl_eq
  obtain ⟨_, hi0, s, hs, hpost⟩ := chain_suffix zm P c i post hsc
  have hs' : readAt zm.buf (entryAddr zm i + 5) = .ok s := by
    rw [← GetSibling_eq zm i hobj hi1 (by omega)]; exact hs
  have herase : (P ++ i :: post).erase i = P ++ post := by
    rw [List.erase_append_right _ hiP, List.erase_cons_head]
  rw [herase]
  -- the frame of a machine whose buffer is two writes away
  have hframe : ∀ (X v : Nat), (ZMachine.mk zm.ip zm.header
      ((zm.buf.set X v).set (entryAddr zm i + 4) 0) zm.stack zm.Done).header = zm.header :=
    fun _ _ => rfl
  rcases List.eq_nil_or_concat P with hP | ⟨pre, prev, hP⟩
  · -- `i` is the first child
    subst hP
    have hci : c = i := hsc.1
    subst hci
    obtain ⟨zm1, hz⟩ : ∃ z : ZMachine, z = ZMachine.mk zm.ip zm.header
      ((zm.buf.set (entryAddr zm q + 6) s).set (entryAddr zm c + 4) 0) zm.stack zm.Done :=
      ⟨_, rfl⟩
    have hh : zm1.header = zm.header := by rw [hz]
    have hb : zm1.buf = (zm.buf.set (entryAddr zm q + 6) s).set (entryAddr zm c + 4) 0 := by
      rw [hz]
    have hobj1 : zm1.header.objTableAddress < 65536 := by rw [hh]; exact hobj
    refine ⟨zm1, entryAddr zm q + 6, s, ?_, hh, by rw [hz], by rw [hz], by rw [hz], hb,
      Or.inl rfl, hlt4, ?_⟩
    · unfold ZMachine.UnlinkObject
      simp only [bind, Except.bind, hEi, m4, hpar', hq0', hEq, m6, hc', m5, hs', ne_eq,
        not_false_eq_true, if_true, writeAt, hlt6, List.length_set, hlt4, pure, Except.pure]
      rw [hz]
      rfl
    · simp only [List.nil_append]
      refine ⟨s, ?_, ?_⟩
      · rw [GetFirstChild_eq zm1 q hobj1 (by omega) (by omega), entryAddr_header zm zm1 hh, hb]
        apply readAt_eq_ok
        rw [List.getElem?_set_ne (by unfold entryAddr; omega), List.getElem?_set_self hlt6]
      · apply chain_congr zm _ post s _ hpost
        intro x hx
        apply (getter_frame zm zm1 hobj hh x).2.1
        rw [hb]
        exact getElem?_set_set (by unfold entryAddr; omega) (by unfold entryAddr; omega)
  · -- `i` has a predecessor `prev` in the chain
    subst hP
    simp only [List.concat_eq_append, List.append_assoc, List.singleton_append] at hsc hnd hnz
    simp only [List.concat_eq_append, List.append_assoc, List.singleton_append] at hl hfuel ⊢
    simp only [List.concat_eq_append] at hiP
    have hprev_mem : prev ∈ pre ++ prev :: i :: post := by simp
    have hp0 : prev ≠ 0 := hnz prev hprev_mem
    have hp255 : prev ≤ 255 := hl prev hprev_mem
    have hpi : prev ≠ i := fun e => hiP (by rw [← e]; simp)
    have hnd' := (List.nodup_middle.mp hnd)
    rw [List.nodup_cons] at hnd'
    have hprev_notin : ∀ x, x ∈ pre ++ post → x ≠ prev := by
      intro x hx e
      apply hnd'.1
      rw [← e]
      rcases List.mem_append.mp hx with h | h
      · exact List.mem_append_left _ h
      · exact List.mem_append_right _ (List.mem_cons_of_mem _ h)
    have hci : c ≠ i := by
      intro e
      apply hiP
      rw [← e]
      cases pre with
      | nil => simp only [List.nil_append] at hsc ⊢; rw [hsc.1]; simp
      | cons y ys => simp only [List.cons_append] at hsc ⊢; rw [hsc.1]; simp
    obtain ⟨_, _, si, hsi, _⟩ := chain_suffix zm pre c prev (i :: post) hsc
    have hsi' : readAt zm.buf (entryAddr zm prev + 5) = .ok si := by
      rw [← GetSibling_eq zm prev hobj (by omega) (by omega)]; exact hsi
    have hlt5 : entryAddr zm prev + 5 < zm.buf.length := getElem?_lt (readAt_ok_iff.mp hsi')
    have hEp := GetObjectEntryAddress_ok zm prev hobj (by omega) (by omega)
    have hAp : entryAddr zm prev < 70000 := by unfold entryAddr; omega
    have m5p : (entryAddr zm prev + OBJECT_SIBLING_INDEX) % 2 ^ 32 = entryAddr zm prev + 5 :=
      Nat.mod_eq_of_lt (by show entryAddr zm prev + 5 < 2 ^ 32; omega)
    have hfind := findPrev_spec zm i post (pre ++ [prev]) c NULL_OBJECT_INDEX fuel
      (by simpa using hsc) hiP (by simp at hfuel ⊢; omega)
    have hlast : ((pre ++ [prev]).getLast?).getD NULL_OBJECT_INDEX = prev := by simp
    rw [hlast] at hfind
    obtain ⟨zm1, hz⟩ : ∃ z : ZMachine, z = ZMachine.mk zm.ip zm.header
      ((zm.buf.set (entryAddr zm prev + 5) s).set (entryAddr zm i + 4) 0) zm.stack zm.Done :=
      ⟨_, rfl⟩
    have hh : zm1.header = zm.header := by rw [hz]
    have hb : zm1.buf = (zm.buf.set (entryAddr zm prev + 5) s).set (entryAddr zm i + 4) 0 := by
      rw [hz]
    have hobj1 : zm1.header.objTableAddress < 65536 := by rw [hh]; exact hobj
    have hi0' : ¬ (i = NULL_OBJECT_INDEX) := hi0
    have hp0' : ¬ (prev = NULL_OBJECT_INDEX) := hp0
    refine ⟨zm1, entryAddr zm prev + 5, s, ?_, hh, by rw [hz], by rw [hz], by rw [hz], hb,
      Or.inr ⟨prev, hprev_mem, rfl⟩, hlt4, ?_⟩
    · unfold ZMachine.UnlinkObject
      simp only [bind, Except.bind, hEi, m4, hpar', hq0', hEq, m6, hc', m5, hs', ne_eq,
        not_false_eq_true, if_true, writeAt, hlt5, List.length_set, hlt4, pure, Except.pure,
        hci, if_false, hfind, hi0', hp0', hEp, m5p]
      rw [hz]
      rfl
    · refine ⟨c, ?_, ?_⟩
      · rw [← hc]
        apply (getter_frame zm zm1 hobj hh q).2.2
        rw [hb]
        exact getElem?_set_set (by unfold entryAddr; omega) (by unfold entryAddr; omega)
      · apply chain_unlink zm zm1 prev i post pre c hsc
        · rw [hs, GetSibling_eq zm1 prev hobj1 (by omega) (by omega),
            entryAddr_header zm zm1 hh, hb]
          apply readAt_eq_ok
          rw [List.getElem?_set_ne (by unfold entryAddr; omega), List.getElem?_set_self hlt5]
        · intro x hx
          have hx0 : x ≠ 0 := hnz x (by
            rcases List.mem_append.mp hx with h | h
            · exact List.mem_append_left _ h
            · exact List.mem_append_right _ (List.mem_cons_of_mem _ (List.mem_cons_of_mem _ h)))
          have hxp := hprev_notin x hx
          apply (getter_frame zm zm1 hobj hh x).2.1
          rw [hb]
          exact getElem?_set_set (by unfold entryAddr; omega) (by unfold entryAddr; omega)

/-- Frame of the link getters: they depend only on the header and on one byte of the
entry of a valid object. -/
theorem getter_frame_valid (zm zm' : ZMachine) (hobj : zm.header.objTableAddress < 65536)
    (hh : zm'.header = zm.header) (o : Nat) :
    ((1 ≤ o → o ≤ 256 → zm'.buf[entryAddr zm o + 4]? = zm.buf[entryAddr zm o + 4]?) →
      zm'.GetParentObject o = zm.GetParentObject o) ∧
    ((1 ≤ o → o ≤ 256 → zm'.buf[entryAddr zm o + 5]? = zm.buf[entryAddr zm o + 5]?) →
      zm'.GetSibling o = zm.GetSibling o) ∧
    ((1 ≤ o → o ≤ 256 → zm'.buf[entryAddr zm o + 6]? = zm.buf[entryAddr zm o + 6]?) →
      zm'.GetFirstChild o = zm.GetFirstChild o) := by
  by_cases hv : o = 0 ∨ 256 < o
  · obtain ⟨a1, a2, a3⟩ := getter_invalid zm o hv
    obtain ⟨b1, b2, b3⟩ := getter_invalid zm' o hv
    rw [a1, a2, a3, b1, b2, b3]
    exact ⟨fun _ => rfl, fun _ => rfl, fun _ => rfl⟩
  · have h1 : 1 ≤ o := by omega
    have h2 : o ≤ 256 := by omega
    obtain ⟨f1, f2, f3⟩ := getter_frame zm zm' hobj hh o
    exact ⟨fun h => f1 (h h1 h2), fun h => f2 (h h1 h2), fun h => f3 (h h1 h2)⟩

/-- Frame of `TestObjectAttr`: it depends only on the header and on the four attribute
bytes of the entry of a valid object. -/
theorem TestObjectAttr_frame (zm zm' : ZMachine) (hobj : zm.header.objTableAddress < 65536)
    (hh : zm'.header = zm.header) (o a : Nat)
    (h : 1 ≤ o → o ≤ 256 → ∀ k, k < 4 →
      zm'.buf[entryAddr zm o + k]? = zm.buf[entryAddr zm o + k]?) :
    zm'.TestObjectAttr o a = zm.TestObjectAttr o a := by
  by_cases ha : a > 31
  · unfold ZMachine.TestObjectAttr
    rw [if_pos ha, if_pos ha]
  by_cases hv : o = 0 ∨ 256 < o
  · unfold ZMachine.TestObjectAttr
    rw [if_neg ha, if_neg ha, GetObjectEntryAddress_invalid _ o hv,
      GetObjectEntryAddress_invalid _ o hv]
    rfl
  · have h1 : 1 ≤ o := by omega
    have h2 : o ≤ 256 := by omega
    have hobj' : zm'.header.objTableAddress < 65536 := by rw [hh]; exact hobj
    have hE : entryAddr zm o < 70000 := by unfold entryAddr; omega
    have e1 : (entryAddr zm o + 1) % 2 ^ 32 = entryAddr zm o + 1 := Nat.mod_eq_of_lt (by omega)
    have e2 : (entryAddr zm o + 2) % 2 ^ 32 = entryAddr zm o + 2 := Nat.mod_eq_of_lt (by omega)
    have e3 : (entryAddr zm o + 3) % 2 ^ 32 = entryAddr zm o + 3 := Nat.mod_eq_of_lt (by omega)
    have hG : GetUint32 zm'.buf (entryAddr zm o) = GetUint32 zm.buf (entryAddr zm o) := by
      unfold GetUint32
      rw [e1, e2, e3, readAt_congr (by simpa using h h1 h2 0 (by omega)),
        readAt_congr (h h1 h2 1 (by omega)), readAt_congr (h h1 h2 2 (by omega)),
        readAt_congr (h h1 h2 3 (by omega))]
    unfold ZMachine.TestObjectAttr
    rw [if_neg ha, if_neg ha, GetObjectEntryAddress_ok zm' o hobj' h1 h2,
      GetObjectEntryAddress_ok zm o hobj h1 h2, entryAddr_header zm zm' hh]
    simp only [bind, Except.bind, hG]

/-- A chain without repetition whose members lie in `1..n` has at most `n` members. -/
theorem chain_length_le (l : List Nat) (n : Nat) (hnd : l.Nodup)
    (h : ∀ x ∈ l, 1 ≤ x ∧ x ≤ n) : l.length ≤ n := by
  have hsub : l ⊆ List.range' 1 n := by
    intro x hx
    rw [List.mem_range']
    obtain ⟨h1, h2⟩ := h x hx
    exact ⟨x - 1, by omega, by omega⟩
  have := (List.subperm_of_subset hnd hsub).length_le
  simpa using this

theorem ChildChain_functional (zm : ZMachine) (p : Nat) (l1 l2 : List Nat)
    (h1 : ChildChain zm p l1) (h2 : ChildChain zm p l2) : l1 = l2 := by
  obtain ⟨c1, hc1, hs1⟩ := h1
  obtain ⟨c2, hc2, hs2⟩ := h2
  rw [hc1] at hc2
  cases hc2
  exact chain_functional zm l1 l2 c1 hs1 hs2

/-- The effect of `UnlinkObject` on a well-formed tree with `n` objects, with fuel `n`. -/
theorem unlink_wf (zm : ZMachine) (n fuel i q : Nat) (hwf : WellFormedTree zm n) (hi1 : 1 ≤ i)
    (hin : i ≤ n) (hfuel : n ≤ fuel) (hpar : zm.GetParentObject i = .ok q) :
    ∃ zm1, ZMachine.UnlinkObject fuel zm i = .ok zm1 ∧ zm1.header = zm.header ∧
      zm1.ip = zm.ip ∧ zm1.stack = zm.stack ∧ zm1.Done = zm.Done ∧
      zm1.buf.length = zm.buf.length ∧ (q = 0 → zm1 = zm) ∧ zm1.GetParentObject i = .ok 0 ∧
      (∀ Y, Y ≠ entryAddr zm i + 4 → (q ≠ 0 → Y ≠ entryAddr zm q + 6) →
        (∀ prev, 1 ≤ prev → prev ≤ n → zm.GetParentObject prev = .ok q →
          Y ≠ entryAddr zm prev + 5) → zm1.buf[Y]? = zm.buf[Y]?) ∧
      (q ≠ 0 → ∀ l, ChildChain zm q l → ChildChain zm1 q (l.erase i)) := by
  obtain ⟨hn, hobj, hbuf, hparents, hchains⟩ := hwf
  have hEi := GetObjectEntryAddress_ok zm i hobj hi1 (by omega)
  have hAi : entryAddr zm i < 70000 := by unfold entryAddr; omega
  have m4 : (entryAddr zm i + OBJECT_PARENT_INDEX) % 2 ^ 32 = entryAddr zm i + 4 :=
    Nat.mod_eq_of_lt (by show entryAddr zm i + 4 < 2 ^ 32; omega)
  have hpar' : readAt zm.buf (entryAddr zm i + 4) = .ok q := by
    rw [← GetParentObject_eq zm i hobj hi1 (by omega)]; exact hpar
  by_cases hq0 : q = 0
  · subst hq0
    refine ⟨zm, ?_, rfl, rfl, rfl, rfl, rfl, fun _ => rfl, hpar, fun _ _ _ _ => rfl,
      fun h => absurd rfl h⟩
    unfold ZMachine.UnlinkObject
    simp only [bind, Except.bind, hEi, m4, hpar', NULL_OBJECT_INDEX, ne_eq, not_true_eq_false,
      if_false]
    rfl
  · obtain ⟨q', hq', hqn⟩ := hparents i hi1 hin
    rw [hpar] at hq'
    cases hq'
    obtain ⟨l0, hcc, hmem⟩ := hchains q (by omega) hqn
    have hil : i ∈ l0 := (hmem i).mpr ⟨hi1, hin, hpar⟩
    have hnd : l0.Nodup := by
      obtain ⟨c, _, hsc⟩ := hcc
      exact chain_nodup zm l0 c hsc
    have hlen : l0.length ≤ n :=
      chain_length_le l0 n hnd (fun x hx => ⟨((hmem x).mp hx).1, ((hmem x).mp hx).2.1⟩)
    obtain ⟨zm1, X, v, hun, hh, hip, hst, hdn, hb, hX, hlt4, hch⟩ :=
      UnlinkObject_spec fuel zm i q l0 hobj hi1 (by omega) hpar hq0 (by omega) hcc hil
        (fun x hx => by have := ((hmem x).mp hx).2.1; omega) (by omega)
    have hobj1 : zm1.header.objTableAddress < 65536 := by rw [hh]; exact hobj
    refine ⟨zm1, hun, hh, hip, hst, hdn, by rw [hb]; simp, fun h => absurd h hq0, ?_, ?_, ?_⟩
    · rw [GetParentObject_eq zm1 i hobj1 hi1 (by omega), entryAddr_header zm zm1 hh, hb]
      apply readAt_eq_ok
      rw [List.getElem?_set_self (by simpa using hlt4)]
    · intro Y h1 h2 h3
      rw [hb]
      apply getElem?_set_set _ (Ne.symm h1)
      rcases hX with e | ⟨prev, hprev, e⟩
      · rw [e]; exact Ne.symm (h2 hq0)
      · rw [e]
        obtain ⟨p1, p2, p3⟩ := (hmem prev).mp hprev
        exact Ne.symm (h3 prev p1 p2 p3)
    · intro _ l hl
      rw [ChildChain_functional zm q l l0 hl hcc]
      exact hch

/-- C8. On a well-formed object tree with objects `1..n`, `remove_obj i` (with fuel `n`)
succeeds and leaves `i` without parent; when `i` had the parent `q ≠ 0`, the child chain
of `q` afterwards is its previous chain with `i` erased; the parent and child fields of
every object other than `i` and `q`, the attributes and the property pointers of all
objects are unchanged; and when `i` had no parent the whole state is unchanged. -/
theorem remove_obj_unlinks (zm : ZMachine) (n fuel i : Nat) (hwf : WellFormedTree zm n)
    (hi1 : 1 ≤ i) (hin : i ≤ n) (hfuel : n ≤ fuel) :
    ∃ zm', ZRemoveObj fuel zm i = .ok zm' ∧ zm'.GetParentObject i = .ok 0 ∧
      (∀ q l, zm.GetParentObject i = .ok q → q ≠ 0 → ChildChain zm q l →
        ChildChain zm' q (l.erase i)) ∧
      (∀ q o, zm.GetParentObject i = .ok q → o ≠ i → o ≠ q →
        zm'.GetParentObject o = zm.GetParentObject o ∧
        zm'.GetFirstChild o = zm.GetFirstChild o) ∧
      (∀ o a, zm'.TestObjectAttr o a = zm.TestObjectAttr o a) ∧
      (∀ o, 1 ≤ o → o ≤ 256 →
        GetUint16 zm'.buf (entryAddr zm o + 7) = GetUint16 zm.buf (entryAddr zm o + 7)) ∧
      (zm.GetParentObject i = .ok 0 → zm' = zm) ∧
      zm'.header = zm.header ∧ zm'.buf.length = zm.buf.length := by
  have hwf' := hwf
  obtain ⟨hn, hobj, hbuf, hparents, hchains⟩ := hwf'
  obtain ⟨q, hpar, hqn⟩ := hparents i hi1 hin
  obtain ⟨zm1, hun, hh, -, -, -, hlen, hz, hp0, hfr, hch⟩ :=
    unlink_wf zm n fuel i q hwf hi1 hin hfuel hpar
  refine ⟨zm1, hun, hp0, ?_, ?_, ?_, ?_, ?_, hh, hlen⟩
  · intro q' l hq' hq0 hl
    rw [hpar] at hq'
    cases hq'
    exact hch hq0 l hl
  · intro q' o hq' hoi hoq
    rw [hpar] at hq'
    cases hq'
    by_cases hq0 : q = 0
    · rw [hz hq0]
      exact ⟨rfl, rfl⟩
    · obtain ⟨f1, _, f3⟩ := getter_frame_valid zm zm1 hobj hh o
      constructor
      · apply f1
        intro h1 _
        apply hfr
        · unfold entryAddr; omega
        · intro _; unfold entryAddr; omega
        · intro prev hp1 _ _
          unfold entryAddr; omega
      · apply f3
        intro h1 _
        apply hfr
        · unfold entryAddr; omega
        · intro _; unfold entryAddr; omega
        · intro prev hp1 _ _
          unfold entryAddr; omega
  · intro o a
    apply TestObjectAttr_frame zm zm1 hobj hh
    intro h1 _ k hk
    apply hfr
    · unfold entryAddr; omega
    · intro _; unfold entryAddr; omega
    · intro prev hp1 _ _
      unfold entryAddr; omega
  · intro o h1 h2
    have hE : entryAddr zm o < 70000 := by unfold entryAddr; omega
    have e : (entryAddr zm o + 7 + 1) % 2 ^ 32 = entryAddr zm o + 8 := by omega
    unfold GetUint16
    rw [e]
    have r1 : zm1.buf[entryAddr zm o + 7]? = zm.buf[entryAddr zm o + 7]? := by
      apply hfr
      · unfold entryAddr; omega
      · intro _; unfold entryAddr; omega
      · intro prev hp1 _ _
        unfold entryAddr; omega
    have r2 : zm1.buf[entryAddr zm o + 8]? = zm.buf[entryAddr zm o + 8]? := by
      apply hfr
      · unfold entryAddr; omega
      · intro _; unfold entryAddr; omega
      · intro prev hp1 _ _
        unfold entryAddr; omega
    rw [readAt_congr r1, readAt_congr r2]
  · intro h0
    rw [hpar] at h0
    cases h0
    exact hz rfl

theorem exampleSiblings_wf : WellFormedTree exampleSiblings 3 := by
  refine ⟨by decide, by decide, by decide, ?_, ?_⟩
  · intro o h1 h2
    interval_cases o
    · exact ⟨0, by decide, by decide⟩
    · exact ⟨1, by decide, by decide⟩
    · exact ⟨1, by decide, by decide⟩
  · intro p h1 h2
    interval_cases p
    · refine ⟨[2, 3], ⟨2, by decide, rfl, by decide, 3, by decide, rfl, by decide, 0, by decide,
        rfl⟩, ?_⟩
      intro o
      constructor
      · intro hm
        simp only [List.mem_cons, List.mem_singleton, List.not_mem_nil, or_false] at hm
        rcases hm with rfl | rfl <;> decide
      · rintro ⟨o1, o3, hp⟩
        interval_cases o
        · exact absurd hp (by decide)
        · simp
        · simp
    · refine ⟨[], ⟨0, by decide, rfl⟩, ?_⟩
      intro o
      constructor
      · intro hm; cases hm
      · rintro ⟨o1, o3, hp⟩
        interval_cases o <;> exact absurd hp (by decide)
    · refine ⟨[], ⟨0, by decide, rfl⟩, ?_⟩
      intro o
      constructor
      · intro hm; cases hm
      · rintro ⟨o1, o3, hp⟩
        interval_cases o <;> exact absurd hp (by decide)

theorem exampleObjects_wf : WellFormedTree exampleObjects 3 := by
  refine ⟨by decide, by decide, by decide, ?_, ?_⟩
  · intro o h1 h2
    interval_cases o
    · exact ⟨0, by decide, by decide⟩
    · exact ⟨1, by decide, by decide⟩
    · exact ⟨0, by decide, by decide⟩
  · intro p h1 h2
    interval_cases p
    · refine ⟨[2], ⟨2, by decide, rfl, by decide, 0, by decide, rfl⟩, ?_⟩
      intro o
      constructor
      · intro hm
        simp only [List.mem_singleton] at hm
        subst hm
        decide
      · rintro ⟨o1, o3, hp⟩
        interval_cases o
        · exact absurd hp (by decide)
        · simp
        · exact absurd hp (by decide)
    · refine ⟨[], ⟨0, by decide, rfl⟩, ?_⟩
      intro o
      constructor
      · intro hm; cases hm
      · rintro ⟨o1, o3, hp⟩
        interval_cases o <;> exact absurd hp (by decide)
    · refine ⟨[], ⟨0, by decide, rfl⟩, ?_⟩
      intro o
      constructor
      · intro hm; cases hm
      · rintro ⟨o1, o3, hp⟩
        interval_cases o <;> exact absurd hp (by decide)

/-- C8 on the example image with objects 2 and 3 below object 1: remove object 3. -/
theorem remove_obj_unlinks_witness :
    ∃ zm', ZRemoveObj 3 exampleSiblings 3 = .ok zm' ∧ zm'.GetParentObject 3 = .ok 0 ∧
      (∀ q l, exampleSiblings.GetParentObject 3 = .ok q → q ≠ 0 → ChildChain exampleSiblings q l →
        ChildChain zm' q (l.erase 3)) ∧
      (∀ q o, exampleSiblings.GetParentObject 3 = .ok q → o ≠ 3 → o ≠ q →
        zm'.GetParentObject o = exampleSiblings.GetParentObject o ∧
        zm'.GetFirstChild o = exampleSiblings.GetFirstChild o) ∧
      (∀ o a, zm'.TestObjectAttr o a = exampleSiblings.TestObjectAttr o a) ∧
      (∀ o, 1 ≤ o → o ≤ 256 →
        GetUint16 zm'.buf (entryAddr exampleSiblings o + 7) =
          GetUint16 exampleSiblings.buf (entryAddr exampleSiblings o + 7)) ∧
      (exampleSiblings.GetParentObject 3 = .ok 0 → zm' = exampleSiblings) ∧
      zm'.header = exampleSiblings.header ∧ zm'.buf.length = exampleSiblings.buf.length :=
  remove_obj_unlinks exampleSiblings 3 3 3 exampleSiblings_wf (by decide) (by decide) (by decide)

theorem getElem?_set3 {xs : List Nat} {A B C Z a b c : Nat} (h1 : A ≠ Z) (h2 : B ≠ Z)
    (h3 : C ≠ Z) : (((xs.set A a).set B b).set C c)[Z]? = xs[Z]? := by
  rw [List.getElem?_set_ne h3, List.getElem?_set_ne h2, List.getElem?_set_ne h1]

/-- What `ReparentObject` does on a well-formed tree when the parent `q` of `i` is not
the new parent. -/
theorem reparent_spec (zm : ZMachine) (n fuel i parent q : Nat) (hwf : WellFormedTree zm n)
    (hi1 : 1 ≤ i) (hin : i ≤ n) (hp1 : 1 ≤ parent) (hpn : parent ≤ n)
    (hfuel : n ≤ fuel) (hpar : zm.GetParentObject i = .ok q) (hqp : q ≠ parent) :
    ∃ zm2 lp, ZMachine.ReparentObject fuel zm i parent = .ok zm2 ∧ zm2.header = zm.header ∧
      ChildChain zm parent lp ∧ i ∉ lp ∧ ChildChain zm2 parent (i :: lp) ∧
      zm2.GetFirstChild parent = .ok i ∧ zm2.GetParentObject i = .ok parent ∧
      zm2.GetSibling i = zm.GetFirstChild parent ∧
      (q ≠ 0 → ∀ l, ChildChain zm q l → ChildChain zm2 q (l.erase i)) := by
  have hwf' := hwf
  obtain ⟨hn, hobj, hbuf, hparents, hchains⟩ := hwf'
  obtain ⟨zm1, hun, hh1, -, -, -, hlen1, -, -, hfr, hch⟩ :=
    unlink_wf zm n fuel i q hwf hi1 hin hfuel hpar
  obtain ⟨lp, hccp, hmemp⟩ := hchains parent hp1 hpn
  have hccp' := hccp
  obtain ⟨c, hc, hscp⟩ := hccp'
  have hilp : i ∉ lp := by
    intro hm
    have := ((hmemp i).mp hm).2.2
    rw [hpar] at this
    cases this
    exact hqp rfl
  have hobj1 : zm1.header.objTableAddress < 65536 := by rw [hh1]; exact hobj
  have hEi := GetObjectEntryAddress_ok zm i hobj hi1 (by omega)
  have hEp := GetObjectEntryAddress_ok zm1 parent hobj1 (by omega) (by omega)
  rw [entryAddr_header zm zm1 hh1] at hEp
  have hAi : entryAddr zm i < 70000 := by unfold entryAddr; omega
  have hAp : entryAddr zm parent < 70000 := by unfold entryAddr; omega
  have hBi : entryAddr zm i + 9 ≤ zm.buf.length := by unfold entryAddr at hbuf ⊢; omega
  have hBp : entryAddr zm parent + 9 ≤ zm.buf.length := by unfold entryAddr at hbuf ⊢; omega
  have m4 : (entryAddr zm i + OBJECT_PARENT_INDEX) % 2 ^ 32 = entryAddr zm i + 4 :=
    Nat.mod_eq_of_lt (by show entryAddr zm i + 4 < 2 ^ 32; omega)
  have m5 : (entryAddr zm i + OBJECT_SIBLING_INDEX) % 2 ^ 32 = entryAddr zm i + 5 :=
    Nat.mod_eq_of_lt (by show entryAddr zm i + 5 < 2 ^ 32; omega)
  have m6 : (entryAddr zm parent + OBJECT_CHILD_INDEX) % 2 ^ 32 = entryAddr zm parent + 6 :=
    Nat.mod_eq_of_lt (by show entryAddr zm parent + 6 < 2 ^ 32; omega)
  have hpar' : readAt zm.buf (entryAddr zm i + 4) = .ok q := by
    rw [← GetParentObject_eq zm i hobj hi1 (by omega)]; exact hpar
  -- the first child of the new parent is not touched by the unlink step
  have hc1 : zm1.GetFirstChild parent = .ok c := by
    rw [← hc]
    apply (getter_frame_valid zm zm1 hobj hh1 parent).2.2
    intro _ _
    apply hfr
    · unfold entryAddr; omega
    · intro hq0; unfold entryAddr; omega
    · intro prev _ _ _; unfold entryAddr; omega
  have hc1' : readAt zm1.buf (entryAddr zm parent + 6) = .ok c := by
    rw [← hc1, GetFirstChild_eq zm1 parent hobj1 (by omega) (by omega),
      entryAddr_header zm zm1 hh1]
  have l5 : entryAddr zm i + 5 < zm1.buf.length := by omega
  have l6 : entryAddr zm parent + 6 < zm1.buf.length := by omega
  have l4 : entryAddr zm i + 4 < zm1.buf.length := by omega
  obtain ⟨zm2, hz⟩ : ∃ z : ZMachine, z = ZMachine.mk zm1.ip zm1.header
    (((zm1.buf.set (entryAddr zm i + 5) c).set (entryAddr zm parent + 6) (i % 256)).set
      (entryAddr zm i + 4) (parent % 256)) zm1.stack zm1.Done := ⟨_, rfl⟩
  have hh2 : zm2.header = zm1.header := by rw [hz]
  have hh : zm2.header = zm.header := hh2.trans hh1
  have hb : zm2.buf = ((zm1.buf.set (entryAddr zm i + 5) c).set (entryAddr zm parent + 6)
      (i % 256)).set (entryAddr zm i + 4) (parent % 256) := by rw [hz]
  have hobj2 : zm2.header.objTableAddress < 65536 := by rw [hh]; exact hobj
  have hi256 : i % 256 = i := Nat.mod_eq_of_lt (by omega)
  have hp256 : parent % 256 = parent := Nat.mod_eq_of_lt (by omega)
  have g1 : zm2.GetFirstChild parent = .ok i := by
    rw [GetFirstChild_eq zm2 parent hobj2 (by omega) (by omega), entryAddr_header zm zm2 hh, hb]
    apply readAt_eq_ok
    rw [List.getElem?_set_ne (by unfold entryAddr; omega),
      List.getElem?_set_self (by simpa using l6), hi256]
  have g2 : zm2.GetParentObject i = .ok parent := by
    rw [GetParentObject_eq zm2 i hobj2 hi1 (by omega), entryAddr_header zm zm2 hh, hb]
    apply readAt_eq_ok
    rw [List.getElem?_set_self (by simpa using l4), hp256]
  have g3 : zm2.GetSibling i = .ok c := by
    rw [GetSibling_eq zm2 i hobj2 hi1 (by omega), entryAddr_header zm zm2 hh, hb]
    apply readAt_eq_ok
    rw [List.getElem?_set_ne (by unfold entryAddr; omega),
      List.getElem?_set_ne (by unfold entryAddr; omega), List.getElem?_set_self l5]
  -- sibling fields of objects other than `i` survive the three writes
  have hsib2 : ∀ x, x ≠ i → zm2.GetSibling x = zm1.GetSibling x := by
    intro x hx
    apply (getter_frame_valid zm1 zm2 hobj1 hh2 x).2.1
    intro _ _
    rw [hb, entryAddr_header zm zm1 hh1]
    exact getElem?_set3 (by unfold entryAddr; omega) (by unfold entryAddr; omega)
      (by unfold entryAddr; omega)
  refine ⟨zm2, lp, ?_, hh, hccp, hilp, ?_, g1, g2, by rw [g3, hc], ?_⟩
  · unfold ZMachine.ReparentObject
    simp only [bind, Except.bind, hEi, m4, hpar', hqp, if_false, hun, hEp, m6, hc1', m5, writeAt,
      l5, l6, l4, List.length_set, if_true, pure, Except.pure]
    rw [hz]
  · refine ⟨i, g1, rfl, by show i ≠ 0; omega, c, g3, ?_⟩
    apply chain_congr zm zm2 lp c _ hscp
    intro x hx
    obtain ⟨x1, xn, xp⟩ := (hmemp x).mp hx
    have hxi : x ≠ i := fun e => hilp (e ▸ hx)
    rw [hsib2 x hxi]
    apply (getter_frame_valid zm zm1 hobj hh1 x).2.1
    intro _ _
    apply hfr
    · unfold entryAddr; omega
    · intro _; unfold entryAddr; omega
    · intro prev pv1 _ pvp
      have : prev ≠ x := by
        intro e
        rw [e, xp] at pvp
        cases pvp
        exact hqp rfl
      unfold entryAddr; omega
  · intro hq0 l hl
    obtain ⟨c1, hcq, hsq⟩ := hch hq0 l hl
    have hnd : l.Nodup := by
      obtain ⟨c0, _, hs0⟩ := hl
      exact chain_nodup zm l c0 hs0
    refine ⟨c1, ?_, ?_⟩
    · rw [← hcq]
      apply (getter_frame_valid zm1 zm2 hobj1 hh2 q).2.2
      intro _ _
      rw [hb, entryAddr_header zm zm1 hh1]
      exact getElem?_set3 (by unfold entryAddr; omega) (by unfold entryAddr; omega)
        (by unfold entryAddr; omega)
    · apply chain_congr zm1 zm2 _ c1 _ hsq
      intro x hx
      exact hsib2 x ((List.Nodup.mem_erase_iff hnd).mp hx).1

/-- C6. On a well-formed object tree with objects `1..n` and for valid `i` and `parent`
(distinct or not): `insert_obj i parent` (with fuel `n`) succeeds; afterwards the parent of `i`
is `parent`, `parent` has a child chain in which `i` occurs exactly once, and when `i`
had a different parent `q ≠ 0` before, the child chain of `q` no longer contains `i`. -/
theorem insert_obj_links (zm : ZMachine) (n fuel i parent : Nat) (hwf : WellFormedTree zm n)
    (hi1 : 1 ≤ i) (hin : i ≤ n) (hp1 : 1 ≤ parent) (hpn : parent ≤ n) (hfuel : n ≤ fuel) :
    ∃ zm', ZMachine.ReparentObject fuel zm i parent = .ok zm' ∧
      zm'.IsDirectParent i parent = .ok true ∧
      (∃ l, ChildChain zm' parent l ∧ l.count i = 1) ∧
      (∀ q, zm.GetParentObject i = .ok q → q ≠ 0 → q ≠ parent →
        ∃ l, ChildChain zm' q l ∧ i ∉ l) := by
  have hwf' := hwf
  obtain ⟨hn, hobj, hbuf, hparents, hchains⟩ := hwf'
  obtain ⟨q, hpar, hqn⟩ := hparents i hi1 hin
  by_cases hqp : q = parent
  · -- already a child of `parent`: nothing changes
    subst hqp
    have hEi := GetObjectEntryAddress_ok zm i hobj hi1 (by omega)
    have hAi : entryAddr zm i < 70000 := by unfold entryAddr; omega
    have m4 : (entryAddr zm i + OBJECT_PARENT_INDEX) % 2 ^ 32 = entryAddr zm i + 4 :=
      Nat.mod_eq_of_lt (by show entryAddr zm i + 4 < 2 ^ 32; omega)
    have hpar' : readAt zm.buf (entryAddr zm i + 4) = .ok q := by
      rw [← GetParentObject_eq zm i hobj hi1 (by omega)]; exact hpar
    obtain ⟨l, hcc, hmem⟩ := hchains q hp1 hpn
    have hnd : l.Nodup := by
      obtain ⟨c, _, hsc⟩ := hcc
      exact chain_nodup zm l c hsc
    refine ⟨zm, ?_, ?_, ⟨l, hcc, ?_⟩, ?_⟩
    · unfold ZMachine.ReparentObject
      simp only [bind, Except.bind, hEi, m4, hpar', if_true]
      rfl
    · unfold ZMachine.IsDirectParent
      rw [hpar]
      simp [bind, Except.bind, pure, Except.pure]
    · exact List.count_eq_one_of_mem hnd ((hmem i).mpr ⟨hi1, hin, hpar⟩)
    · intro q' hq' _ hne'
      rw [hpar] at hq'
      cases hq'
      exact absurd rfl hne'
  · obtain ⟨zm2, lp, hre, -, -, hilp, hcc2, -, g2, -, hq⟩ :=
      reparent_spec zm n fuel i parent q hwf hi1 hin hp1 hpn hfuel hpar hqp
    refine ⟨zm2, hre, ?_, ⟨i :: lp, hcc2, ?_⟩, ?_⟩
    · unfold ZMachine.IsDirectParent
      rw [g2]
      simp [bind, Except.bind, pure, Except.pure]
    · rw [List.count_cons_self, List.count_eq_zero_of_not_mem hilp]
    · intro q' hq' hq0 _
      rw [hpar] at hq'
      cases hq'
      obtain ⟨l, hcc, _⟩ := hchains q (by omega) hqn
      have hnd : l.Nodup := by
        obtain ⟨c, _, hsc⟩ := hcc
        exact chain_nodup zm l c hsc
      exact ⟨l.erase i, hq hq0 l hcc, List.Nodup.not_mem_erase hnd⟩

/-- C6 on the example image: insert object 3, which has no parent, into object 1. -/
theorem insert_obj_links_witness :
    ∃ zm', ZMachine.ReparentObject 3 exampleObjects 3 1 = .ok zm' ∧
      zm'.IsDirectParent 3 1 = .ok true ∧
      (∃ l, ChildChain zm' 1 l ∧ l.count 3 = 1) ∧
      (∀ q, exampleObjects.GetParentObject 3 = .ok q → q ≠ 0 → q ≠ 1 →
        ∃ l, ChildChain zm' q l ∧ 3 ∉ l) :=
  insert_obj_links exampleObjects 3 3 3 1 exampleObjects_wf (by decide) (by decide) (by decide)
    (by decide) (by decide)

/-- C7 (as stated) fails: in a well-formed tree where object 1 has the children 2 and 3,
in this order, `insert_obj 3 1` changes nothing, and the first child of object 1 is still
object 2. -/
theorem insert_obj_already_child_counterexample :
    WellFormedTree exampleSiblings 3 ∧ exampleSiblings.GetParentObject 3 = .ok 1 ∧
      ZMachine.ReparentObject 3 exampleSiblings 3 1 = .ok exampleSiblings ∧
      exampleSiblings.GetFirstChild 1 = .ok 2 :=
  ⟨exampleSiblings_wf, by decide, rfl, by decide⟩

/-- C7 (amended). On a well-formed object tree with objects `1..n` and for valid `i`
and `parent` (distinct or not): when `i` is not already a child of `parent`, after
`insert_obj i parent` the first child of `parent` is `i`, the parent of `i` is `parent`,
and the sibling of `i` is the object that was the first child of `parent` before; when
`i` is already a child of `parent`, `insert_obj i parent` returns the state unchanged. -/
theorem insert_obj_first_child (zm : ZMachine) (n fuel i parent : Nat)
    (hwf : WellFormedTree zm n) (hi1 : 1 ≤ i) (hin : i ≤ n) (hp1 : 1 ≤ parent)
    (hpn : parent ≤ n) (hfuel : n ≤ fuel) :
    (zm.GetParentObject i ≠ .ok parent →
      ∃ zm', ZMachine.ReparentObject fuel zm i parent = .ok zm' ∧
        zm'.GetFirstChild parent = .ok i ∧ zm'.GetParentObject i = .ok parent ∧
        zm'.GetSibling i = zm.GetFirstChild parent ∧
        ∃ c, zm.GetFirstChild parent = .ok c) ∧
    (zm.GetParentObject i = .ok parent →
      ZMachine.ReparentObject fuel zm i parent = .ok zm) := by
  have hwf' := hwf
  obtain ⟨hn, hobj, hbuf, hparents, hchains⟩ := hwf'
  obtain ⟨q, hpar, hqn⟩ := hparents i hi1 hin
  constructor
  · intro hnp
    have hqp : q ≠ parent := fun e => hnp (by rw [hpar, e])
    obtain ⟨zm2, lp, hre, -, hccp, -, -, g1, g2, g3, -⟩ :=
      reparent_spec zm n fuel i parent q hwf hi1 hin hp1 hpn hfuel hpar hqp
    obtain ⟨c, hc, _⟩ := hccp
    exact ⟨zm2, hre, g1, g2, g3, c, hc⟩
  · intro hp
    have hEi := GetObjectEntryAddress_ok zm i hobj hi1 (by omega)
    have hAi : entryAddr zm i < 70000 := by unfold entryAddr; omega
    have m4 : (entryAddr zm i + OBJECT_PARENT_INDEX) % 2 ^ 32 = entryAddr zm i + 4 :=
      Nat.mod_eq_of_lt (by show entryAddr zm i + 4 < 2 ^ 32; omega)
    have hpar' : readAt zm.buf (entryAddr zm i + 4) = .ok parent := by
      rw [← GetParentObject_eq zm i hobj hi1 (by omega)]; exact hp
    unfold ZMachine.ReparentObject
    simp only [bind, Except.bind, hEi, m4, hpar', if_true]
    rfl

/-- C7 (amended) on the example image: insert object 3, which has no parent, into
object 1, whose only child is object 2. -/
theorem insert_obj_first_child_witness :
    (exampleObjects.GetParentObject 3 ≠ .ok 1 →
      ∃ zm', ZMachine.ReparentObject 3 exampleObjects 3 1 = .ok zm' ∧
        zm'.GetFirstChild 1 = .ok 3 ∧ zm'.GetParentObject 3 = .ok 1 ∧
        zm'.GetSibling 3 = exampleObjects.GetFirstChild 1 ∧
        ∃ c, exampleObjects.GetFirstChild 1 = .ok c) ∧
    (exampleObjects.GetParentObject 3 = .ok 1 →
      ZMachine.ReparentObject 3 exampleObjects 3 1 = .ok exampleObjects) :=
  insert_obj_first_child exampleObjects 3 3 3 1 exampleObjects_wf (by decide) (by decide)
    (by decide) (by decide) (by decide)

/-! ## Writing a property -/

theorem writeAt_ok_inv {xs ys : List Nat} {i v : Nat} (h : writeAt xs i v = .ok ys) :
    i < xs.length ∧ ys = xs.set i v := by
  unfold writeAt at h
  by_cases hi : i < xs.length
  · rw [if_pos hi] at h
    cases h
    exact ⟨hi, rfl⟩
  · rw [if_neg hi] at h
    cases h

/-- What `storeb` does: it fails, or it changes at most the byte at the operand address,
which lies below the static memory base. -/
theorem storeb_frame (zm zm' : ZMachine) (args : List Nat) (h : ZStoreB zm args = .ok zm') :
    ∃ a, a < zm.header.staticMemAddress ∧ ∀ Y, Y ≠ a → zm'.buf[Y]? = zm.buf[Y]? := by
  unfold ZStoreB at h
  cases h0 : readAt args 0 with
  | error e => rw [h0] at h; cases h
  | ok a0 =>
    cases h1 : readAt args 1 with
    | error e => rw [h0, h1] at h; cases h
    | ok a1 =>
      rw [h0, h1] at h
      simp only [bind, Except.bind] at h
      by_cases hs : zm.IsSafeToWrite ((a0 + a1) % 65536) = true
      · rw [hs] at h
        simp only [Bool.not_true, Bool.false_eq_true, if_false] at h
        cases h2 : readAt args 2 with
        | error e => rw [h2] at h; cases h
        | ok a2 =>
          rw [h2] at h
          simp only at h
          cases hw : writeAt zm.buf ((a0 + a1) % 65536) (a2 % 256) with
          | error e => rw [hw] at h; cases h
          | ok b =>
            rw [hw] at h
            cases h
            obtain ⟨_, rfl⟩ := writeAt_ok_inv hw
            refine ⟨(a0 + a1) % 65536, ?_, ?_⟩
            · simpa [ZMachine.IsSafeToWrite] using hs
            · intro Y hY
              exact List.getElem?_set_ne (Ne.symm hY)
      · rw [Bool.not_eq_true] at hs
        rw [hs] at h
        cases h

/-- What `storew` does: it fails, or it changes at most the bytes at the operand address
`a`, which lies below the static memory base, and at `a + 1`, which is not tested. -/
theorem storew_frame (zm zm' : ZMachine) (args : List Nat) (h : ZStoreW zm args = .ok zm') :
    ∃ a, a < zm.header.staticMemAddress ∧
      ∀ Y, Y ≠ a → Y ≠ a + 1 → zm'.buf[Y]? = zm.buf[Y]? := by
  unfold ZStoreW at h
  cases h0 : readAt args 0 with
  | error e => rw [h0] at h; cases h
  | ok a0 =>
    cases h1 : readAt args 1 with
    | error e => rw [h0, h1] at h; cases h
    | ok a1 =>
      rw [h0, h1] at h
      simp only [bind, Except.bind] at h
      by_cases hs : zm.IsSafeToWrite ((a0 + (a1 * 2) % 65536) % 65536) = true
      · rw [hs] at h
        simp only [Bool.not_true, Bool.false_eq_true, if_false] at h
        cases h2 : readAt args 2 with
        | error e => rw [h2] at h; cases h
        | ok a2 =>
          rw [h2] at h
          simp only at h
          have e : ((a0 + (a1 * 2) % 65536) % 65536 + 1) % 2 ^ 32 =
              (a0 + (a1 * 2) % 65536) % 65536 + 1 := by omega
          unfold ZMachine.SetUint16 at h
          rw [e] at h
          cases hw : writeAt zm.buf ((a0 + (a1 * 2) % 65536) % 65536) ((a2 >>> 8) % 256) with
          | error e => rw [hw] at h; cases h
          | ok b =>
            rw [hw] at h
            simp only [bind, Except.bind] at h
            cases hw2 : writeAt b ((a0 + (a1 * 2) % 65536) % 65536 + 1) ((a2 &&& 0xFF) % 256) with
            | error e => rw [hw2] at h; cases h
            | ok b2 =>
              rw [hw2] at h
              cases h
              obtain ⟨_, rfl⟩ := writeAt_ok_inv hw
              obtain ⟨_, rfl⟩ := writeAt_ok_inv hw2
              refine ⟨(a0 + (a1 * 2) % 65536) % 65536, ?_, ?_⟩
              · simpa [ZMachine.IsSafeToWrite] using hs
              · intro Y hY hY'
                exact getElem?_set_set (Ne.symm hY) (Ne.symm hY')
      · rw [Bool.not_eq_true] at hs
        rw [hs] at h
        cases h

/-- C13. On the six-byte image whose static memory starts at address 4, `storew 3 0 0xABCD`
does not fail: it passes the test of address 3 and writes the low byte `0xCD` to address
4, which is not writable. -/
theorem storew_changes_static_byte :
    exampleStore.IsSafeToWrite 4 = false ∧ exampleStore.buf[4]? = some 0 ∧
    ∃ zm', ZStoreW exampleStore [3, 0, 0xABCD] = .ok zm' ∧
      zm'.buf = [0, 0, 0, 0xAB, 0xCD, 0] ∧ zm'.buf[4]? = some 0xCD :=
  ⟨rfl, rfl, _, rfl, rfl, rfl⟩

/-! ## Encoding a text -/

theorem shl_or (a b k : Nat) (hb : b < 2 ^ k) : (a <<< k) ||| b = a * 2 ^ k + b := by
  have h := Nat.mul_add_lt_is_or hb a
  rw [Nat.shiftLeft_eq, ← Nat.mul_comm (2 ^ k) a, ← h]

/-- Three Z-characters packed into a word. -/
theorem zword_pack (z0 z1 z2 : Nat) (h0 : z0 < 32) (h1 : z1 < 32) (h2 : z2 < 32) :
    ((z0 <<< 10) % 65536) ||| ((z1 <<< 5) % 65536) ||| z2 = z0 * 1024 + z1 * 32 + z2 := by
  have e0 : (z0 <<< 10) % 65536 = z0 <<< 10 := by
    rw [Nat.shiftLeft_eq]
    exact Nat.mod_eq_of_lt (by omega)
  have e1 : (z1 <<< 5) % 65536 = z1 * 32 := by
    rw [Nat.shiftLeft_eq]
    exact Nat.mod_eq_of_lt (by omega)
  rw [e0, e1, shl_or z0 (z1 * 32) 10 (by omega)]
  have e2 : z0 * 2 ^ 10 + z1 * 32 = (z0 * 32 + z1) <<< 5 := by
    rw [Nat.shiftLeft_eq]
    omega
  rw [e2, shl_or _ z2 5 (by omega)]
  omega

/-- The two words of an encoded text joined to the 32-bit result. -/
theorem encode_pack (z0 z1 z2 z3 z4 z5 : Nat) (h0 : z0 < 32) (h1 : z1 < 32) (h2 : z2 < 32)
    (h3 : z3 < 32) (h4 : z4 < 32) (h5 : z5 < 32) :
    (((((z0 <<< 10) % 65536) ||| ((z1 <<< 5) % 65536) ||| z2) <<< 16) % 2 ^ 32) |||
      ((((z3 <<< 10) % 65536) ||| ((z4 <<< 5) % 65536) ||| z5) ||| 0x8000) =
    z0 * 2 ^ 26 + z1 * 2 ^ 21 + z2 * 2 ^ 16 + 2 ^ 15 + z3 * 2 ^ 10 + z4 * 2 ^ 5 + z5 := by
  rw [zword_pack z0 z1 z2 h0 h1 h2, zword_pack z3 z4 z5 h3 h4 h5]
  have e1 : (z3 * 1024 + z4 * 32 + z5) ||| 0x8000 = 2 ^ 15 + (z3 * 1024 + z4 * 32 + z5) := by
    rw [Nat.or_comm, show (0x8000 : Nat) = 1 <<< 15 from rfl, shl_or 1 _ 15 (by omega)]
    omega
  have e2 : ((z0 * 1024 + z1 * 32 + z2) <<< 16) % 2 ^ 32 = (z0 * 1024 + z1 * 32 + z2) <<< 16 := by
    rw [Nat.shiftLeft_eq]
    exact Nat.mod_eq_of_lt (by omega)
  rw [e1, e2, shl_or _ _ 16 (by omega)]
  omega

theorem IndexByte_eq (c : Nat) : ∀ xs : List Nat,
    IndexByte xs c = if c ∈ xs then some (xs.indexOf c) else none := by
  intro xs
  induction xs with
  | nil => rfl
  | cons x xs ih =>
    unfold IndexByte
    by_cases hx : x = c
    · rw [if_pos hx, if_pos (by rw [hx]; exact List.mem_cons_self _ _), List.indexOf_cons_eq _ hx]
    · rw [if_neg hx, ih, List.indexOf_cons_ne _ hx]
      by_cases hm : c ∈ xs
      · rw [if_pos hm, if_pos (List.mem_cons_of_mem _ hm)]
        rfl
      · rw [if_neg hm, if_neg (by
          intro h
          rcases List.mem_cons.mp h with h | h
          · exact hx h.symm
          · exact hm h)]
        rfl

/-- The alphabet search of `EncodeText` finds the first alphabet that holds the byte. -/
theorem findAlphabet_eq (c : Nat) :
    EncodeText.findAlphabet c alphabets 0 =
      if c ∈ alphabets.getD 0 [] then some ((alphabets.getD 0 []).indexOf c, 0)
      else if c ∈ alphabets.getD 1 [] then some ((alphabets.getD 1 []).indexOf c, 1)
      else if c ∈ alphabets.getD 2 [] then some ((alphabets.getD 2 []).indexOf c, 2)
      else none := by
  obtain ⟨A0, A1, A2, hA⟩ : ∃ A0 A1 A2, alphabets = [A0, A1, A2] := ⟨_, _, _, rfl⟩
  rw [hA]
  show EncodeText.findAlphabet c [A0, A1, A2] 0 =
    if c ∈ A0 then some (A0.indexOf c, 0) else if c ∈ A1 then some (A1.indexOf c, 1)
    else if c ∈ A2 then some (A2.indexOf c, 2) else none
  simp only [EncodeText.findAlphabet, IndexByte_eq]
  by_cases h0 : c ∈ A0
  · simp only [if_pos h0]
  · simp only [if_neg h0]
    by_cases h1 : c ∈ A1
    · simp only [if_pos h1]
    · simp only [if_neg h1]
      by_cases h2 : c ∈ A2
      · simp only [if_pos h2]
      · simp only [if_neg h2]

theorem alphabet_index_lt (n c : Nat) (h : c ∈ alphabets.getD n []) :
    (alphabets.getD n []).indexOf c < 26 := by
  have hl : (alphabets.getD n []).length ≤ 26 := by
    rcases n with _ | _ | _ | n
    · decide
    · decide
    · decide
    · exact Nat.zero_le _
  exact Nat.lt_of_lt_of_le (List.indexOf_lt_length.mpr h) hl

theorem charZchars_lt (c : Nat) (hc : c < 256) : ∀ z ∈ charZchars c, z < 32 := by
  have h5 : c >>> 5 < 32 := by
    rw [Nat.shiftRight_eq_div_pow]
    omega
  have h1f : c &&& 0x1F < 32 := by
    rw [show (0x1F : Nat) = 2 ^ 5 - 1 from rfl, Nat.and_pow_two_sub_one_eq_mod]
    omega
  intro z hz
  unfold charZchars at hz
  split at hz
  · have := alphabet_index_lt 0 c (by assumption)
    simp only [List.mem_singleton] at hz
    omega
  · split at hz
    · have := alphabet_index_lt 1 c (by assumption)
      simp only [List.mem_cons, List.mem_singleton, List.not_mem_nil, or_false] at hz
      omega
    · split at hz
      · have := alphabet_index_lt 2 c (by assumption)
        simp only [List.mem_cons, List.mem_singleton, List.not_mem_nil, or_false] at hz
        omega
      · simp only [List.mem_cons, List.mem_singleton, List.not_mem_nil, or_false] at hz
        omega

theorem textZchars_lt : ∀ s : List Nat, (∀ c ∈ s, c < 256) → ∀ z ∈ textZchars s, z < 32 := by
  intro s
  induction s with
  | nil =>
    intro _ z hz
    cases hz
  | cons c cs ih =>
    intro hs z hz
    unfold textZchars at hz
    rcases List.mem_append.mp hz with h | h
    · exact charZchars_lt c (hs c (List.mem_cons_self _ _)) z h
    · exact ih (fun x hx => hs x (List.mem_cons_of_mem _ hx)) z h

theorem take_set_succ (l : List Nat) (i v : Nat) (h : i < l.length) :
    (l.set i v).take (i + 1) = l.take i ++ [v] := by
  rw [List.take_succ, List.getElem?_set_self h]
  congr 1
  apply List.ext_getElem?
  intro k
  rw [List.getElem?_take, List.getElem?_take]
  by_cases hk : k < i
  · rw [if_pos hk, if_pos hk, List.getElem?_set_ne (by omega)]
  · rw [if_neg hk, if_neg hk]

theorem take_pad (A : List Nat) (n : Nat) :
    (A ++ List.replicate (6 + n) 5).take 6 = (A ++ List.replicate 6 5).take 6 := by
  rw [List.take_append_eq_append_take, List.take_append_eq_append_take, List.take_replicate,
    List.take_replicate]
  congr 2
  omega

theorem take_ge (enc X : List Nat) (i : Nat) (h : enc.length = 12) (hi : ¬ i < 6) :
    enc.take 6 = (enc.take i ++ X).take 6 := by
  rw [List.take_append_of_le_length (by rw [List.length_take]; omega), List.take_take,
    show min 6 i = 6 by omega]

/-- One round of the loop of `EncodeText` on a byte of the text: the Z-characters of the
byte are written from position `i` on. -/
theorem encode_step (txt : List Nat) (fuel i j : Nat) (enc : List Nat) (hlen : enc.length = 12)
    (hi : i < 6) (hj : j < txt.length) :
    ∃ enc1, enc1.length = 12 ∧
      enc1.take (i + (charZchars txt[j]).length) = enc.take i ++ charZchars txt[j] ∧
      EncodeText.loop txt (fuel + 1) i j enc =
        EncodeText.loop txt fuel (i + (charZchars txt[j]).length) (j + 1) enc1 := by
  have hr : readAt txt j = .ok txt[j] := readAt_eq_ok (List.getElem?_eq_getElem hj)
  have hw : ∀ (l : List Nat) (k v : Nat), l.length = 12 → k < 12 → writeAt l k v = .ok (l.set k v) := by
    intro l k v hl hk
    unfold writeAt
    rw [if_pos (by omega)]
  generalize hR : EncodeText.loop txt fuel = R
  unfold EncodeText.loop
  rw [if_pos hi, if_pos hj, hr, hR]
  simp only [bind, Except.bind]
  rw [findAlphabet_eq]
  unfold charZchars
  by_cases h0 : txt[j] ∈ alphabets.getD 0 []
  · have hk := alphabet_index_lt 0 _ h0
    simp only [if_pos h0]
    refine ⟨enc.set i ((alphabets.getD 0 []).indexOf txt[j] + 6), by rw [List.length_set]; exact hlen,
      take_set_succ _ _ _ (by omega), ?_⟩
    rw [if_neg (by simp), hw _ _ _ hlen (by omega), Nat.mod_eq_of_lt (by omega)]
    rfl
  · simp only [if_neg h0]
    by_cases h1 : txt[j] ∈ alphabets.getD 1 []
    · have hk := alphabet_index_lt 1 _ h1
      simp only [if_pos h1]
      refine ⟨(enc.set i 4).set (i + 1) ((alphabets.getD 1 []).indexOf txt[j] + 6),
        by rw [List.length_set, List.length_set]; exact hlen, ?_, ?_⟩
      · show List.take (i + 1 + 1) _ = _
        rw [take_set_succ _ _ _ (by rw [List.length_set]; omega),
          take_set_succ _ _ _ (by omega), List.append_assoc]
        rfl
      · rw [if_pos (by simp), hw _ _ _ hlen (by omega)]
        simp only
        rw [hw _ _ _ (by rw [List.length_set]; exact hlen) (by omega),
          Nat.mod_eq_of_lt (show (alphabets.getD 1 []).indexOf txt[j] + 6 < 256 by omega)]
        rfl
    · simp only [if_neg h1]
      by_cases h2 : txt[j] ∈ alphabets.getD 2 []
      · have hk := alphabet_index_lt 2 _ h2
        simp only [if_pos h2]
        refine ⟨(enc.set i 5).set (i + 1) ((alphabets.getD 2 []).indexOf txt[j] + 6),
          by rw [List.length_set, List.length_set]; exact hlen, ?_, ?_⟩
        · show List.take (i + 1 + 1) _ = _
          rw [take_set_succ _ _ _ (by rw [List.length_set]; omega),
            take_set_succ _ _ _ (by omega), List.append_assoc]
          rfl
        · rw [if_pos (by simp), hw _ _ _ hlen (by omega)]
          simp only
          rw [hw _ _ _ (by rw [List.length_set]; exact hlen) (by omega),
            Nat.mod_eq_of_lt (show (alphabets.getD 2 []).indexOf txt[j] + 6 < 256 by omega)]
          rfl
      · simp only [if_neg h2]
        refine ⟨(((enc.set i 5).set (i + 1) 6).set (i + 2) (txt[j] >>> 5)).set (i + 3)
          (txt[j] &&& 0x1F), by simp only [List.length_set]; exact hlen, ?_, ?_⟩
        · show List.take (i + 3 + 1) _ = _
          rw [take_set_succ _ _ _ (by simp only [List.length_set]; omega),
            show i + 3 = i + 2 + 1 from rfl,
            take_set_succ _ _ _ (by simp only [List.length_set]; omega),
            show i + 2 = i + 1 + 1 from rfl,
            take_set_succ _ _ _ (by simp only [List.length_set]; omega),
            take_set_succ _ _ _ (by omega)]
          simp only [List.append_assoc, List.cons_append, List.nil_append]
        · rw [hw _ _ _ hlen (by omega)]
          simp only
          rw [hw _ _ _ (by simp only [List.length_set]; exact hlen) (by omega)]
          simp only
          rw [hw _ _ _ (by simp only [List.length_set]; exact hlen) (by omega)]
          simp only
          rw [hw _ _ _ (by simp only [List.length_set]; exact hlen) (by omega)]
          rfl

/-- The loop of `EncodeText`: with enough fuel it ends, and the first six bytes of
`encodedChars` are then the bytes written so far, followed by the Z-characters of the rest
of the text and by padding. -/
theorem encode_loop_spec (txt : List Nat) :
    ∀ (fuel i j : Nat) (enc : List Nat), enc.length = 12 → 6 ≤ i + fuel →
      ∃ enc', EncodeText.loop txt fuel i j enc = .ok enc' ∧ enc'.length = 12 ∧
        enc'.take 6 = (enc.take i ++ textZchars (txt.drop j) ++ List.replicate 6 5).take 6 := by
  intro fuel
  induction fuel with
  | zero =>
    intro i j enc hlen hif
    refine ⟨enc, ?_, hlen, ?_⟩
    · unfold EncodeText.loop
      rw [if_neg (by omega)]
      rfl
    · rw [List.append_assoc]
      exact take_ge enc _ i hlen (by omega)
  | succ fuel ih =>
    intro i j enc hlen hif
    by_cases hi : i < 6
    · by_cases hj : j < txt.length
      · obtain ⟨enc1, hl1, ht1, hstep⟩ := encode_step txt fuel i j enc hlen hi hj
        have hpos : 1 ≤ (charZchars txt[j]).length := by
          unfold charZchars
          split
          · simp
          · split
            · simp
            · split <;> simp
        obtain ⟨enc', he, hl', ht'⟩ := ih (i + (charZchars txt[j]).length) (j + 1) enc1 hl1
          (by omega)
        refine ⟨enc', by rw [hstep]; exact he, hl', ?_⟩
        rw [ht', ht1, List.drop_eq_getElem_cons hj]
        simp only [textZchars, List.append_assoc]
      · obtain ⟨enc', he, hl', ht'⟩ := ih (i + 1) j (enc.set i 5)
          (by rw [List.length_set]; exact hlen) (by omega)
        refine ⟨enc', ?_, hl', ?_⟩
        · unfold EncodeText.loop
          rw [if_pos hi, if_neg hj]
          unfold writeAt
          rw [if_pos (by omega)]
          exact he
        · rw [ht', take_set_succ _ _ _ (by omega), List.drop_eq_nil_of_le (by omega)]
          simp only [textZchars, List.append_nil, List.append_assoc]
          exact take_pad (enc.take i) 1
    · refine ⟨enc, ?_, hlen, ?_⟩
      · unfold EncodeText.loop
        rw [if_neg hi]
        rfl
      · rw [List.append_assoc]
        exact take_ge enc _ i hlen hi
/-- The result of `EncodeText` in terms of the first six Z-characters of the padded text. -/
theorem EncodeText_zchars (s : List Nat) (z0 z1 z2 z3 z4 z5 : Nat)
    (hz : (textZchars s ++ List.replicate 6 5).take 6 = [z0, z1, z2, z3, z4, z5]) :
    EncodeText s = .ok
      ((((((z0 <<< 10) % 65536) ||| ((z1 <<< 5) % 65536) ||| z2) <<< 16) % 2 ^ 32) |||
        ((((z3 <<< 10) % 65536) ||| ((z4 <<< 5) % 65536) ||| z5) ||| 0x8000)) := by
  obtain ⟨enc, he, _, ht⟩ := encode_loop_spec s 6 0 0 (List.replicate 12 0) rfl (by omega)
  rw [List.take_zero, List.nil_append, List.drop_zero, hz] at ht
  have hk : ∀ k, k < 6 → enc[k]? = [z0, z1, z2, z3, z4, z5][k]? := by
    intro k hk
    rw [← ht, List.getElem?_take_of_lt hk]
  unfold EncodeText
  rw [he]
  simp only [bind, Except.bind]
  rw [readAt_eq_ok (hk 0 (by omega)), readAt_eq_ok (hk 1 (by omega)),
    readAt_eq_ok (hk 2 (by omega)), readAt_eq_ok (hk 3 (by omega)),
    readAt_eq_ok (hk 4 (by omega)), readAt_eq_ok (hk 5 (by omega))]
  rfl

theorem list_six (L : List Nat) (h : L.length = 6) :
    ∃ z0 z1 z2 z3 z4 z5, L = [z0, z1, z2, z3, z4, z5] := by
  match L, h with
  | [a, b, c, d, e, f], _ => exact ⟨a, b, c, d, e, f, rfl⟩

/-- C14. For every byte string `s`, `EncodeText s` succeeds (no index is out of range) and
its value has bit 31 clear, bit 15 set, and as its six 5-bit fields (bits 30-26, 25-21,
20-16, 14-10, 9-5, 4-0) the first six Z-characters of the Z-characters of `s` followed by
padding 5s; Z-characters after the sixth do not count. -/
theorem encode_text_spec (s : List Nat) (hs : ∀ c ∈ s, c < 256) :
    ∃ z0 z1 z2 z3 z4 z5 v,
      (textZchars s ++ List.replicate 6 5).take 6 = [z0, z1, z2, z3, z4, z5] ∧
      EncodeText s = .ok v ∧
      v = z0 * 2 ^ 26 + z1 * 2 ^ 21 + z2 * 2 ^ 16 + 2 ^ 15 + z3 * 2 ^ 10 + z4 * 2 ^ 5 + z5 ∧
      v < 2 ^ 32 ∧ v.testBit 31 = false ∧ v.testBit 15 = true ∧
      (v >>> 26) &&& 0x1F = z0 ∧ (v >>> 21) &&& 0x1F = z1 ∧ (v >>> 16) &&& 0x1F = z2 ∧
      (v >>> 10) &&& 0x1F = z3 ∧ (v >>> 5) &&& 0x1F = z4 ∧ v &&& 0x1F = z5 := by
  obtain ⟨z0, z1, z2, z3, z4, z5, hz⟩ :=
    list_six ((textZchars s ++ List.replicate 6 5).take 6) (by
      rw [List.length_take, List.length_append, List.length_replicate]
      omega)
  have hlt : ∀ z ∈ [z0, z1, z2, z3, z4, z5], z < 32 := by
    intro z hm
    rw [← hz] at hm
    rcases List.mem_append.mp (List.mem_of_mem_take hm) with h | h
    · exact textZchars_lt s hs z h
    · rw [(List.mem_replicate.mp h).2]
      decide
  have h0 : z0 < 32 := hlt z0 (by simp)
  have h1 : z1 < 32 := hlt z1 (by simp)
  have h2 : z2 < 32 := hlt z2 (by simp)
  have h3 : z3 < 32 := hlt z3 (by simp)
  have h4 : z4 < 32 := hlt z4 (by simp)
  have h5 : z5 < 32 := hlt z5 (by simp)
  have e5 : ∀ x, x &&& 0x1F = x % 32 := by
    intro x
    rw [show (0x1F : Nat) = 2 ^ 5 - 1 from rfl, Nat.and_pow_two_sub_one_eq_mod]
  refine ⟨z0, z1, z2, z3, z4, z5, _, hz, ?_, rfl, ?_, ?_, ?_, ?_, ?_, ?_, ?_, ?_, ?_⟩
  · rw [EncodeText_zchars s z0 z1 z2 z3 z4 z5 hz, encode_pack z0 z1 z2 z3 z4 z5 h0 h1 h2 h3 h4 h5]
  · omega
  · exact Nat.testBit_lt_two_pow (by omega)
  · rw [Nat.testBit_to_div_mod]
    exact decide_eq_true (by omega)
  · rw [e5, Nat.shiftRight_eq_div_pow]
    omega
  · rw [e5, Nat.shiftRight_eq_div_pow]
    omega
  · rw [e5, Nat.shiftRight_eq_div_pow]
    omega
  · rw [e5, Nat.shiftRight_eq_div_pow]
    omega
  · rw [e5, Nat.shiftRight_eq_div_pow]
    omega
  · rw [e5]
    omega

/-- C14 on the text `"Hi?"`: the Z-characters 4, 13, 14, 5, 21 and one padding 5. -/
theorem encode_text_spec_witness :
    ∃ z0 z1 z2 z3 z4 z5 v,
      (textZchars [72, 105, 63] ++ List.replicate 6 5).take 6 = [z0, z1, z2, z3, z4, z5] ∧
      EncodeText [72, 105, 63] = .ok v ∧
      v = z0 * 2 ^ 26 + z1 * 2 ^ 21 + z2 * 2 ^ 16 + 2 ^ 15 + z3 * 2 ^ 10 + z4 * 2 ^ 5 + z5 ∧
      v < 2 ^ 32 ∧ v.testBit 31 = false ∧ v.testBit 15 = true ∧
      (v >>> 26) &&& 0x1F = z0 ∧ (v >>> 21) &&& 0x1F = z1 ∧ (v >>> 16) &&& 0x1F = z2 ∧
      (v >>> 10) &&& 0x1F = z3 ∧ (v >>> 5) &&& 0x1F = z4 ∧ v &&& 0x1F = z5 :=
  encode_text_spec [72, 105, 63] (by decide)

/-- C15, the stated value: the encoding of `"look"` is not `0x46A94A45`. -/
theorem encode_look_counterexample : EncodeText [108, 111, 111, 107] ≠ .ok 0x46A94A45 := by
  decide

/-- C15. The encoding of `"look"` is `0x4694C0A5`: the word `0x4694` of the Z-characters
17, 20, 20 (the letters l, o, o at the indices 11, 14, 14 of alphabet 0, plus 6), and the
word `0xC0A5` of 16 (the letter k), two padding 5s and the top bit. -/
theorem encode_look :
    EncodeText [108, 111, 111, 107] = .ok 0x4694C0A5 ∧
    "look".toList.map Char.toNat = [108, 111, 111, 107] ∧
    textZchars [108, 111, 111, 107] = [17, 20, 20, 16] ∧
    0x4694C0A5 = (17 * 2 ^ 10 + 20 * 2 ^ 5 + 20) * 2 ^ 16 + (2 ^ 15 + 16 * 2 ^ 10 + 5 * 2 ^ 5 + 5) := by
  decide

/-! ## Decoding a Z-string -/

theorem and_0x8000 (x : Nat) : x &&& 0x8000 = (x / 32768 % 2) * 32768 := by
  rw [show (0x8000 : Nat) = 2 ^ 15 from rfl, Nat.and_two_pow, Nat.testBit_to_div_mod]
  by_cases h : x / 2 ^ 15 % 2 = 1
  · rw [decide_eq_true h]
    show 1 * 2 ^ 15 = _
    omega
  · rw [decide_eq_false h]
    show 0 * 2 ^ 15 = _
    omega

theorem and_0x1F (x : Nat) : x &&& 0x1F = x % 32 := by
  rw [show (0x1F : Nat) = 2 ^ 5 - 1 from rfl, Nat.and_pow_two_sub_one_eq_mod]

/-- The first loop of `DecodeZString` at a word with its top bit set. -/
theorem readWords_stop (buf : List Nat) (fuel i w : Nat) (zs : List Nat)
    (hw : GetUint16 buf i = .ok w) (htop : w / 32768 % 2 = 1) :
    DecodeZString.readWords buf (fuel + 1) i zs =
      .ok (zs ++ [w / 1024 % 32, w / 32 % 32, w % 32], (i + 2) % 2 ^ 32) := by
  unfold DecodeZString.readWords
  rw [hw]
  simp only [bind, Except.bind]
  rw [if_pos (by rw [and_0x8000]; omega)]
  simp only [and_0x1F, Nat.shiftRight_eq_div_pow]
  rfl

/-- The first loop of `DecodeZString` at a word with its top bit clear. -/
theorem readWords_go (buf : List Nat) (fuel i w : Nat) (zs : List Nat)
    (hw : GetUint16 buf i = .ok w) (htop : w / 32768 % 2 = 0) :
    DecodeZString.readWords buf (fuel + 1) i zs =
      DecodeZString.readWords buf fuel ((i + 2) % 2 ^ 32)
        (zs ++ [w / 1024 % 32, w / 32 % 32, w % 32]) := by
  generalize hR : DecodeZString.readWords buf fuel = R
  unfold DecodeZString.readWords
  rw [hw, hR]
  simp only [bind, Except.bind]
  rw [if_neg (by rw [and_0x8000]; omega)]
  simp only [and_0x1F, Nat.shiftRight_eq_div_pow]

/-- The second loop of `DecodeZString` on trailing padding: nothing is written. -/
theorem chars_padding (f : Nat → Except ZError (List Nat)) (zm : ZMachine) (out : List Nat) :
    ∀ (n : Nat) (pre : List Nat) (steps t : Nat), n ≤ steps →
      DecodeZString.chars f zm (pre ++ List.replicate n 5) steps pre.length t out = .ok out := by
  intro n
  induction n with
  | zero =>
    intro pre steps t _
    have hlt : ¬ pre.length < (pre ++ List.replicate 0 5).length := by simp
    cases steps with
    | zero =>
      unfold DecodeZString.chars
      rw [if_neg hlt]
      rfl
    | succ s =>
      unfold DecodeZString.chars
      rw [if_neg hlt]
      rfl
  | succ n ih =>
    intro pre steps t hs
    obtain ⟨s, rfl⟩ : ∃ s, steps = s + 1 := ⟨steps - 1, by omega⟩
    have hlt : pre.length < (pre ++ List.replicate (n + 1) 5).length := by
      rw [List.length_append, List.length_replicate]
      omega
    have hr : readAt (pre ++ List.replicate (n + 1) 5) pre.length = .ok 5 := by
      apply readAt_eq_ok
      rw [List.getElem?_append_right (Nat.le_refl _), Nat.sub_self]
      simp
    have hz : pre ++ List.replicate (n + 1) 5 = (pre ++ [5]) ++ List.replicate n 5 := by
      rw [List.append_assoc]
      rfl
    have hi : pre.length + 1 = (pre ++ [5]).length := by simp
    have := ih (pre ++ [5]) s 2 (by omega)
    rw [← hz, ← hi] at this
    generalize hR : DecodeZString.chars f zm (pre ++ List.replicate (n + 1) 5) s = R at this
    unfold DecodeZString.chars
    rw [if_pos hlt, hr, hR]
    simp only [bind, Except.bind]
    rw [if_neg (by omega), if_neg (by omega), if_pos True.intro]
    exact this

/-- The second loop of `DecodeZString` on Z-characters of letters of alphabet 0 followed
by padding: the letters are written. -/
theorem chars_letters (f : Nat → Except ZError (List Nat)) (zm : ZMachine) :
    ∀ (ws pre : List Nat) (n steps : Nat) (out : List Nat),
      (∀ c ∈ ws, c ∈ alphabets.getD 0 []) → ws.length + n ≤ steps →
      DecodeZString.chars f zm
        (pre ++ ws.map (fun c => (alphabets.getD 0 []).indexOf c + 6) ++ List.replicate n 5)
        steps pre.length 0 out = .ok (out ++ ws) := by
  intro ws
  induction ws with
  | nil =>
    intro pre n steps out _ hs
    rw [List.map_nil, List.append_nil, List.append_nil]
    exact chars_padding f zm out n pre steps 0 (by simpa using hs)
  | cons c ws ih =>
    intro pre n steps out hmem hs
    obtain ⟨s, rfl⟩ : ∃ s, steps = s + 1 := ⟨steps - 1, by simp at hs; omega⟩
    have hc := hmem c (List.mem_cons_self _ _)
    have hk := alphabet_index_lt 0 c hc
    have hz : pre ++ (c :: ws).map (fun c => (alphabets.getD 0 []).indexOf c + 6) ++
        List.replicate n 5 =
        (pre ++ [(alphabets.getD 0 []).indexOf c + 6]) ++
          ws.map (fun c => (alphabets.getD 0 []).indexOf c + 6) ++ List.replicate n 5 := by
      simp only [List.map_cons, List.append_assoc, List.cons_append, List.nil_append]
    have hi : pre.length + 1 = (pre ++ [(alphabets.getD 0 []).indexOf c + 6]).length := by simp
    have := ih (pre ++ [(alphabets.getD 0 []).indexOf c + 6]) n s (out ++ [c])
      (fun x hx => hmem x (List.mem_cons_of_mem _ hx)) (by simp at hs; omega)
    rw [← hz, ← hi] at this
    generalize hZ : pre ++ (c :: ws).map (fun c => (alphabets.getD 0 []).indexOf c + 6) ++
      List.replicate n 5 = Z at this ⊢
    have hlt : pre.length < Z.length := by
      rw [← hZ]
      simp only [List.length_append, List.length_map, List.length_cons]
      omega
    have hr : readAt Z pre.length = .ok ((alphabets.getD 0 []).indexOf c + 6) := by
      apply readAt_eq_ok
      rw [← hZ, List.append_assoc, List.getElem?_append_right (Nat.le_refl _), Nat.sub_self]
      simp
    have hch : readAt (alphabets.getD 0 []) ((alphabets.getD 0 []).indexOf c + 6 - 6) = .ok c := by
      rw [Nat.add_sub_cancel]
      exact readAt_eq_ok (List.getElem?_indexOf hc)
    generalize hR : DecodeZString.chars f zm Z s = R at this
    unfold DecodeZString.chars
    rw [if_pos hlt, hr, hR]
    simp only [bind, Except.bind]
    rw [if_neg (by omega), if_neg (by omega), if_neg (by omega), if_neg (by omega),
      if_neg (by omega)]
    have ha : alphabets[0]? = some (alphabets.getD 0 []) := rfl
    rw [ha]
    simp only [pure, Except.pure, hch]
    rw [this, List.append_assoc]
    rfl

theorem letter_mem (c : Nat) (h1 : 97 ≤ c) (h2 : c ≤ 122) : c ∈ alphabets.getD 0 [] := by
  interval_cases c <;> decide

theorem textZchars_letters : ∀ w : List Nat, (∀ c ∈ w, c ∈ alphabets.getD 0 []) →
    textZchars w = w.map (fun c => (alphabets.getD 0 []).indexOf c + 6) := by
  intro w
  induction w with
  | nil =>
    intro _
    rfl
  | cons c cs ih =>
    intro h
    unfold textZchars
    rw [ih (fun x hx => h x (List.mem_cons_of_mem _ hx))]
    unfold charZchars
    rw [if_pos (h c (List.mem_cons_self _ _))]
    rfl

theorem pad_take (X : List Nat) :
    (X ++ List.replicate 6 5).take 6 = X.take 6 ++ List.replicate (6 - X.length) 5 := by
  rw [List.take_append_eq_append_take, List.take_replicate]
  congr 2
  omega

/-- The first six Z-characters of the padded encoding of a word of letters of alphabet 0. -/
theorem letters_zchars (w : List Nat) (h : ∀ c ∈ w, c ∈ alphabets.getD 0 []) :
    (textZchars w ++ List.replicate 6 5).take 6 =
      (w.take 6).map (fun c => (alphabets.getD 0 []).indexOf c + 6) ++
        List.replicate (6 - w.length) 5 := by
  rw [pad_take, textZchars_letters w h, List.length_map, List.map_take]

/-- C16. Round trip of a word `w` of letters a-z of any length: when the four bytes of
`EncodeText w` lie big-endian at address `a`, `DecodeZString` at `a` writes the first six
characters of `w` (all of `w` when it is shorter) and returns `a + 4`, and the text written
has the encoding of `w`. -/
theorem zstring_round_trip (fuel : Nat) (zm : ZMachine) (a : Nat) (w : List Nat)
    (hw : ∀ c ∈ w, 97 ≤ c ∧ c ≤ 122) (ha : a + 4 < 2 ^ 32) (hfuel : 2 ≤ fuel)
    (hmem : ∀ v, EncodeText w = .ok v → ∀ k, k < 4 →
      zm.buf[a + k]? = [v / 2 ^ 24 % 256, v / 2 ^ 16 % 256, v / 2 ^ 8 % 256, v % 256][k]?) :
    (∃ v, EncodeText w = .ok v) ∧
    DecodeZString fuel zm a = .ok (w.take 6, a + 4) ∧
    EncodeText (w.take 6) = EncodeText w := by
  have hA : ∀ c ∈ w, c ∈ alphabets.getD 0 [] := fun c hc => letter_mem c (hw c hc).1 (hw c hc).2
  have hL := letters_zchars w hA
  obtain ⟨z0, z1, z2, z3, z4, z5, hz⟩ :=
    list_six ((textZchars w ++ List.replicate 6 5).take 6) (by
      rw [List.length_take, List.length_append, List.length_replicate]
      omega)
  have hlt : ∀ z ∈ [z0, z1, z2, z3, z4, z5], z < 32 := by
    intro z hm
    rw [← hz] at hm
    rcases List.mem_append.mp (List.mem_of_mem_take hm) with h | h
    · exact textZchars_lt w (fun c hc => by have := hw c hc; omega) z h
    · rw [(List.mem_replicate.mp h).2]
      decide
  have h0 : z0 < 32 := hlt z0 (by simp)
  have h1 : z1 < 32 := hlt z1 (by simp)
  have h2 : z2 < 32 := hlt z2 (by simp)
  have h3 : z3 < 32 := hlt z3 (by simp)
  have h4 : z4 < 32 := hlt z4 (by simp)
  have h5 : z5 < 32 := hlt z5 (by simp)
  have hE := EncodeText_zchars w z0 z1 z2 z3 z4 z5 hz
  have hE6 : EncodeText (w.take 6) = EncodeText w := by
    have hL6 := letters_zchars (w.take 6) (fun c hc => hA c (List.mem_of_mem_take hc))
    rw [List.take_take, Nat.min_self, List.length_take,
      show 6 - min 6 w.length = 6 - w.length by omega, ← hL, hz] at hL6
    rw [hE, EncodeText_zchars (w.take 6) z0 z1 z2 z3 z4 z5 hL6]
  rw [encode_pack z0 z1 z2 z3 z4 z5 h0 h1 h2 h3 h4 h5] at hE
  refine ⟨⟨_, hE⟩, ?_, hE6⟩
  obtain ⟨v, hv⟩ : ∃ v, v = z0 * 2 ^ 26 + z1 * 2 ^ 21 + z2 * 2 ^ 16 + 2 ^ 15 + z3 * 2 ^ 10 +
    z4 * 2 ^ 5 + z5 := ⟨_, rfl⟩
  rw [← hv] at hE
  have hb := hmem v hE
  have hb0 : zm.buf[a]? = some (v / 2 ^ 24 % 256) := hb 0 (by omega)
  have hb1 : zm.buf[a + 1]? = some (v / 2 ^ 16 % 256) := hb 1 (by omega)
  have hb2 : zm.buf[a + 2 + 1 - 1]? = some (v / 2 ^ 8 % 256) := hb 2 (by omega)
  have hb3 : zm.buf[a + 2 + 1]? = some (v % 256) := hb 3 (by omega)
  rw [Nat.add_sub_cancel] at hb2
  have e2 : (a + 2) % 2 ^ 32 = a + 2 := Nat.mod_eq_of_lt (by omega)
  have e4 : (a + 2 + 2) % 2 ^ 32 = a + 4 := Nat.mod_eq_of_lt (by omega)
  have hW0 : GetUint16 zm.buf a = .ok (z0 * 1024 + z1 * 32 + z2) := by
    rw [GetUint16_bytes zm.buf a _ _ (by omega) hb0 hb1, word_join _ _ (Nat.mod_lt _ (by decide))
      (Nat.mod_lt _ (by decide))]
    exact congrArg Except.ok (by omega)
  have hW1 : GetUint16 zm.buf (a + 2) = .ok (32768 + z3 * 1024 + z4 * 32 + z5) := by
    rw [GetUint16_bytes zm.buf (a + 2) _ _ (by omega) hb2 hb3,
      word_join _ _ (Nat.mod_lt _ (by decide)) (Nat.mod_lt _ (by decide))]
    exact congrArg Except.ok (by omega)
  obtain ⟨f, rfl⟩ : ∃ f, fuel = f + 2 := ⟨fuel - 2, by omega⟩
  have hR : DecodeZString.readWords zm.buf (f + 2) a [] = .ok ([z0, z1, z2, z3, z4, z5], a + 4) := by
    rw [readWords_go zm.buf (f + 1) a _ [] hW0 (by omega), e2,
      readWords_stop zm.buf f (a + 2) _ _ hW1 (by omega), e4]
    congr 2
    simp only [List.nil_append, List.cons_append, List.cons.injEq, and_true]
    omega
  have hC := chars_letters
    (fun a => do
      let r ← DecodeZString (f + 1) zm a
      pure r.1) zm (w.take 6) [] (6 - w.length) 6 []
    (fun c hc => hA c (List.mem_of_mem_take hc)) (by rw [List.length_take]; omega)
  rw [List.nil_append, ← hL, hz] at hC
  unfold DecodeZString
  rw [hR]
  simp only [bind, Except.bind]
  exact (congrArg (fun r => r.bind fun out => pure (out, a + 4)) hC).trans rfl

/-- C16 on the word `"lookout"`, whose encoding `0x4694C29A` lies at address 0 of the
example image: the text written is `"lookou"`. -/
theorem zstring_round_trip_witness :
    (∃ v, EncodeText [108, 111, 111, 107, 111, 117, 116] = .ok v) ∧
    DecodeZString 2 exampleLookout 0 =
      .ok ([108, 111, 111, 107, 111, 117, 116].take 6, 0 + 4) ∧
    EncodeText ([108, 111, 111, 107, 111, 117, 116].take 6) =
      EncodeText [108, 111, 111, 107, 111, 117, 116] :=
  zstring_round_trip 2 exampleLookout 0 [108, 111, 111, 107, 111, 117, 116] (by decide)
    (by decide) (by decide) (by
      intro v hv
      have h : EncodeText [108, 111, 111, 107, 111, 117, 116] = .ok 0x4694C29A := by decide
      rw [h] at hv
      cases hv
      intro k hk
      interval_cases k <;> rfl)

/-- C17, the stated text: the words `0x11AA`, `0xC634` at address 1 of the example image
decode to `"Hello"` with every fuel from 2 on; with no amount of fuel is the result the
text `"hel"`. -/
theorem decode_hel_counterexample :
    exampleHello.buf = [0, 0x11, 0xAA, 0xC6, 0x34] ∧
    (∀ f, DecodeZString (f + 2) exampleHello 1 = .ok ("Hello".toList.map Char.toNat, 5)) ∧
    ∀ fuel, DecodeZString fuel exampleHello 1 ≠ .ok ("hel".toList.map Char.toNat, 1 + 4) := by
  have h2 : ∀ f, DecodeZString (f + 2) exampleHello 1 =
      .ok ("Hello".toList.map Char.toNat, 5) := fun f => rfl
  refine ⟨rfl, h2, ?_⟩
  intro fuel
  rcases fuel with _ | _ | f
  · decide
  · decide
  · rw [h2 f]
    decide

/-- C17. The four bytes `0x11 0xAA 0xC6 0x34` at address `a` are the Z-characters 4, 13,
10, 17, 17, 20: the shift to alphabet 1 and `H`, then `e`, `l`, `l`, `o`. `DecodeZString`
at `a` writes `"Hello"` and returns `a + 4`, the address just after the second word. -/
theorem decode_hello (fuel : Nat) (zm : ZMachine) (a : Nat) (hfuel : 2 ≤ fuel)
    (ha : a + 4 < 2 ^ 32)
    (hb : ∀ k, k < 4 → zm.buf[a + k]? = [0x11, 0xAA, 0xC6, 0x34][k]?) :
    DecodeZString fuel zm a = .ok ("Hello".toList.map Char.toNat, a + 4) := by
  have hb0 : zm.buf[a]? = some 0x11 := hb 0 (by omega)
  have hb1 : zm.buf[a + 1]? = some 0xAA := hb 1 (by omega)
  have hb2 : zm.buf[a + 2 + 1 - 1]? = some 0xC6 := hb 2 (by omega)
  have hb3 : zm.buf[a + 2 + 1]? = some 0x34 := hb 3 (by omega)
  rw [Nat.add_sub_cancel] at hb2
  have e2 : (a + 2) % 2 ^ 32 = a + 2 := Nat.mod_eq_of_lt (by omega)
  have e4 : (a + 2 + 2) % 2 ^ 32 = a + 4 := Nat.mod_eq_of_lt (by omega)
  have hW0 : GetUint16 zm.buf a = .ok 0x11AA := GetUint16_bytes zm.buf a _ _ (by omega) hb0 hb1
  have hW1 : GetUint16 zm.buf (a + 2) = .ok 0xC634 :=
    GetUint16_bytes zm.buf (a + 2) _ _ (by omega) hb2 hb3
  obtain ⟨f, rfl⟩ : ∃ f, fuel = f + 2 := ⟨fuel - 2, by omega⟩
  have hR : DecodeZString.readWords zm.buf (f + 2) a [] = .ok ([4, 13, 10, 17, 17, 20], a + 4) := by
    rw [readWords_go zm.buf (f + 1) a _ [] hW0 (by decide), e2,
      readWords_stop zm.buf f (a + 2) _ _ hW1 (by decide), e4]
    rfl
  unfold DecodeZString
  rw [hR]
  rfl

/-- C17 on the example image, where the four bytes lie at address 1. -/
theorem decode_hello_witness :
    DecodeZString 2 exampleHello 1 = .ok ("Hello".toList.map Char.toNat, 1 + 4) :=
  decode_hello 2 exampleHello 1 (by decide) (by decide) (by
    intro k hk
    interval_cases k <;> rfl)

/-- C18. On the two-byte image that holds the single word `0x94C0`, whose top bit is set
(index `n = 0`) and whose Z-characters 5, 6, 0 hold no abbreviation, `DecodeZString` at
address 0 does not return `0 + 2`: after the shift 5 the Z-character 6 starts a ten-bit
character code, and the read of its second half, `zchars[i+2]`, is out of range. This
holds with every amount of fuel, and `print` fails in the same way. -/
theorem decode_truncated_escape :
    exampleTruncated.buf = [0x94, 0xC0] ∧
    GetUint16 exampleTruncated.buf 0 = .ok 0x94C0 ∧ 0x94C0 &&& 0x8000 ≠ 0 ∧
    DecodeZString.readWords exampleTruncated.buf 1 0 [] = .ok ([5, 6, 0], 2) ∧
    (∀ fuel, DecodeZString (fuel + 1) exampleTruncated 0 = .error .indexOutOfRange) ∧
    ∀ fuel, ZPrint (fuel + 1) exampleTruncated = .error .indexOutOfRange :=
  ⟨rfl, rfl, by decide, rfl, fun _ => rfl, fun _ => rfl⟩

/-! ## Dictionary lookup -/

/-- In strictly ascending keys a key occurs at one index only. -/
theorem ascending_index {keys : List Nat} (h : Ascending keys) {i j x : Nat}
    (hi : keys[i]? = some x) (hj : keys[j]? = some x) : i = j := by
  rcases Nat.lt_trichotomy i j with hlt | heq | hgt
  · exact absurd (h i j x x hlt hi hj) (Nat.lt_irrefl x)
  · exact heq
  · exact absurd (h j i x x hgt hj hi) (Nat.lt_irrefl x)

/-- The binary search of `FindInDictionary` on strictly ascending keys, for a key that
occurs at index `k` between the bounds: the bounds never wrap around and the search
returns the address of entry `k`. -/
theorem search_found (buf : List Nat) (E len v k : Nat) (keys : List Nat)
    (hkeys : ∀ j x, keys[j]? = some x → GetUint32 buf (E + j * len) = .ok x)
    (hasc : Ascending keys) (hn : keys.length < 65536) (hnl : keys.length * len < 65536)
    (hE : E < 65536) (hk : keys[k]? = some v) :
    ∀ fuel lo hi, lo ≤ k → k ≤ hi → hi < keys.length → hi - lo < fuel →
      FindInDictionary.search buf E len v fuel lo hi = .ok ((E + k * len) % 65536) := by
  intro fuel
  induction fuel with
  | zero =>
    intro lo hi _ _ _ hf
    omega
  | succ fuel ih =>
    intro lo hi hlo hhi hlt hf
    have hmid : lo + (hi - lo) / 2 < keys.length := by omega
    have e1 : (lo + (hi - lo) / 2) % 65536 = lo + (hi - lo) / 2 := Nat.mod_eq_of_lt (by omega)
    have hml : (lo + (hi - lo) / 2) * len ≤ keys.length * len :=
      Nat.mul_le_mul_right len (Nat.le_of_lt hmid)
    have e2 : ((lo + (hi - lo) / 2) * len) % 65536 = (lo + (hi - lo) / 2) * len :=
      Nat.mod_eq_of_lt (by omega)
    have e3 : (E + (lo + (hi - lo) / 2) * len) % 2 ^ 32 = E + (lo + (hi - lo) / 2) * len :=
      Nat.mod_eq_of_lt (by omega)
    obtain ⟨x, hx⟩ : ∃ x, keys[lo + (hi - lo) / 2]? = some x :=
      ⟨_, List.getElem?_eq_getElem hmid⟩
    generalize hR : FindInDictionary.search buf E len v fuel = R at ih
    unfold FindInDictionary.search
    rw [if_pos (by omega), hR]
    simp only [bind, Except.bind]
    rw [e1, e2, e3, hkeys _ x hx]
    simp only
    by_cases h1 : v < x
    · have hkm : k < lo + (hi - lo) / 2 := by
        rcases Nat.lt_trichotomy k (lo + (hi - lo) / 2) with h | h | h
        · exact h
        · rw [h, hx] at hk
          cases hk
          omega
        · have := hasc _ _ _ _ h hx hk
          omega
      rw [if_pos h1, show (lo + (hi - lo) / 2 + 65536 - 1) % 65536 = lo + (hi - lo) / 2 - 1 by omega]
      exact ih lo _ hlo (by omega) (by omega) (by omega)
    · rw [if_neg h1]
      by_cases h2 : v > x
      · have hkm : lo + (hi - lo) / 2 < k := by
          rcases Nat.lt_trichotomy k (lo + (hi - lo) / 2) with h | h | h
          · have := hasc _ _ _ _ h hk hx
            omega
          · rw [h, hx] at hk
            cases hk
            omega
          · exact h
        rw [if_pos h2, show (lo + (hi - lo) / 2 + 1) % 65536 = lo + (hi - lo) / 2 + 1 by omega]
        exact ih _ hi (by omega) hhi hlt (by omega)
      · rw [if_neg h2]
        have hxv : x = v := by omega
        rw [hxv] at hx
        rw [ascending_index hasc hx hk]
        rfl

/-- A linear scan on strictly ascending keys finds the entry `k` that holds the key. -/
theorem linearScan_found (buf : List Nat) (E len v k : Nat) (keys : List Nat)
    (hkeys : ∀ j x, keys[j]? = some x → GetUint32 buf (E + j * len) = .ok x)
    (hasc : Ascending keys) (hk : keys[k]? = some v) :
    ∀ r j, j ≤ k → k < j + r → j + r ≤ keys.length →
      linearScan buf E len v r j = .ok (E + k * len) := by
  intro r
  induction r with
  | zero =>
    intro j h1 h2 _
    omega
  | succ r ih =>
    intro j h1 h2 h3
    obtain ⟨x, hx⟩ : ∃ x, keys[j]? = some x := ⟨_, List.getElem?_eq_getElem (by omega)⟩
    generalize hR : linearScan buf E len v r = R at ih
    unfold linearScan
    rw [hkeys j x hx, hR]
    simp only [bind, Except.bind]
    by_cases hxv : x = v
    · rw [if_pos hxv]
      rw [hxv] at hx
      rw [ascending_index hasc hx hk]
      rfl
    · rw [if_neg hxv]
      have hjk : j ≠ k := by
        intro h
        rw [h, hk] at hx
        cases hx
        exact hxv rfl
      exact ih (j + 1) (by omega) (by omega) (by omega)

/-- C19. For a dictionary laid out in memory with strictly ascending keys and a string
`w` whose encoding is the key of entry `k`: with fuel for one round for each entry,
`FindInDictionary` returns the address `entriesAddress + k * len` of entry `k`, and so
does the linear scan over the entries. -/
theorem find_in_dictionary_found (fuel : Nat) (zm : ZMachine) (sep len k v : Nat)
    (keys w : List Nat) (h : DictLayout zm sep len keys) (hasc : Ascending keys)
    (hk : keys[k]? = some v) (hw : EncodeText w = .ok v) (hfuel : keys.length ≤ fuel) :
    FindInDictionary fuel zm w = .ok (dictEntries zm sep + k * len) ∧
    FindInDictionaryLinear zm w = .ok (dictEntries zm sep + k * len) := by
  obtain ⟨hsep, hlen, hnum, hn, hE, hnl, hkeys⟩ := h
  have hkl : k < keys.length := getElem?_lt hk
  have hE' : zm.header.dictAddress + 1 + sep + 1 + 2 < 65536 := hE
  have e1 : (zm.header.dictAddress + 1 + sep) % 2 ^ 32 = zm.header.dictAddress + 1 + sep :=
    Nat.mod_eq_of_lt (by omega)
  have e2 : (zm.header.dictAddress + 1 + sep + 1) % 2 ^ 32 =
      zm.header.dictAddress + 1 + sep + 1 := Nat.mod_eq_of_lt (by omega)
  have e3 : (zm.header.dictAddress + 1 + sep + 1 + 2) % 2 ^ 32 = dictEntries zm sep :=
    Nat.mod_eq_of_lt (by omega)
  have e4 : (keys.length + 65536 - 1) % 65536 = keys.length - 1 := by omega
  have e5 : (dictEntries zm sep + k * len) % 65536 = dictEntries zm sep + k * len :=
    Nat.mod_eq_of_lt (by have := (hkeys k v hk).2; omega)
  constructor
  · unfold FindInDictionary
    rw [readAt_eq_ok hsep]
    simp only [bind, Except.bind]
    rw [e1, readAt_eq_ok hlen, e2, hnum]
    simp only
    rw [hw, e3, e4]
    simp only
    rw [search_found zm.buf (dictEntries zm sep) len v k keys (fun j x hj => (hkeys j x hj).1)
      hasc hn hnl hE hk fuel 0 (keys.length - 1) (Nat.zero_le _) (by omega) (by omega) (by omega),
      e5]
  · unfold FindInDictionaryLinear
    rw [readAt_eq_ok hsep]
    simp only [bind, Except.bind]
    rw [readAt_eq_ok hlen, hnum]
    simp only
    rw [hw]
    exact linearScan_found zm.buf (dictEntries zm sep) len v k keys
      (fun j x hj => (hkeys j x hj).1) hasc hk keys.length 0 (Nat.zero_le _) (by omega)
      (by omega)

theorem exampleDict_layout : DictLayout exampleDict 0 4 [0x4694C0A5, 0x7E97C0A5] := by
  refine ⟨rfl, rfl, rfl, by decide, by decide, by decide, ?_⟩
  intro k v hk
  rcases k with _ | _ | k
  · cases hk
    exact ⟨rfl, by decide⟩
  · cases hk
    exact ⟨rfl, by decide⟩
  · cases hk

theorem exampleDict_ascending : Ascending [0x4694C0A5, 0x7E97C0A5] := by
  intro i j x y hij hi hj
  rcases j with _ | _ | j
  · omega
  · obtain rfl : i = 0 := by omega
    cases hi
    cases hj
    decide
  · cases hj

/-- C19 on the example dictionary: `"zork"` is found at entry 1, address 8. -/
theorem find_in_dictionary_found_witness :
    FindInDictionary 2 exampleDict [122, 111, 114, 107] = .ok (dictEntries exampleDict 0 + 1 * 4) ∧
    FindInDictionaryLinear exampleDict [122, 111, 114, 107] =
      .ok (dictEntries exampleDict 0 + 1 * 4) :=
  find_in_dictionary_found 2 exampleDict 0 4 1 0x7E97C0A5 [0x4694C0A5, 0x7E97C0A5]
    [122, 111, 114, 107] exampleDict_layout exampleDict_ascending rfl (by decide) (by decide)

/-- C20. On the example dictionary, whose entries are `"look"` and `"zork"`, the lookup of
`"a"`, whose encoding `0x18A594A5` is below the key of the first entry, does not return 0:
the upper bound `0 - 1` wraps to 65535 and the next key is read outside the buffer. The
lookup of any string in the dictionary without entries fails in the same way, as its
upper bound starts at 65535. Both hold with every amount of fuel from 2 on; a miss
above the first key, as for `"zzz"`, returns 0. -/
theorem find_in_dictionary_miss_wraps :
    EncodeText [97] = .ok 0x18A594A5 ∧
    (∀ fuel, FindInDictionary (fuel + 2) exampleDict [97] = .error .indexOutOfRange) ∧
    FindInDictionaryLinear exampleDict [97] = .ok DICT_NOT_FOUND ∧
    (∀ fuel, FindInDictionary (fuel + 1) exampleEmptyDict [97] = .error .indexOutOfRange) ∧
    FindInDictionaryLinear exampleEmptyDict [97] = .ok DICT_NOT_FOUND ∧
    ∀ fuel, FindInDictionary (fuel + 2) exampleDict [122, 122, 122] = .ok DICT_NOT_FOUND := by
  have h1 : EncodeText [97] = .ok 0x18A594A5 := by decide
  have h2 : EncodeText [122, 122, 122] = .ok 0x7FFF94A5 := by decide
  refine ⟨h1, ?_, by decide, ?_, by decide, ?_⟩
  · intro fuel
    unfold FindInDictionary
    rw [h1]
    rfl
  · intro fuel
    unfold FindInDictionary
    rw [h1]
    rfl
  · intro fuel
    unfold FindInDictionary
    rw [h2]
    cases fuel <;> rfl

/-- The binary search of `FindInDictionary` for a number `v` that is the key of no entry
and is above the key of the first entry: the upper bound never wraps around and the
search returns `DICT_NOT_FOUND`. -/
theorem search_miss (buf : List Nat) (E len v x0 : Nat) (keys : List Nat)
    (hkeys : ∀ j x, keys[j]? = some x → GetUint32 buf (E + j * len) = .ok x)
    (hn : keys.length < 65536) (hnl : keys.length * len < 65536) (hE : E < 65536)
    (h0 : keys[0]? = some x0) (hx0 : x0 < v) (hv : v ∉ keys) :
    ∀ fuel lo hi, hi < keys.length → hi + 1 - lo ≤ fuel →
      FindInDictionary.search buf E len v fuel lo hi = .ok DICT_NOT_FOUND := by
  intro fuel
  induction fuel with
  | zero =>
    intro lo hi _ hf
    unfold FindInDictionary.search
    rw [if_neg (by omega)]
    rfl
  | succ fuel ih =>
    intro lo hi hlt hf
    generalize hR : FindInDictionary.search buf E len v fuel = R at ih
    unfold FindInDictionary.search
    by_cases hle : lo ≤ hi
    · have hmid : lo + (hi - lo) / 2 < keys.length := by omega
      have e1 : (lo + (hi - lo) / 2) % 65536 = lo + (hi - lo) / 2 := Nat.mod_eq_of_lt (by omega)
      have hml : (lo + (hi - lo) / 2) * len ≤ keys.length * len :=
        Nat.mul_le_mul_right len (Nat.le_of_lt hmid)
      have e2 : ((lo + (hi - lo) / 2) * len) % 65536 = (lo + (hi - lo) / 2) * len :=
        Nat.mod_eq_of_lt (by omega)
      have e3 : (E + (lo + (hi - lo) / 2) * len) % 2 ^ 32 = E + (lo + (hi - lo) / 2) * len :=
        Nat.mod_eq_of_lt (by omega)
      obtain ⟨x, hx⟩ : ∃ x, keys[lo + (hi - lo) / 2]? = some x :=
        ⟨_, List.getElem?_eq_getElem hmid⟩
      rw [if_pos hle, hR]
      simp only [bind, Except.bind]
      rw [e1, e2, e3, hkeys _ x hx]
      simp only
      by_cases h1 : v < x
      · have hm0 : lo + (hi - lo) / 2 ≠ 0 := by
          intro h
          rw [h, h0] at hx
          cases hx
          omega
        rw [if_pos h1,
          show (lo + (hi - lo) / 2 + 65536 - 1) % 65536 = lo + (hi - lo) / 2 - 1 by omega]
        exact ih lo _ (by omega) (by omega)
      · rw [if_neg h1]
        by_cases h2 : v > x
        · rw [if_pos h2, show (lo + (hi - lo) / 2 + 1) % 65536 = lo + (hi - lo) / 2 + 1 by omega]
          exact ih _ hi hlt (by omega)
        · exfalso
          have hxv : x = v := by omega
          rw [hxv] at hx
          exact hv (List.mem_iff_getElem?.mpr ⟨_, hx⟩)
    · rw [if_neg hle]
      rfl

/-- Lookup of a string whose encoding is the key of no entry and is above the key of the
first entry: `FindInDictionary` returns `DICT_NOT_FOUND`. -/
theorem find_in_dictionary_miss_above (fuel : Nat) (zm : ZMachine) (sep len v x0 : Nat)
    (keys w : List Nat) (h : DictLayout zm sep len keys) (h0 : keys[0]? = some x0)
    (hx0 : x0 < v) (hv : v ∉ keys) (hw : EncodeText w = .ok v) (hfuel : keys.length ≤ fuel) :
    FindInDictionary fuel zm w = .ok DICT_NOT_FOUND := by
  obtain ⟨hsep, hlen, hnum, hn, hE, hnl, hkeys⟩ := h
  have hkl : 0 < keys.length := getElem?_lt h0
  have hE' : zm.header.dictAddress + 1 + sep + 1 + 2 < 65536 := hE
  have e1 : (zm.header.dictAddress + 1 + sep) % 2 ^ 32 = zm.header.dictAddress + 1 + sep :=
    Nat.mod_eq_of_lt (by omega)
  have e2 : (zm.header.dictAddress + 1 + sep + 1) % 2 ^ 32 =
      zm.header.dictAddress + 1 + sep + 1 := Nat.mod_eq_of_lt (by omega)
  have e3 : (zm.header.dictAddress + 1 + sep + 1 + 2) % 2 ^ 32 = dictEntries zm sep :=
    Nat.mod_eq_of_lt (by omega)
  have e4 : (keys.length + 65536 - 1) % 65536 = keys.length - 1 := by omega
  unfold FindInDictionary
  rw [readAt_eq_ok hsep]
  simp only [bind, Except.bind]
  rw [e1, readAt_eq_ok hlen, e2, hnum]
  simp only
  rw [hw, e3, e4]
  simp only
  exact search_miss zm.buf (dictEntries zm sep) len v x0 keys (fun j x hj => (hkeys j x hj).1)
    hn hnl hE h0 hx0 hv fuel 0 (keys.length - 1) (by omega) (by omega)

theorem stringZchars_append (ws vs : List Nat) :
    stringZchars (ws ++ vs) = stringZchars ws ++ stringZchars vs := by
  induction ws with
  | nil => rfl
  | cons w ws ih =>
    show wordZchars w ++ stringZchars (ws ++ vs) =
      (wordZchars w ++ stringZchars ws) ++ stringZchars vs
    rw [ih, List.append_assoc]

theorem stringZchars_length (ws : List Nat) : (stringZchars ws).length = 3 * ws.length := by
  induction ws with
  | nil => rfl
  | cons w ws ih =>
    show (wordZchars w ++ stringZchars ws).length = _
    rw [List.length_append, ih, List.length_cons]
    show 3 + 3 * ws.length = _
    omega

/-- The first loop of `DecodeZString` on a string of `ws.length + 1` words of which the
last one is the first with its top bit set: it returns the Z-characters of the words and
the offset after the last word. -/
theorem readWords_spec (buf : List Nat) (wl : Nat) :
    ∀ (ws : List Nat) (fuel i : Nat) (zs : List Nat),
      (∀ k w, ws[k]? = some w → GetUint16 buf (i + 2 * k) = .ok w ∧ w / 32768 % 2 = 0) →
      GetUint16 buf (i + 2 * ws.length) = .ok wl → wl / 32768 % 2 = 1 →
      i + 2 * ws.length + 2 < 2 ^ 32 → ws.length < fuel →
      DecodeZString.readWords buf fuel i zs =
        .ok (zs ++ stringZchars (ws ++ [wl]), i + 2 * (ws.length + 1)) := by
  intro ws
  induction ws with
  | nil =>
    intro fuel i zs _ hwl htop hi hf
    obtain ⟨f, rfl⟩ : ∃ f, fuel = f + 1 := ⟨fuel - 1, by simp at hf; omega⟩
    rw [readWords_stop buf f i wl zs hwl htop,
      Nat.mod_eq_of_lt (show i + 2 < 2 ^ 32 by simp at hi; omega)]
    rfl
  | cons w ws ih =>
    intro fuel i zs hws hwl htop hi hf
    obtain ⟨f, rfl⟩ : ∃ f, fuel = f + 1 := ⟨fuel - 1, by simp at hf; omega⟩
    rw [List.length_cons] at hwl hi hf
    obtain ⟨h0, h0t⟩ := hws 0 w (List.getElem?_cons_zero)
    rw [readWords_go buf f i w zs h0 h0t, Nat.mod_eq_of_lt (show i + 2 < 2 ^ 32 by omega),
      ih f (i + 2) _ (fun k x hk => by
        have := hws (k + 1) x (List.getElem?_cons_succ.trans hk)
        rw [show i + 2 * (k + 1) = i + 2 + 2 * k by omega] at this
        exact this)
        (by rw [show i + 2 + 2 * ws.length = i + 2 * (ws.length + 1) by omega]; exact hwl)
        htop (by omega) (by omega)]
    rw [List.length_cons, List.cons_append, List.append_assoc]
    congr 2
    omega

/-- The second loop of `DecodeZString` on Z-characters without abbreviations whose last two
are not 6: every index it reads is in range, and it returns a text. -/
theorem chars_ok (f : Nat → Except ZError (List Nat)) (zm : ZMachine) (zchars : List Nat)
    (hab : ∀ z ∈ zchars, ¬ (0 < z ∧ z < 4)) (h32 : ∀ z ∈ zchars, z < 32)
    (hlast : ∀ j z, zchars[j]? = some z → zchars.length ≤ j + 2 → z ≠ 6) :
    ∀ (steps i t : Nat) (out : List Nat), t ≤ 2 → zchars.length ≤ i + steps →
      ∃ out', DecodeZString.chars f zm zchars steps i t out = .ok out' := by
  intro steps
  induction steps with
  | zero =>
    intro i t out _ hs
    refine ⟨out, ?_⟩
    unfold DecodeZString.chars
    rw [if_neg (by omega)]
    rfl
  | succ steps ih =>
    intro i t out ht hs
    generalize hR : DecodeZString.chars f zm zchars steps = R at ih
    unfold DecodeZString.chars
    rw [hR]
    by_cases hi : i < zchars.length
    · obtain ⟨zc, hzc⟩ : ∃ zc, zchars[i]? = some zc := ⟨_, List.getElem?_eq_getElem hi⟩
      have hmem : zc ∈ zchars := List.mem_iff_getElem?.mpr ⟨_, hzc⟩
      rw [if_pos hi, readAt_eq_ok hzc]
      simp only [bind, Except.bind]
      rw [if_neg (by have := hab zc hmem; omega)]
      by_cases h4 : zc = 4
      · rw [if_pos h4]
        exact ih (i + 1) 1 out (by omega) (by omega)
      · rw [if_neg h4]
        by_cases h5 : zc = 5
        · rw [if_pos h5]
          exact ih (i + 1) 2 out (by omega) (by omega)
        · rw [if_neg h5]
          by_cases h6 : t = 2 ∧ zc = 6
          · have hi2 : i + 2 < zchars.length := by
              rcases Nat.lt_or_ge (i + 2) zchars.length with h | h
              · exact h
              · exact absurd h6.2 (hlast i zc hzc h)
            rw [if_pos h6, readAt_of_lt (show i + 1 < zchars.length by omega),
              readAt_of_lt hi2]
            exact ih (i + 3) 0 _ (by omega) (by omega)
          · rw [if_neg h6]
            by_cases h0 : zc = 0
            · rw [if_pos h0]
              exact ih (i + 1) 0 _ (by omega) (by omega)
            · rw [if_neg h0]
              have hzc6 : 6 ≤ zc := by
                have := hab zc hmem
                omega
              have hzc32 := h32 zc hmem
              obtain ⟨al, hal, hlen⟩ : ∃ al, alphabets[t]? = some al ∧ al.length = 26 := by
                rcases t with _ | _ | _ | t
                · exact ⟨_, rfl, by decide⟩
                · exact ⟨_, rfl, by decide⟩
                · exact ⟨_, rfl, by decide⟩
                · omega
              rw [hal]
              simp only [pure, Except.pure]
              rw [readAt_of_lt (show zc - 6 < al.length by omega)]
              exact ih (i + 1) 0 _ (by omega) (by omega)
    · refine ⟨out, ?_⟩
      rw [if_neg hi]
      rfl

/-- The string decoder on a string of `ws.length + 1` words, the last one the first with
its top bit set, without abbreviations and with the last two Z-characters other than 6:
with fuel for the words, `DecodeZString` returns the address after the last word, and
`print` moves `ip` there. -/
theorem decode_returns_end (fuel : Nat) (zm : ZMachine) (a wl : Nat) (ws : List Nat)
    (hws : ∀ k w, ws[k]? = some w → GetUint16 zm.buf (a + 2 * k) = .ok w ∧ w / 32768 % 2 = 0)
    (hwl : GetUint16 zm.buf (a + 2 * ws.length) = .ok wl) (htop : wl / 32768 % 2 = 1)
    (ha : a + 2 * ws.length + 2 < 2 ^ 32) (hfuel : ws.length < fuel)
    (hab : ∀ z ∈ stringZchars (ws ++ [wl]), ¬ (0 < z ∧ z < 4))
    (hlast : wl / 32 % 32 ≠ 6 ∧ wl % 32 ≠ 6) :
    ∃ out, DecodeZString fuel zm a = .ok (out, a + 2 * (ws.length + 1)) ∧
      (zm.ip = a → ZPrint fuel zm = .ok (out, { zm with ip := a + 2 * (ws.length + 1) })) := by
  obtain ⟨f, rfl⟩ : ∃ f, fuel = f + 1 := ⟨fuel - 1, by omega⟩
  have hR := readWords_spec zm.buf wl ws (f + 1) a [] hws hwl htop ha hfuel
  rw [List.nil_append] at hR
  have h32 : ∀ z ∈ stringZchars (ws ++ [wl]), z < 32 := by
    intro z hz
    generalize ws ++ [wl] = l at hz
    induction l with
    | nil => cases hz
    | cons w l ih =>
      unfold stringZchars at hz
      rcases List.mem_append.mp hz with h | h
      · unfold wordZchars at h
        simp only [List.mem_cons, List.mem_singleton, List.not_mem_nil, or_false] at h
        omega
      · exact ih h
  have hl : ∀ j z, (stringZchars (ws ++ [wl]))[j]? = some z →
      (stringZchars (ws ++ [wl])).length ≤ j + 2 → z ≠ 6 := by
    intro j z hj hlen
    rw [stringZchars_append, List.length_append, stringZchars_length] at hlen
    rw [stringZchars_append, List.getElem?_append_right
      (by rw [stringZchars_length]; simp [stringZchars, wordZchars] at hlen; omega),
      stringZchars_length] at hj
    have hlen' : 3 * ws.length + 3 ≤ j + 2 := hlen
    have hj' : [wl / 1024 % 32, wl / 32 % 32, wl % 32][j - 3 * ws.length]? = some z := hj
    obtain ⟨m, hm⟩ : ∃ m, j - 3 * ws.length = m + 1 := ⟨j - 3 * ws.length - 1, by omega⟩
    rw [hm] at hj'
    rcases m with _ | _ | m
    · cases hj'
      exact hlast.1
    · cases hj'
      exact hlast.2
    · cases hj'
  obtain ⟨out, hout⟩ := chars_ok
    (fun a => do
      let r ← DecodeZString f zm a
      pure r.1) zm (stringZchars (ws ++ [wl])) hab h32 hl
    (stringZchars (ws ++ [wl])).length 0 0 [] (by omega) (by omega)
  have hDec : DecodeZString (f + 1) zm a = .ok (out, a + 2 * (ws.length + 1)) := by
    unfold DecodeZString
    rw [hR]
    simp only [bind, Except.bind]
    exact (congrArg (fun r => r.bind fun out => pure (out, a + 2 * (ws.length + 1))) hout).trans
      rfl
  refine ⟨out, hDec, ?_⟩
  intro hip
  unfold ZPrint
  rw [hip, hDec]
  rfl

/-! ## Branches -/

set_option maxRecDepth 1000000 in
theorem branch_byte_bits : ∀ B, B < 256 →
    (decide ((B >>> 7) = 0) = !B.testBit 7) ∧
    (((B &&& (1 <<< 6)) ≠ 0) ↔ B.testBit 6 = true) ∧
    (B &&& 0x3F = B % 64) ∧
    ((if ((B &&& 0x3F) &&& 0x20) ≠ 0 then (B &&& 0x3F) ||| ((1 <<< 6) ||| (1 <<< 7))
      else B &&& 0x3F) = if B % 64 < 32 then B % 64 else B % 64 + 192) := by
  decide

theorem toUint32_wrap (p : Nat) (k : Int) :
    toUint32 (wrapInt32 (toInt32 p + k)) = toUint32 ((p : Int) + k) := by
  unfold toUint32 wrapInt32 toInt32
  congr 1
  split <;> omega
theorem long_offset (B S : Nat) (hS : S < 256) (h6 : B.testBit 6 = false) :
    toInt16 ((((if B % 64 < 32 then B % 64 else B % 64 + 192) <<< 8) % 65536) ||| S) =
      branchOffsetRef B S := by
  unfold branchOffsetRef toInt16
  rw [h6]
  simp only [Bool.false_eq_true, if_false]
  by_cases h : B % 64 < 32
  · rw [if_pos h, word_join _ _ (by omega) hS]
    rw [if_pos (by omega), if_pos (by omega)]
    congr 1
    omega
  · rw [if_neg h, word_join _ _ (by omega) hS]
    rw [if_neg (by omega), if_neg (by omega)]
    omega

/-- C21. For a branch byte `B` at `PC`, a second byte `S` after it when bit 6 of `B` is
clear, and a condition `c`: the branch offset lies in `-8192..8191`; the branch is taken
when `c` equals bit 7 of `B`; a taken branch with a one-byte descriptor and offset 0
returns false, with offset 1 it returns true, and every other taken branch sets `PC` to
the address after the branch bytes plus the offset minus 2 (as a `uint32`); a branch that
is not taken leaves `PC` just after the branch bytes. -/
theorem generic_branch_spec (zm : ZMachine) (c : Bool) (B S : Nat)
    (hB : zm.buf[zm.ip]? = some B) (hB256 : B < 256)
    (hS : B.testBit 6 = false → zm.buf[zm.ip + 1]? = some S) (hS256 : S < 256)
    (hip : zm.ip + 2 < 2 ^ 32) :
    -8192 ≤ branchOffsetRef B S ∧ branchOffsetRef B S ≤ 8191 ∧
    (B.testBit 6 = true → branchOffsetRef B S = ((B &&& 0x3F : Nat) : Int)) ∧
    GenericBranch zm c =
      if c = B.testBit 7 then
        if B.testBit 6 = true ∧ branchOffsetRef B S = 0 then
          ZReturnFalse { zm with ip := zm.ip + branchLength B }
        else if B.testBit 6 = true ∧ branchOffsetRef B S = 1 then
          ZReturnTrue { zm with ip := zm.ip + branchLength B }
        else
          .ok { zm with
            ip := toUint32 (((zm.ip + branchLength B : Nat) : Int) + branchOffsetRef B S - 2) }
      else .ok { zm with ip := zm.ip + branchLength B } := by
  obtain ⟨b7, b6, b3f, bsx⟩ := branch_byte_bits B hB256
  have e1 : (zm.ip + 1) % 2 ^ 32 = zm.ip + 1 := Nat.mod_eq_of_lt (by omega)
  have e2 : (zm.ip + 1 + 1) % 2 ^ 32 = zm.ip + 2 := Nat.mod_eq_of_lt (by omega)
  refine ⟨?_, ?_, ?_, ?_⟩
  · unfold branchOffsetRef
    split
    · omega
    · split <;> omega
  · unfold branchOffsetRef
    split
    · omega
    · split <;> omega
  · intro h6
    unfold branchOffsetRef
    rw [h6, if_pos rfl, b3f]
  · unfold GenericBranch ZMachine.ReadByte
    rw [readAt_eq_ok hB]
    simp only [bind, Except.bind, pure, Except.pure]
    rw [b7, e1]
    by_cases h6 : B.testBit 6 = true
    · have hoff : branchOffsetRef B S = ((B % 64 : Nat) : Int) := by
        unfold branchOffsetRef
        rw [h6, if_pos rfl]
      have hlen : branchLength B = 1 := by
        unfold branchLength
        rw [h6, if_pos rfl]
      have hd : ((c != !B.testBit 7) = true) ↔ c = B.testBit 7 := by
        cases c <;> cases B.testBit 7 <;> decide
      rw [if_pos (b6.mpr h6), b3f, hoff, hlen]
      simp only
      by_cases hc : c = B.testBit 7
      · rw [if_pos (hd.mpr hc), if_pos hc]
        by_cases h0 : B % 64 = 0
        · rw [h0, if_pos (show (((0 : Nat) : Int) ≤ 1) by decide),
            if_pos (show (((0 : Nat) : Int) ≠ 2) by decide),
            if_pos (show B.testBit 6 = true ∧ (((0 : Nat) : Int) = 0) from ⟨h6, rfl⟩)]
          rfl
        · by_cases h1 : B % 64 = 1
          · rw [h1, if_pos (show (((1 : Nat) : Int) ≤ 1) by decide),
              if_pos (show (((1 : Nat) : Int) ≠ 2) by decide),
              if_neg (show ¬ (B.testBit 6 = true ∧ (((1 : Nat) : Int) = 0)) from
                fun h => absurd h.2 (by decide)),
              if_pos (show B.testBit 6 = true ∧ (((1 : Nat) : Int) = 1) from ⟨h6, rfl⟩)]
            rfl
          · have hne0 : ((B % 64 : Nat) : Int) ≠ 0 := by omega
            have hne1 : ((B % 64 : Nat) : Int) ≠ 1 := by omega
            rw [if_neg (show ¬ (((B % 64 : Nat) : Int) ≤ 1) by omega),
              if_neg (show ¬ ((2 : Int) ≠ 2) by decide),
              if_neg (show ¬ (B.testBit 6 = true ∧ ((B % 64 : Nat) : Int) = 0) from
                fun h => hne0 h.2),
              if_neg (show ¬ (B.testBit 6 = true ∧ ((B % 64 : Nat) : Int) = 1) from
                fun h => hne1 h.2)]
            rw [Int.add_sub_assoc, toUint32_wrap, Int.add_sub_assoc]
      · rw [if_neg (fun h => hc (hd.mp h)), if_neg hc]
    · have h6' : B.testBit 6 = false := by
        cases h : B.testBit 6
        · rfl
        · exact absurd h h6
      have hlen : branchLength B = 2 := by
        unfold branchLength
        rw [h6']
        rfl
      have hd : ((c != !B.testBit 7) = true) ↔ c = B.testBit 7 := by
        cases c <;> cases B.testBit 7 <;> decide
      rw [if_neg (fun h => h6 (b6.mp h)), readAt_eq_ok (hS h6'), hlen]
      simp only
      rw [e2, bsx, long_offset B S hS256 h6']
      by_cases hc : c = B.testBit 7
      · rw [if_pos (hd.mpr hc), if_pos hc, if_neg (show ¬ ((2 : Int) ≠ 2) by decide),
          if_neg (fun h => h6 h.1), if_neg (fun h => h6 h.1)]
        rw [Int.add_sub_assoc, toUint32_wrap, Int.add_sub_assoc]
      · rw [if_neg (fun h => hc (hd.mp h)), if_neg hc]

/-- C21 on the branch byte `0xC1` (branch on true, one byte, offset 1), as in `je 1 1 ?rtrue`:
with a true condition the branch returns true. -/
theorem generic_branch_spec_witness :
    -8192 ≤ branchOffsetRef 0xC1 0 ∧ branchOffsetRef 0xC1 0 ≤ 8191 ∧
    (Nat.testBit 0xC1 6 = true → branchOffsetRef 0xC1 0 = ((0xC1 &&& 0x3F : Nat) : Int)) ∧
    GenericBranch exampleBranch true =
      if true = Nat.testBit 0xC1 7 then
        if Nat.testBit 0xC1 6 = true ∧ branchOffsetRef 0xC1 0 = 0 then
          ZReturnFalse { exampleBranch with ip := exampleBranch.ip + branchLength 0xC1 }
        else if Nat.testBit 0xC1 6 = true ∧ branchOffsetRef 0xC1 0 = 1 then
          ZReturnTrue { exampleBranch with ip := exampleBranch.ip + branchLength 0xC1 }
        else
          .ok { exampleBranch with
            ip := toUint32 (((exampleBranch.ip + branchLength 0xC1 : Nat) : Int) +
              branchOffsetRef 0xC1 0 - 2) }
      else .ok { exampleBranch with ip := exampleBranch.ip + branchLength 0xC1 } :=
  generic_branch_spec exampleBranch true 0xC1 0 rfl (by decide)
    (fun h => absurd h (by decide)) (by decide) (by decide)

/-! ## Arithmetic -/

theorem natAbs_tmod (a b : Int) : (a.tmod b).natAbs = a.natAbs % b.natAbs := by
  cases a <;> cases b <;> simp [Int.tmod, Int.natAbs_neg] <;> rfl

theorem tmod_nonpos : ∀ (a b : Int), a ≤ 0 → a.tmod b ≤ 0
  | Int.ofNat 0, b, _ => by simp
  | Int.ofNat (m + 1), _, h => absurd h (by
      show ¬ (((m + 1 : Nat) : Int) ≤ 0)
      omega)
  | Int.negSucc m, Int.ofNat n, _ =>
    Int.neg_nonpos_of_nonneg (Int.ofNat_nonneg (Nat.succ m % n))
  | Int.negSucc m, Int.negSucc n, _ =>
    Int.neg_nonpos_of_nonneg (Int.ofNat_nonneg (Nat.succ m % Nat.succ n))

theorem toUint16_wrap (x : Int) : toUint16 (wrapInt16 x) = toUint16 x := by
  unfold toUint16 wrapInt16
  congr 1
  omega

theorem toInt16_emod (a : Nat) (ha : a < 65536) : toInt16 a % 65536 = (a : Int) := by
  unfold toInt16
  split <;> omega

theorem toUint16_cast (x : Int) : ((toUint16 x : Nat) : Int) = x % 65536 := by
  unfold toUint16
  exact Int.toNat_of_nonneg (Int.emod_nonneg _ (by decide))

theorem readAt_ne_div (xs : List Nat) (i : Nat) : readAt xs i ≠ .error .divisionByZero := by
  unfold readAt
  split <;> intro h <;> cases h

theorem writeAt_ne_div (xs : List Nat) (i v : Nat) :
    writeAt xs i v ≠ .error .divisionByZero := by
  unfold writeAt
  split <;> intro h <;> cases h

theorem bind_ne_div {α β : Type} (x : Except ZError α) (f : α → Except ZError β)
    (hx : x ≠ .error .divisionByZero) (hf : ∀ a, f a ≠ .error .divisionByZero) :
    (x >>= f) ≠ .error .divisionByZero := by
  cases x with
  | error e =>
    intro h
    apply hx
    cases h
    rfl
  | ok a => exact hf a

/-- A store of a result never fails with `divisionByZero`. -/
theorem StoreResult_ne_div (zm : ZMachine) (v : Nat) :
    zm.StoreResult v ≠ .error .divisionByZero := by
  have hset : ∀ (z : ZMachine) (o w : Nat), z.SetUint16 o w ≠ .error .divisionByZero := by
    intro z o w
    unfold ZMachine.SetUint16
    exact bind_ne_div _ _ (writeAt_ne_div _ _ _) (fun b1 =>
      bind_ne_div _ _ (writeAt_ne_div _ _ _) (fun b2 h => by cases h))
  have hstore : ∀ (z : ZMachine) (x : Nat), z.StoreAtLocation x v ≠ .error .divisionByZero := by
    intro z x
    unfold ZMachine.StoreAtLocation
    split
    · refine bind_ne_div _ _ ?_ (fun st h => by cases h)
      unfold ZStack.Push
      split
      · intro h; cases h
      · exact bind_ne_div _ _ (writeAt_ne_div _ _ _) (fun b h => by cases h)
    · split
      · refine bind_ne_div _ _ ?_ (fun st h => by cases h)
        unfold ZStack.SetLocalVar
        refine bind_ne_div _ _ ?_ (fun _ => ?_)
        · unfold ZStack.ValidateLocalVarIndex
          split
          · intro h; cases h
          · split <;> intro h <;> cases h
        · split
          · intro h; cases h
          · exact bind_ne_div _ _ (writeAt_ne_div _ _ _) (fun b h => by cases h)
      · unfold ZMachine.SetGlobal
        split
        · intro h; cases h
        · exact hset _ _ _
  unfold ZMachine.StoreResult
  refine bind_ne_div _ _ ?_ (fun p => hstore _ _)
  unfold ZMachine.ReadByte
  exact bind_ne_div _ _ (readAt_ne_div _ _) (fun b h => by cases h)
/-- C22. For 16-bit operands `a`, `b` read as two's-complement integers: `add`, `sub` and
`mul` store the exact integer result reduced modulo `2^16`; for `b ≠ 0`, `div` stores the
quotient `q` and `mod` the remainder `r` of the division rounded toward zero (`a = q * b + r`
with `|r| < |b|` and `r` of the sign of `a`), both reduced modulo `2^16`, so that
`(a div b) * b + (a mod b) = a` modulo `2^16`, and neither fails with `divisionByZero`; for
`b = 0` both fail with `divisionByZero`. -/
theorem arithmetic_spec (zm : ZMachine) (a b : Nat) (ha : a < 65536) (hb : b < 65536) :
    ZAdd zm [a, b] = zm.StoreResult (toUint16 (toInt16 a + toInt16 b)) ∧
    ZSub zm [a, b] = zm.StoreResult (toUint16 (toInt16 a - toInt16 b)) ∧
    ZMul zm [a, b] = zm.StoreResult (toUint16 (toInt16 a * toInt16 b)) ∧
    (b = 0 → ZDiv zm [a, b] = .error .divisionByZero ∧
      ZMod zm [a, b] = .error .divisionByZero) ∧
    (b ≠ 0 → ∃ q r : Int, toInt16 a = q * toInt16 b + r ∧
      r.natAbs < (toInt16 b).natAbs ∧ (0 ≤ toInt16 a → 0 ≤ r) ∧ (toInt16 a ≤ 0 → r ≤ 0) ∧
      ZDiv zm [a, b] = zm.StoreResult (toUint16 q) ∧
      ZMod zm [a, b] = zm.StoreResult (toUint16 r) ∧
      (toUint16 q * b + toUint16 r) % 65536 = a ∧
      ZDiv zm [a, b] ≠ .error .divisionByZero ∧ ZMod zm [a, b] ≠ .error .divisionByZero) := by
  have r0 : readAt [a, b] 0 = .ok a := rfl
  have r1 : readAt [a, b] 1 = .ok b := rfl
  refine ⟨?_, ?_, ?_, ?_, ?_⟩
  · unfold ZAdd
    rw [r0, r1]
    simp only [bind, Except.bind]
    rw [toUint16_wrap]
  · unfold ZSub
    rw [r0, r1]
    simp only [bind, Except.bind]
    rw [toUint16_wrap]
  · unfold ZMul
    rw [r0, r1]
    simp only [bind, Except.bind]
    rw [toUint16_wrap]
  · intro h0
    constructor
    · unfold ZDiv
      rw [r1]
      simp only [bind, Except.bind]
      rw [if_pos h0]
    · unfold ZMod
      rw [r1]
      simp only [bind, Except.bind]
      rw [if_pos h0]
  · intro hb0
    have hB : toInt16 b ≠ 0 := by
      unfold toInt16
      split <;> omega
    have hD : ZDiv zm [a, b] = zm.StoreResult (toUint16 (Int.tdiv (toInt16 a) (toInt16 b))) := by
      unfold ZDiv
      rw [r0, r1]
      simp only [bind, Except.bind]
      rw [if_neg hb0, toUint16_wrap]
    have hM : ZMod zm [a, b] = zm.StoreResult (toUint16 (Int.tmod (toInt16 a) (toInt16 b))) := by
      unfold ZMod
      rw [r0, r1]
      simp only [bind, Except.bind]
      rw [if_neg hb0, toUint16_wrap]
    have hqr := Int.tdiv_add_tmod' (toInt16 a) (toInt16 b)
    refine ⟨Int.tdiv (toInt16 a) (toInt16 b), Int.tmod (toInt16 a) (toInt16 b), hqr.symm, ?_,
      Int.tmod_nonneg _, tmod_nonpos _ _, hD, hM, ?_, ?_, ?_⟩
    · rw [natAbs_tmod]
      exact Nat.mod_lt _ (Int.natAbs_pos.mpr hB)
    · have h1 : (Int.tdiv (toInt16 a) (toInt16 b)) % 65536 ≡ Int.tdiv (toInt16 a) (toInt16 b)
          [ZMOD 65536] := Int.mod_modEq _ _
      have h2 : (toInt16 b) % 65536 ≡ toInt16 b [ZMOD 65536] := Int.mod_modEq _ _
      have h3 : (Int.tmod (toInt16 a) (toInt16 b)) % 65536 ≡ Int.tmod (toInt16 a) (toInt16 b)
          [ZMOD 65536] := Int.mod_modEq _ _
      have h4 := (h1.mul h2).add h3
      rw [hqr, toInt16_emod b hb] at h4
      have h5 : (((toUint16 (Int.tdiv (toInt16 a) (toInt16 b)) * b +
          toUint16 (Int.tmod (toInt16 a) (toInt16 b)) : Nat) : Int)) % 65536 = (a : Int) := by
        rw [Int.natCast_add, Int.natCast_mul, toUint16_cast, toUint16_cast]
        rw [show (_ : Int) % 65536 = toInt16 a % 65536 from h4]
        exact toInt16_emod a ha
      omega
    · rw [hD]
      exact StoreResult_ne_div _ _
    · rw [hM]
      exact StoreResult_ne_div _ _

/-- C22 on the operands `-32768` and `-1` (`0x8000`, `0xFFFF`), where the quotient 32768 wraps
around to `-32768`. -/
theorem arithmetic_spec_witness :
    ZAdd exampleCall [0x8000, 0xFFFF] =
      exampleCall.StoreResult (toUint16 (toInt16 0x8000 + toInt16 0xFFFF)) ∧
    ZSub exampleCall [0x8000, 0xFFFF] =
      exampleCall.StoreResult (toUint16 (toInt16 0x8000 - toInt16 0xFFFF)) ∧
    ZMul exampleCall [0x8000, 0xFFFF] =
      exampleCall.StoreResult (toUint16 (toInt16 0x8000 * toInt16 0xFFFF)) ∧
    (0xFFFF = 0 → ZDiv exampleCall [0x8000, 0xFFFF] = .error .divisionByZero ∧
      ZMod exampleCall [0x8000, 0xFFFF] = .error .divisionByZero) ∧
    (0xFFFF ≠ 0 → ∃ q r : Int, toInt16 0x8000 = q * toInt16 0xFFFF + r ∧
      r.natAbs < (toInt16 0xFFFF).natAbs ∧ (0 ≤ toInt16 0x8000 → 0 ≤ r) ∧
      (toInt16 0x8000 ≤ 0 → r ≤ 0) ∧
      ZDiv exampleCall [0x8000, 0xFFFF] = exampleCall.StoreResult (toUint16 q) ∧
      ZMod exampleCall [0x8000, 0xFFFF] = exampleCall.StoreResult (toUint16 r) ∧
      (toUint16 q * 0xFFFF + toUint16 r) % 65536 = 0x8000 ∧
      ZDiv exampleCall [0x8000, 0xFFFF] ≠ .error .divisionByZero ∧
      ZMod exampleCall [0x8000, 0xFFFF] ≠ .error .divisionByZero) :=
  arithmetic_spec exampleCall 0x8000 0xFFFF (by decide) (by decide)

/-! ## Object addresses -/

/-- The guard of `GetObjectEntryAddress` as it is in the code: for a 16-bit object index
`i` the function fails, with `invalidObject`, exactly when `i = 0` or `i > 256` (the
constant `MAX_OBJECT`), and otherwise returns `objectTable + 62 + (i - 1) * 9`. -/
theorem object_entry_address_spec (zm : ZMachine) (i : Nat) (hi : i < 65536)
    (hobj : zm.header.objTableAddress < 65536) :
    ((∃ e, zm.GetObjectEntryAddress i = .error e) ↔ (i = 0 ∨ i > 256)) ∧
    ((i = 0 ∨ i > 256) → zm.GetObjectEntryAddress i = .error .invalidObject) ∧
    (¬ (i = 0 ∨ i > 256) →
      zm.GetObjectEntryAddress i = .ok (zm.header.objTableAddress + 62 + (i - 1) * 9)) := by
  have hok : ¬ (i = 0 ∨ i > 256) →
      zm.GetObjectEntryAddress i = .ok (zm.header.objTableAddress + 62 + (i - 1) * 9) := by
    intro h
    exact GetObjectEntryAddress_ok zm i hobj (by omega) (by omega)
  refine ⟨⟨?_, ?_⟩, GetObjectEntryAddress_invalid zm i, hok⟩
  · intro ⟨e, he⟩
    by_cases h : i = 0 ∨ i > 256
    · exact h
    · rw [hok h] at he
      cases he
  · intro h
    exact ⟨_, GetObjectEntryAddress_invalid zm i h⟩

/-- The guard of `GetObjectEntryAddress` on the example image: object index 255. -/
theorem object_entry_address_spec_witness :
    ((∃ e, exampleObjects.GetObjectEntryAddress 255 = .error e) ↔ (255 = 0 ∨ 255 > 256)) ∧
    ((255 = 0 ∨ 255 > 256) → exampleObjects.GetObjectEntryAddress 255 = .error .invalidObject) ∧
    (¬ (255 = 0 ∨ 255 > 256) →
      exampleObjects.GetObjectEntryAddress 255 =
        .ok (exampleObjects.header.objTableAddress + 62 + (255 - 1) * 9)) :=
  object_entry_address_spec exampleObjects 255 (by decide) (by decide)

/-! ## Object index 256 -/

/-- On an image with the object table at address 0 and 256 object entries in which object 1
has no parent and object 256 no child, `insert_obj 1 256` writes the sibling 0 and the
parent `256 % 256 = 0` into the entry of object 1 and the child 1 into the entry of object
256. -/
theorem insert_obj_1_256 (zm : ZMachine) (hobj : zm.header.objTableAddress = 0)
    (hlen : zm.buf.length = 2366) (h66 : zm.buf[66]? = some 0)
    (h2363 : zm.buf[2363]? = some 0) :
    ZInsertObj 1 zm [1, 256] =
      .ok { zm with buf := ((zm.buf.set 67 0).set 2363 1).set 66 0 } := by
  simp [ZInsertObj, ZMachine.ReparentObject, ZMachine.UnlinkObject,
    ZMachine.GetObjectEntryAddress, readAt, writeAt, MAX_OBJECT,
    OBJECT_ENTRY_SIZE, OBJECT_PARENT_INDEX, OBJECT_SIBLING_INDEX, OBJECT_CHILD_INDEX,
    NULL_OBJECT_INDEX, bind, Except.bind, pure, Except.pure, hobj, hlen, h66, h2363]

/-- On an image with the object table at address 0 and 256 object entries in which object
256 has no parent and object 1 no child, `insert_obj 256 1` writes the sibling 0 and the
parent 1 into the entry of object 256 and the child `256 % 256 = 0` into the entry of
object 1. -/
theorem insert_obj_256_1 (zm : ZMachine) (hobj : zm.header.objTableAddress = 0)
    (hlen : zm.buf.length = 2366) (h68 : zm.buf[68]? = some 0)
    (h2361 : zm.buf[2361]? = some 0) :
    ZInsertObj 1 zm [256, 1] =
      .ok { zm with buf := ((zm.buf.set 2362 0).set 68 0).set 2361 1 } := by
  simp [ZInsertObj, ZMachine.ReparentObject, ZMachine.UnlinkObject,
    ZMachine.GetObjectEntryAddress, readAt, writeAt, MAX_OBJECT,
    OBJECT_ENTRY_SIZE, OBJECT_PARENT_INDEX, OBJECT_SIBLING_INDEX, OBJECT_CHILD_INDEX,
    NULL_OBJECT_INDEX, bind, Except.bind, pure, Except.pure, hobj, hlen, h68, h2361]

theorem exampleManyObjects_length : exampleManyObjects.buf.length = 2366 :=
  List.length_replicate (62 + 256 * 9) 0

theorem exampleManyObjects_zero (k : Nat) (h : k < 2366) :
    exampleManyObjects.buf[k]? = some 0 := by
  show (List.replicate (62 + 256 * 9) 0)[k]? = some 0
  rw [List.getElem?_replicate, if_pos h]

/-- C23. Object index 256 is accepted: `GetObjectEntryAddress 256` returns
`objectTable + 62 + 255 * 9` where an index above 255 is to fail. The link fields of an
entry hold one byte, so on the image with 256 object entries `insert_obj 1 256` makes
object 1 the first child of object 256 and stores the parent `256 % 256 = 0` in object 1,
and `insert_obj 256 1` stores the parent 1 in object 256 and the first child
`256 % 256 = 0` in object 1. -/
theorem object_256_accepted :
    MAX_OBJECT = 256 ∧
    exampleManyObjects.GetObjectEntryAddress 256 = .ok (0 + 62 + 255 * 9) ∧
    exampleManyObjects.GetObjectEntryAddress 257 = .error .invalidObject ∧
    (∃ zm', ZInsertObj 1 exampleManyObjects [1, 256] = .ok zm' ∧
      zm'.GetFirstChild 256 = .ok 1 ∧ zm'.GetParentObject 1 = .ok 0 ∧
      zm'.IsDirectParent 1 256 = .ok false) ∧
    (∃ zm', ZInsertObj 1 exampleManyObjects [256, 1] = .ok zm' ∧
      zm'.GetParentObject 256 = .ok 1 ∧ zm'.GetFirstChild 1 = .ok 0) := by
  have hlen := exampleManyObjects_length
  refine ⟨rfl, rfl, rfl, ⟨_, insert_obj_1_256 exampleManyObjects rfl hlen
      (exampleManyObjects_zero 66 (by decide)) (exampleManyObjects_zero 2363 (by decide)),
      ?_, ?_, ?_⟩,
    ⟨_, insert_obj_256_1 exampleManyObjects rfl hlen
      (exampleManyObjects_zero 68 (by decide)) (exampleManyObjects_zero 2361 (by decide)),
      ?_, ?_⟩⟩
  · simp [ZMachine.GetFirstChild, ZMachine.GetObjectEntryAddress, readAt, MAX_OBJECT,
      OBJECT_ENTRY_SIZE, OBJECT_CHILD_INDEX, List.getElem?_set, hlen,
      show exampleManyObjects.header.objTableAddress = 0 from rfl]
  · simp [ZMachine.GetParentObject, ZMachine.GetObjectEntryAddress, readAt, MAX_OBJECT,
      OBJECT_ENTRY_SIZE, OBJECT_PARENT_INDEX, List.getElem?_set, hlen,
      show exampleManyObjects.header.objTableAddress = 0 from rfl]
  · simp [ZMachine.IsDirectParent, ZMachine.GetParentObject, ZMachine.GetObjectEntryAddress,
      readAt, MAX_OBJECT, OBJECT_ENTRY_SIZE, OBJECT_PARENT_INDEX, List.getElem?_set, hlen,
      bind, Except.bind, pure, Except.pure,
      show exampleManyObjects.header.objTableAddress = 0 from rfl]
  · simp [ZMachine.GetParentObject, ZMachine.GetObjectEntryAddress, readAt, MAX_OBJECT,
      OBJECT_ENTRY_SIZE, OBJECT_PARENT_INDEX, List.getElem?_set, hlen,
      show exampleManyObjects.header.objTableAddress = 0 from rfl]
  · simp [ZMachine.GetFirstChild, ZMachine.GetObjectEntryAddress, readAt, MAX_OBJECT,
      OBJECT_ENTRY_SIZE, OBJECT_CHILD_INDEX, List.getElem?_set, hlen,
      show exampleManyObjects.header.objTableAddress = 0 from rfl]

/-! ## The stack invariant -/

theorem Push_inv (s s' : ZStack) (v : Nat) (hlen : s.stack.length = MAX_STACK)
    (h : s.Push v = .ok s') :
    s'.top + 1 = s.top ∧ s'.stack.length = MAX_STACK ∧ s'.localFrame = s.localFrame := by
  unfold ZStack.Push at h
  by_cases h0 : s.top = 0
  · rw [if_pos h0] at h
    cases h
  · rw [if_neg h0] at h
    cases hw : writeAt s.stack (s.top - 1) v with
    | error e => rw [hw] at h; cases h
    | ok b =>
      rw [hw] at h
      cases h
      obtain ⟨_, rfl⟩ := writeAt_ok_inv hw
      refine ⟨by show s.top - 1 + 1 = s.top; omega, ?_, rfl⟩
      show (s.stack.set _ _).length = _
      rw [List.length_set]
      exact hlen

theorem Pop_inv (s s' : ZStack) (v : Nat) (hlen : s.stack.length = MAX_STACK)
    (h : s.Pop = .ok (v, s')) :
    s'.top = s.top + 1 ∧ s.top < MAX_STACK ∧ s'.stack = s.stack ∧
      s'.localFrame = s.localFrame := by
  unfold ZStack.Pop at h
  by_cases h0 : s.top = MAX_STACK
  · rw [if_pos h0] at h
    cases h
  · rw [if_neg h0] at h
    cases hr : readAt s.stack s.top with
    | error e => rw [hr] at h; cases h
    | ok b =>
      rw [hr] at h
      cases h
      have := getElem?_lt (readAt_ok_iff.mp hr)
      exact ⟨rfl, by rw [← hlen]; exact this, rfl, rfl⟩

theorem SaveFrame_inv (s s' : ZStack) (hlen : s.stack.length = MAX_STACK)
    (h : s.SaveFrame = .ok s') :
    s'.top + 1 = s.top ∧ s'.stack.length = MAX_STACK := by
  unfold ZStack.SaveFrame at h
  cases hp : s.Push (s.localFrame % 65536) with
  | error e => rw [hp] at h; cases h
  | ok s1 =>
    rw [hp] at h
    cases h
    obtain ⟨h1, h2, _⟩ := Push_inv s s1 _ hlen hp
    exact ⟨h1, h2⟩

theorem RestoreFrame_inv (s s' : ZStack) (a : Nat) (hlen : s.stack.length = MAX_STACK)
    (h : s.RestoreFrame = .ok (a, s')) :
    s'.top = s.localFrame + 3 ∧ s'.top ≤ MAX_STACK ∧ s'.stack.length = MAX_STACK := by
  unfold ZStack.RestoreFrame at h
  simp only [bind, Except.bind] at h
  cases h1 : ZStack.Pop { s with top := s.localFrame } with
  | error e => rw [h1] at h; cases h
  | ok r1 =>
    obtain ⟨f, s2⟩ := r1
    rw [h1] at h
    simp only at h
    obtain ⟨t2, _, st2, _⟩ := Pop_inv (ZStack.mk s.stack s.localFrame s.localFrame) s2 f hlen h1
    cases h2 : ZStack.Pop { s2 with localFrame := f } with
    | error e => rw [h2] at h; cases h
    | ok r2 =>
      obtain ⟨lo, s4⟩ := r2
      rw [h2] at h
      simp only at h
      have hlen2 : s2.stack.length = MAX_STACK := by rw [st2]; exact hlen
      obtain ⟨t4, _, st4, _⟩ := Pop_inv (ZStack.mk s2.stack s2.top f) s4 lo hlen2 h2
      cases h3 : ZStack.Pop s4 with
      | error e => rw [h3] at h; cases h
      | ok r3 =>
        obtain ⟨hi, s5⟩ := r3
        rw [h3] at h
        cases h
        have hlen4 : s4.stack.length = MAX_STACK := by rw [st4]; exact hlen2
        obtain ⟨t5, lt5, st5, _⟩ := Pop_inv s4 s5 hi hlen4 h3
        have e2 : s2.top = s.localFrame + 1 := t2
        have e4 : s4.top = s2.top + 1 := t4
        have e5 : s5.top = s4.top + 1 := t5
        have l5 : s4.top < 1024 := lt5
        refine ⟨show s5.top = s.localFrame + 3 by omega, show s5.top ≤ 1024 by omega, ?_⟩
        rw [st5]
        exact hlen4

theorem run_inv (op : StackOp) (s s' : ZStack) (hlen : s.stack.length = MAX_STACK)
    (htop : s.top ≤ MAX_STACK) (h : op.run s = .ok s') :
    s'.top ≤ MAX_STACK ∧ s'.stack.length = MAX_STACK := by
  cases op with
  | push v =>
    obtain ⟨h1, h2, _⟩ := Push_inv s s' v hlen h
    exact ⟨by omega, h2⟩
  | pop =>
    unfold StackOp.run at h
    cases hp : s.Pop with
    | error e => rw [hp] at h; cases h
    | ok r =>
      obtain ⟨v, s1⟩ := r
      rw [hp] at h
      cases h
      obtain ⟨h1, h2, h3, _⟩ := Pop_inv s s' v hlen hp
      exact ⟨by omega, by rw [h3]; exact hlen⟩
  | saveFrame =>
    obtain ⟨h1, h2⟩ := SaveFrame_inv s s' hlen h
    exact ⟨by omega, h2⟩
  | restoreFrame =>
    unfold StackOp.run at h
    cases hp : s.RestoreFrame with
    | error e => rw [hp] at h; cases h
    | ok r =>
      obtain ⟨a, s1⟩ := r
      rw [hp] at h
      cases h
      obtain ⟨_, h2, h3⟩ := RestoreFrame_inv s s' a hlen hp
      exact ⟨h2, h3⟩

theorem runOps_inv : ∀ (ops : List StackOp) (s s' : ZStack), s.stack.length = MAX_STACK →
    s.top ≤ MAX_STACK → runOps ops s = .ok s' →
    s'.top ≤ MAX_STACK ∧ s'.stack.length = MAX_STACK := by
  intro ops
  induction ops with
  | nil =>
    intro s s' hlen htop h
    cases h
    exact ⟨htop, hlen⟩
  | cons op ops ih =>
    intro s s' hlen htop h
    unfold runOps at h
    cases h1 : op.run s with
    | error e => rw [h1] at h; cases h
    | ok s1 =>
      rw [h1] at h
      obtain ⟨a, b⟩ := run_inv op s s1 hlen htop h1
      exact ih s1 s' b a h
theorem Pop_error (s : ZStack) (e : ZError) (h : s.Pop = .error e) :
    e = .popFromEmptyStack ∨ e = .indexOutOfRange := by
  unfold ZStack.Pop at h
  by_cases h0 : s.top = MAX_STACK
  · rw [if_pos h0] at h
    cases h
    exact Or.inl rfl
  · rw [if_neg h0] at h
    unfold readAt at h
    cases hr : s.stack[s.top]? with
    | none =>
      rw [hr] at h
      cases h
      exact Or.inr rfl
    | some v =>
      rw [hr] at h
      cases h

theorem RestoreFrame_error (s : ZStack) (e : ZError) (h : s.RestoreFrame = .error e) :
    e = .popFromEmptyStack ∨ e = .indexOutOfRange := by
  unfold ZStack.RestoreFrame at h
  simp only [bind, Except.bind] at h
  cases h1 : ZStack.Pop { s with top := s.localFrame } with
  | error e1 =>
    rw [h1] at h
    cases h
    exact Pop_error _ _ h1
  | ok r1 =>
    rw [h1] at h
    simp only at h
    cases h2 : ZStack.Pop { r1.2 with localFrame := r1.1 } with
    | error e2 =>
      rw [h2] at h
      cases h
      exact Pop_error _ _ h2
    | ok r2 =>
      rw [h2] at h
      simp only at h
      cases h3 : ZStack.Pop r2.2 with
      | error e3 =>
        rw [h3] at h
        cases h
        exact Pop_error _ _ h3
      | ok r3 =>
        rw [h3] at h
        cases h

/-- C29. In every stack state reached from `NewStack` by a sequence of `Push`, `Pop`,
`SaveFrame` and `RestoreFrame` operations that all succeed, `T ≤ 1024` holds (`T` is a
natural number) and the array has 1024 words; in such a state `Push`, `Pop` and `SaveFrame`
make no access outside the array (they succeed or report overflow or underflow), and a
`RestoreFrame` that fails reports underflow or an index outside the array. -/
theorem stack_invariant (ops : List StackOp) (s : ZStack)
    (h : runOps ops NewStack = .ok s) :
    s.top ≤ MAX_STACK ∧ s.stack.length = MAX_STACK ∧
    (∀ v, s.Push v = .error .stackOverflow ∨ ∃ s', s.Push v = .ok s') ∧
    (s.Pop = .error .popFromEmptyStack ∨ ∃ v s', s.Pop = .ok (v, s')) ∧
    (s.SaveFrame = .error .stackOverflow ∨ ∃ s', s.SaveFrame = .ok s') ∧
    (∀ e, s.RestoreFrame = .error e → e = .popFromEmptyStack ∨ e = .indexOutOfRange) := by
  obtain ⟨htop, hlen⟩ := runOps_inv ops NewStack s (List.length_replicate _ _) (Nat.le_refl _) h
  have hpush : ∀ v, s.Push v = .error .stackOverflow ∨ ∃ s', s.Push v = .ok s' := by
    intro v
    unfold ZStack.Push
    by_cases h0 : s.top = 0
    · rw [if_pos h0]
      exact Or.inl rfl
    · rw [if_neg h0]
      right
      unfold writeAt
      rw [if_pos (by rw [hlen]; omega)]
      exact ⟨_, rfl⟩
  refine ⟨htop, hlen, hpush, ?_, ?_, RestoreFrame_error s⟩
  · unfold ZStack.Pop
    by_cases h0 : s.top = MAX_STACK
    · rw [if_pos h0]
      exact Or.inl rfl
    · rw [if_neg h0]
      right
      rw [readAt_of_lt (by rw [hlen]; omega)]
      exact ⟨_, _, rfl⟩
  · unfold ZStack.SaveFrame
    rcases hpush (s.localFrame % 65536) with h1 | ⟨s1, h1⟩
    · rw [h1]
      exact Or.inl rfl
    · rw [h1]
      exact Or.inr ⟨_, rfl⟩

set_option maxRecDepth 1000000 in
/-- C29 on the sequence `exampleFrameOps`, in which `RestoreFrame` loads `F = 60000`: the
state reached has `T = 1023`. -/
theorem stack_invariant_witness :
    exampleReloaded.top ≤ MAX_STACK ∧ exampleReloaded.stack.length = MAX_STACK ∧
    (∀ v, exampleReloaded.Push v = .error .stackOverflow ∨
      ∃ s', exampleReloaded.Push v = .ok s') ∧
    (exampleReloaded.Pop = .error .popFromEmptyStack ∨
      ∃ v s', exampleReloaded.Pop = .ok (v, s')) ∧
    (exampleReloaded.SaveFrame = .error .stackOverflow ∨
      ∃ s', exampleReloaded.SaveFrame = .ok s') ∧
    (∀ e, exampleReloaded.RestoreFrame = .error e →
      e = .popFromEmptyStack ∨ e = .indexOutOfRange) :=
  stack_invariant exampleFrameOps exampleReloaded rfl

/-! ## Local variables -/

set_option maxRecDepth 1000000 in
/-- C26 (as stated) fails: after the call of the routine with `L = 2` locals of the example
image, `GetLocalVar 2` does not fail; it returns the word below the locals, which is a
stale word beyond the top of the stack, and after a `Push 7` it returns the evaluation-stack
word 7. -/
theorem get_local_past_frame_counterexample :
    ∃ zm', ZCall exampleCall [4, 0, 0, 0] 1 = .ok zm' ∧
      zm'.stack.localFrame - zm'.stack.top = 2 ∧
      zm'.stack.GetLocalVar 2 = .ok 0 ∧
      ∃ st, zm'.stack.Push 7 = .ok st ∧ st.GetLocalVar 2 = .ok 7 :=
  ⟨_, rfl, rfl, rfl, _, rfl, rfl⟩

/-- C26 (amended). On a stack of 1024 words with `F ≤ 1024`, `GetLocalVar i` returns
`stack[F - i - 1]` for every `i ≤ 15` with `i < F`, whether or not the routine has that many
locals; it fails only for `i > 15` (`localVarIndexOutOfBounds`), for `F < i`
(`stackUnderflow`) and for `F = i` (the index `-1` is outside the array). -/
theorem get_local_var_spec (s : ZStack) (i : Nat) (hlen : s.stack.length = MAX_STACK)
    (hF : s.localFrame ≤ MAX_STACK) :
    (i ≤ 15 → i < s.localFrame →
      s.GetLocalVar i = .ok (s.stack.getD (s.localFrame - i - 1) 0)) ∧
    (i > 15 → s.GetLocalVar i = .error .localVarIndexOutOfBounds) ∧
    (i ≤ 15 → s.localFrame < i → s.GetLocalVar i = .error .stackUnderflow) ∧
    (i ≤ 15 → s.localFrame = i → s.GetLocalVar i = .error .indexOutOfRange) := by
  have hF' : s.localFrame ≤ 1024 := hF
  have hlen' : s.stack.length = 1024 := hlen
  refine ⟨?_, ?_, ?_, ?_⟩
  · intro h15 hlt
    unfold ZStack.GetLocalVar ZStack.ValidateLocalVarIndex
    rw [if_neg (by omega), if_neg (by omega)]
    simp only [bind, Except.bind, pure, Except.pure]
    rw [if_neg (by omega), readAt_of_lt (by omega)]
  · intro h15
    unfold ZStack.GetLocalVar ZStack.ValidateLocalVarIndex
    rw [if_pos h15]
    rfl
  · intro h15 hlt
    unfold ZStack.GetLocalVar ZStack.ValidateLocalVarIndex
    rw [if_neg (by omega), if_pos hlt]
    rfl
  · intro h15 heq
    unfold ZStack.GetLocalVar ZStack.ValidateLocalVarIndex
    rw [if_neg (by omega), if_neg (by omega)]
    simp only [bind, Except.bind, pure, Except.pure]
    rw [if_pos (by omega)]

/-- C26 (amended) on the new stack, where `F = 1024`: index 3. -/
theorem get_local_var_spec_witness :
    (3 ≤ 15 → 3 < NewStack.localFrame →
      NewStack.GetLocalVar 3 = .ok (NewStack.stack.getD (NewStack.localFrame - 3 - 1) 0)) ∧
    (3 > 15 → NewStack.GetLocalVar 3 = .error .localVarIndexOutOfBounds) ∧
    (3 ≤ 15 → NewStack.localFrame < 3 → NewStack.GetLocalVar 3 = .error .stackUnderflow) ∧
    (3 ≤ 15 → NewStack.localFrame = 3 → NewStack.GetLocalVar 3 = .error .indexOutOfRange) :=
  get_local_var_spec NewStack 3 (List.length_replicate _ _) (Nat.le_refl _)

/-! ## Variables: store and read -/

/-- C24. For a variable number `x` in `0..255` and a 16-bit value `v`, with room on the
stack (`x = 0`), the word of local `x - 1` inside the stack array (`1 ≤ x ≤ 15`) or the
global inside the buffer (`x ≥ 16`): `StoreAtLocation x v` succeeds and changes only the
stack word `T - 1` (a push), the stack word `F - x`, or the two bytes at
`globalTable + 2 * (x - 16)`, which then hold `v` big-endian; and the read of a variable
operand whose variable number, the byte at `PC`, is `x` returns `v`, with `T` as before the
store when `x = 0`, and with no change of stack or memory otherwise. -/
theorem store_then_read (zm : ZMachine) (x v : Nat) (hx : x < 256) (hv : v < 65536)
    (hlen : zm.stack.stack.length = MAX_STACK)
    (h0 : x = 0 → 0 < zm.stack.top ∧ zm.stack.top ≤ MAX_STACK)
    (hloc : 1 ≤ x → x ≤ 15 → x ≤ zm.stack.localFrame ∧ zm.stack.localFrame ≤ MAX_STACK)
    (hglob : 16 ≤ x → zm.header.globalVarAddress < 65536 ∧
      zm.header.globalVarAddress + 2 * (x - 16) + 1 < zm.buf.length) :
    ∃ zm1, zm.StoreAtLocation x v = .ok zm1 ∧ zm1.ip = zm.ip ∧ zm1.header = zm.header ∧
      (x = 0 → zm1.buf = zm.buf ∧ zm1.stack.top = zm.stack.top - 1 ∧
        zm1.stack.localFrame = zm.stack.localFrame ∧
        zm1.stack.stack[zm.stack.top - 1]? = some v ∧
        ∀ j, j ≠ zm.stack.top - 1 → zm1.stack.stack[j]? = zm.stack.stack[j]?) ∧
      (1 ≤ x → x ≤ 15 → zm1.buf = zm.buf ∧ zm1.stack.top = zm.stack.top ∧
        zm1.stack.localFrame = zm.stack.localFrame ∧
        zm1.stack.stack[zm.stack.localFrame - x]? = some v ∧
        ∀ j, j ≠ zm.stack.localFrame - x → zm1.stack.stack[j]? = zm.stack.stack[j]?) ∧
      (16 ≤ x → zm1.stack = zm.stack ∧
        zm1.buf[zm.header.globalVarAddress + 2 * (x - 16)]? = some (v / 256) ∧
        zm1.buf[zm.header.globalVarAddress + 2 * (x - 16) + 1]? = some (v % 256) ∧
        ∀ j, j ≠ zm.header.globalVarAddress + 2 * (x - 16) →
          j ≠ zm.header.globalVarAddress + 2 * (x - 16) + 1 → zm1.buf[j]? = zm.buf[j]?) ∧
      (zm1.buf[zm1.ip]? = some x →
        ∃ zm2, zm1.GetOperand OPERAND_VARIABLE = .ok (v, zm2) ∧
          zm2.ip = (zm.ip + 1) % 2 ^ 32 ∧ zm2.buf = zm1.buf ∧ zm2.header = zm.header ∧
          zm2.stack.stack = zm1.stack.stack ∧ zm2.stack.localFrame = zm.stack.localFrame ∧
          zm2.stack.top = zm.stack.top) := by
  have hlen' : zm.stack.stack.length = 1024 := hlen
  have hvar : OPERAND_VARIABLE ≠ OPERAND_SMALL := by decide
  by_cases c0 : x = 0
  · -- the top of the stack
    obtain ⟨hT0, hT⟩ := h0 c0
    have hT' : zm.stack.top ≤ 1024 := hT
    subst c0
    have hlt : zm.stack.top - 1 < zm.stack.stack.length := by omega
    refine ⟨ZMachine.mk zm.ip zm.header zm.buf
      (ZStack.mk (zm.stack.stack.set (zm.stack.top - 1) v) (zm.stack.top - 1)
        zm.stack.localFrame) zm.Done, ?_, rfl, rfl, ?_, ?_, ?_, ?_⟩
    · unfold ZMachine.StoreAtLocation ZStack.Push writeAt
      rw [if_pos rfl, if_neg (by omega), if_pos hlt]
      rfl
    · intro _
      refine ⟨rfl, rfl, rfl, ?_, ?_⟩
      · exact List.getElem?_set_self hlt
      · intro j hj
        exact List.getElem?_set_ne (Ne.symm hj)
    · intro h1 h15
      omega
    · intro h16
      omega
    · intro hop
      have hop' : zm.buf[zm.ip]? = some 0 := hop
      refine ⟨ZMachine.mk ((zm.ip + 1) % 2 ^ 32) zm.header zm.buf
        (ZStack.mk (zm.stack.stack.set (zm.stack.top - 1) v) zm.stack.top
          zm.stack.localFrame) zm.Done, ?_, rfl, rfl, rfl, rfl, rfl, rfl⟩
      unfold ZMachine.GetOperand
      rw [if_neg hvar, if_pos rfl]
      show (readAt zm.buf zm.ip >>= _) = _
      rw [readAt_eq_ok hop']
      simp only [bind, Except.bind, if_true]
      unfold ZStack.Pop
      rw [if_neg (show zm.stack.top - 1 ≠ MAX_STACK by
        show zm.stack.top - 1 ≠ 1024
        omega)]
      rw [show readAt (zm.stack.stack.set (zm.stack.top - 1) v) (zm.stack.top - 1) = .ok v from
        readAt_eq_ok (List.getElem?_set_self hlt)]
      simp only [bind, Except.bind, pure, Except.pure]
      rw [show zm.stack.top - 1 + 1 = zm.stack.top by omega]
  · by_cases c15 : x < 16
    · -- a local
      obtain ⟨hxF, hF⟩ := hloc (by omega) (by omega)
      have hF' : zm.stack.localFrame ≤ 1024 := hF
      have e : zm.stack.localFrame - (x - 1) - 1 = zm.stack.localFrame - x := by omega
      have hlt : zm.stack.localFrame - x < zm.stack.stack.length := by omega
      refine ⟨ZMachine.mk zm.ip zm.header zm.buf
        (ZStack.mk (zm.stack.stack.set (zm.stack.localFrame - x) v) zm.stack.top
          zm.stack.localFrame) zm.Done, ?_, rfl, rfl, ?_, ?_, ?_, ?_⟩
      · unfold ZMachine.StoreAtLocation ZStack.SetLocalVar ZStack.ValidateLocalVarIndex writeAt
        rw [if_neg c0, if_pos c15, if_neg (by omega), if_neg (by omega)]
        simp only [bind, Except.bind, pure, Except.pure]
        rw [if_neg (by omega), e, if_pos hlt]
      · intro h
        exact absurd h c0
      · intro _ _
        refine ⟨rfl, rfl, rfl, ?_, ?_⟩
        · exact List.getElem?_set_self hlt
        · intro j hj
          exact List.getElem?_set_ne (Ne.symm hj)
      · intro h16
        omega
      · intro hop
        have hop' : zm.buf[zm.ip]? = some x := hop
        refine ⟨ZMachine.mk ((zm.ip + 1) % 2 ^ 32) zm.header zm.buf
          (ZStack.mk (zm.stack.stack.set (zm.stack.localFrame - x) v) zm.stack.top
            zm.stack.localFrame) zm.Done, ?_, rfl, rfl, rfl, rfl, rfl, rfl⟩
        unfold ZMachine.GetOperand
        rw [if_neg hvar, if_pos rfl]
        show (readAt zm.buf zm.ip >>= _) = _
        rw [readAt_eq_ok hop']
        simp only [bind, Except.bind]
        rw [if_neg c0, if_pos c15]
        unfold ZStack.GetLocalVar ZStack.ValidateLocalVarIndex
        rw [if_neg (by omega), if_neg (show ¬ (zm.stack.localFrame < x - 1) by omega)]
        simp only [bind, Except.bind, pure, Except.pure]
        rw [if_neg (show ¬ (zm.stack.localFrame - (x - 1) = 0) by omega), e,
          show readAt (zm.stack.stack.set (zm.stack.localFrame - x) v)
            (zm.stack.localFrame - x) = .ok v from readAt_eq_ok (List.getElem?_set_self hlt)]
    · -- a global
      obtain ⟨hG, hGb⟩ := hglob (by omega)
      have ea : (zm.header.globalVarAddress + PackedAddress (x - 0x10)) % 2 ^ 32 =
          zm.header.globalVarAddress + 2 * (x - 16) := by
        unfold PackedAddress
        omega
      have ea1 : (zm.header.globalVarAddress + 2 * (x - 16) + 1) % 2 ^ 32 =
          zm.header.globalVarAddress + 2 * (x - 16) + 1 := by omega
      have hlo : (v &&& 0xFF) % 256 = v % 256 := by
        rw [and_0xFF]
        omega
      have hhi : (v >>> 8) % 256 = v / 256 := by
        rw [Nat.shiftRight_eq_div_pow]
        omega
      generalize hA : zm.header.globalVarAddress + 2 * (x - 16) = A at ea ea1 hGb ⊢
      have hl0 : A < zm.buf.length := by omega
      have hl1 : A + 1 < (zm.buf.set A (v / 256)).length := by
        rw [List.length_set]
        exact hGb
      refine ⟨ZMachine.mk zm.ip zm.header ((zm.buf.set A (v / 256)).set (A + 1) (v % 256))
        zm.stack zm.Done, ?_, rfl, rfl, ?_, ?_, ?_, ?_⟩
      · unfold ZMachine.StoreAtLocation ZMachine.SetGlobal ZMachine.SetUint16 writeAt
        rw [if_neg c0, if_neg c15, if_neg c15, ea, ea1, hlo, hhi, if_pos hl0]
        simp only [bind, Except.bind, pure, Except.pure]
        rw [if_pos hl1]
      · intro h
        exact absurd h c0
      · intro _ h15
        omega
      · intro _
        refine ⟨rfl, ?_, ?_, ?_⟩
        · show ((zm.buf.set A (v / 256)).set (A + 1) (v % 256))[A]? = _
          rw [List.getElem?_set_ne (by omega), List.getElem?_set_self hl0]
        · exact List.getElem?_set_self hl1
        · intro j hj hj1
          exact getElem?_set_set (Ne.symm hj) (Ne.symm hj1)
      · intro hop
        have hop' : ((zm.buf.set A (v / 256)).set (A + 1) (v % 256))[zm.ip]? = some x := hop
        refine ⟨ZMachine.mk ((zm.ip + 1) % 2 ^ 32) zm.header
          ((zm.buf.set A (v / 256)).set (A + 1) (v % 256)) zm.stack zm.Done,
          ?_, rfl, rfl, rfl, rfl, rfl, rfl⟩
        unfold ZMachine.GetOperand
        rw [if_neg hvar, if_pos rfl]
        show (readAt ((zm.buf.set A (v / 256)).set (A + 1) (v % 256)) zm.ip >>= _) = _
        rw [readAt_eq_ok hop']
        simp only [bind, Except.bind]
        rw [if_neg c0, if_neg c15]
        unfold ZMachine.ReadGlobal
        rw [if_neg c15]
        dsimp only
        rw [ea, GetUint16_bytes _ A (v / 256) (v % 256) (by omega)
          (by rw [List.getElem?_set_ne (by omega), List.getElem?_set_self hl0])
          (List.getElem?_set_self hl1),
          word_join _ _ (by omega) (Nat.mod_lt _ (by decide)),
          show v / 256 * 256 + v % 256 = v by omega]
        rfl

/-- C24 on the example image, whose byte at `PC` is 0: the variable 0 and the value
`0x1234`. -/
theorem store_then_read_witness :
    ∃ zm1, exampleCall.StoreAtLocation 0 0x1234 = .ok zm1 ∧ zm1.ip = exampleCall.ip ∧
      zm1.header = exampleCall.header ∧
      (0 = 0 → zm1.buf = exampleCall.buf ∧ zm1.stack.top = exampleCall.stack.top - 1 ∧
        zm1.stack.localFrame = exampleCall.stack.localFrame ∧
        zm1.stack.stack[exampleCall.stack.top - 1]? = some 0x1234 ∧
        ∀ j, j ≠ exampleCall.stack.top - 1 →
          zm1.stack.stack[j]? = exampleCall.stack.stack[j]?) ∧
      (1 ≤ 0 → 0 ≤ 15 → zm1.buf = exampleCall.buf ∧
        zm1.stack.top = exampleCall.stack.top ∧
        zm1.stack.localFrame = exampleCall.stack.localFrame ∧
        zm1.stack.stack[exampleCall.stack.localFrame - 0]? = some 0x1234 ∧
        ∀ j, j ≠ exampleCall.stack.localFrame - 0 →
          zm1.stack.stack[j]? = exampleCall.stack.stack[j]?) ∧
      (16 ≤ 0 → zm1.stack = exampleCall.stack ∧
        zm1.buf[exampleCall.header.globalVarAddress + 2 * (0 - 16)]? = some (0x1234 / 256) ∧
        zm1.buf[exampleCall.header.globalVarAddress + 2 * (0 - 16) + 1]? =
          some (0x1234 % 256) ∧
        ∀ j, j ≠ exampleCall.header.globalVarAddress + 2 * (0 - 16) →
          j ≠ exampleCall.header.globalVarAddress + 2 * (0 - 16) + 1 →
          zm1.buf[j]? = exampleCall.buf[j]?) ∧
      (zm1.buf[zm1.ip]? = some 0 →
        ∃ zm2, zm1.GetOperand OPERAND_VARIABLE = .ok (0x1234, zm2) ∧
          zm2.ip = (exampleCall.ip + 1) % 2 ^ 32 ∧ zm2.buf = zm1.buf ∧
          zm2.header = exampleCall.header ∧
          zm2.stack.stack = zm1.stack.stack ∧
          zm2.stack.localFrame = exampleCall.stack.localFrame ∧
          zm2.stack.top = exampleCall.stack.top) :=
  store_then_read exampleCall 0 0x1234 (by decide) (by decide) (List.length_replicate _ _)
    (fun _ => ⟨by decide, by decide⟩) (fun h => absurd h (by decide))
    (fun h => absurd h (by decide))

/-! ## Instruction decoding -/

set_option maxRecDepth 1000000 in
theorem opcode_byte_bits : ∀ b, b < 256 →
    ((b >>> 6) &&& 0x3 = b / 64 % 4) ∧ (b &&& 0x1F = b % 32) ∧
    (((b >>> 5) &&& 0x1) = b / 32 % 2) ∧ ((b >>> 4) &&& 0x3 = b / 16 % 4) ∧
    (b &&& 0x0F = b % 16) ∧
    ((((b &&& 0x40) >>> 6) + 1) % 256 =
      if b / 64 % 2 = 0 then OPERAND_SMALL else OPERAND_VARIABLE) ∧
    ((((b &&& 0x20) >>> 5) + 1) % 256 =
      if b / 32 % 2 = 0 then OPERAND_SMALL else OPERAND_VARIABLE) ∧
    ((b >>> 2) &&& 0x3 = b / 4 % 4) ∧ ((b >>> 0) &&& 0x3 = b % 4) := by
  decide

/-- After an operand of type `t` the `ip` has advanced by the size of the operand. -/
theorem GetOperand_ip (zm zm' : ZMachine) (t v : Nat) (ht : t < 3)
    (h : zm.GetOperand t = .ok (v, zm')) : zm'.ip = (zm.ip + operandSize t) % 2 ^ 32 := by
  unfold ZMachine.GetOperand at h
  have hcases : t = 0 ∨ t = 1 ∨ t = 2 := by omega
  rcases hcases with rfl | rfl | rfl
  · rw [if_neg (show ¬ ((0 : Nat) = OPERAND_SMALL) by decide),
      if_neg (show ¬ ((0 : Nat) = OPERAND_VARIABLE) by decide),
      if_pos (show (0 : Nat) = OPERAND_LARGE from rfl)] at h
    cases hr : GetUint16 zm.buf zm.ip with
    | error e => rw [hr] at h; cases h
    | ok w =>
      rw [hr] at h
      cases h
      rfl
  · rw [if_pos (show (1 : Nat) = OPERAND_SMALL from rfl)] at h
    cases hr : readAt zm.buf zm.ip with
    | error e => rw [hr] at h; cases h
    | ok w =>
      rw [hr] at h
      cases h
      rfl
  · rw [if_neg (show ¬ ((2 : Nat) = OPERAND_SMALL) by decide),
      if_pos (show (2 : Nat) = OPERAND_VARIABLE from rfl)] at h
    cases hr : readAt zm.buf zm.ip with
    | error e => rw [hr] at h; cases h
    | ok w =>
      rw [hr] at h
      simp only [bind, Except.bind] at h
      by_cases h0 : w = 0
      · rw [if_pos h0] at h
        cases hp : zm.stack.Pop with
        | error e => rw [hp] at h; cases h
        | ok r =>
          rw [hp] at h
          cases h
          rfl
      · rw [if_neg h0] at h
        by_cases h16 : w < 0x10
        · rw [if_pos h16] at h
          cases hp : zm.stack.GetLocalVar (w - 1) with
          | error e => rw [hp] at h; cases h
          | ok r =>
            rw [hp] at h
            cases h
            rfl
        · rw [if_neg h16] at h
          cases hp : zm.ReadGlobal w with
          | error e => rw [hp] at h; cases h
          | ok r =>
            rw [hp] at h
            cases h
            rfl

theorem leadingTypes_lt : ∀ ts : List Nat, (∀ t ∈ ts, t < 4) → ∀ t ∈ leadingTypes ts, t < 3 := by
  intro ts
  induction ts with
  | nil =>
    intro _ t ht
    cases ht
  | cons a ts ih =>
    intro h t ht
    unfold leadingTypes at ht
    by_cases ha : a = OPERAND_OMITTED
    · rw [if_pos ha] at ht
      cases ht
    · rw [if_neg ha] at ht
      rcases List.mem_cons.mp ht with rfl | h'
      · have := h t (List.mem_cons_self _ _)
        have ha' : t ≠ 3 := ha
        omega
      · exact ih (fun x hx => h x (List.mem_cons_of_mem _ hx)) t h'

theorem leadingTypes_length : ∀ ts : List Nat, (leadingTypes ts).length ≤ ts.length := by
  intro ts
  induction ts with
  | nil => exact Nat.le_refl _
  | cons a ts ih =>
    unfold leadingTypes
    split
    · exact Nat.zero_le _
    · simp only [List.length_cons]
      omega

/-- After operands of the types `ts` the `ip` has advanced by the sizes of the operands, and
there is one value for each type. -/
theorem readOperands_ip : ∀ (ts : List Nat) (zm zm' : ZMachine) (vals : List Nat),
    (∀ t ∈ ts, t < 3) → readOperands ts zm = .ok (vals, zm') →
    zm'.ip % 2 ^ 32 = (zm.ip + (ts.map operandSize).sum) % 2 ^ 32 ∧
      vals.length = ts.length := by
  intro ts
  induction ts with
  | nil =>
    intro zm zm' vals _ h
    cases h
    exact ⟨rfl, rfl⟩
  | cons t ts ih =>
    intro zm zm' vals hts h
    unfold readOperands at h
    cases h1 : zm.GetOperand t with
    | error e => rw [h1] at h; cases h
    | ok r1 =>
      obtain ⟨v, zm1⟩ := r1
      rw [h1] at h
      simp only [bind, Except.bind] at h
      cases h2 : readOperands ts zm1 with
      | error e => rw [h2] at h; cases h
      | ok r2 =>
        obtain ⟨vs, zm2⟩ := r2
        rw [h2] at h
        cases h
        have hip := GetOperand_ip zm zm1 t v (hts t (List.mem_cons_self _ _)) h1
        obtain ⟨a, b⟩ := ih zm1 zm2 vs (fun x hx => hts x (List.mem_cons_of_mem _ hx)) h2
        refine ⟨?_, by simp only [List.length_cons]; omega⟩
        rw [a, hip, List.map_cons, List.sum_cons]
        omega
theorem type_field (tb n : Nat) : (tb >>> (2 * n)) &&& 0x3 = tb / 4 ^ n % 4 := by
  rw [Nat.shiftRight_eq_div_pow, show (0x3 : Nat) = 2 ^ 2 - 1 from rfl,
    Nat.and_pow_two_sub_one_eq_mod, Nat.pow_mul]

theorem drop_set_succ (l : List Nat) (i k v : Nat) :
    (l.set i v).drop (i + 1 + k) = l.drop (i + 1 + k) := by
  apply List.ext_getElem?
  intro j
  rw [List.getElem?_drop, List.getElem?_drop, List.getElem?_set_ne (by omega)]

/-- The loop of `GetOperands` reads the operands of the leading fields that are not
`omitted` and puts their values into the slice from `numOperands` on. -/
theorem GetOperands_loop_spec (tb : Nat) : ∀ (n shift : Nat) (zm : ZMachine) (vals : List Nat)
    (num : Nat), (1 ≤ n → shift = 2 * (n - 1)) → num + n ≤ vals.length → num + n ≤ 4 →
    ZMachine.GetOperands.loop tb n shift zm vals num =
      (readOperands (leadingTypes (typeFields tb n)) zm >>= fun r =>
        pure (num + r.1.length, vals.take num ++ r.1 ++ vals.drop (num + r.1.length), r.2)) := by
  intro n
  induction n with
  | zero =>
    intro shift zm vals num _ _ _
    unfold ZMachine.GetOperands.loop typeFields leadingTypes readOperands
    show Except.ok (num, vals, zm) = Except.ok (num + 0, vals.take num ++ [] ++ vals.drop (num + 0), zm)
    rw [Nat.add_zero, List.append_nil, List.take_append_drop]
  | succ n ih =>
    intro shift zm vals num hs hlen h4
    have hshift : shift = 2 * n := hs (by omega)
    subst hshift
    generalize hR : ZMachine.GetOperands.loop tb n = R at ih
    unfold ZMachine.GetOperands.loop
    rw [hR]
    simp only [type_field]
    unfold typeFields leadingTypes
    by_cases ho : tb / 4 ^ n % 4 = OPERAND_OMITTED
    · rw [if_pos ho, if_pos ho]
      unfold readOperands
      show Except.ok (num, vals, zm) =
        Except.ok (num + 0, vals.take num ++ [] ++ vals.drop (num + 0), zm)
      rw [Nat.add_zero, List.append_nil, List.take_append_drop]
    · rw [if_neg ho, if_neg ho]
      unfold readOperands
      cases h1 : zm.GetOperand (tb / 4 ^ n % 4) with
      | error e => rfl
      | ok r1 =>
        obtain ⟨v, zm1⟩ := r1
        simp only [bind, Except.bind]
        unfold writeAt
        rw [if_pos (by omega)]
        simp only
        rw [show (num + 1) % 65536 = num + 1 by omega,
          ih ((2 * n + 256 - 2) % 256) zm1 (vals.set num v) (num + 1) (by omega)
            (by rw [List.length_set]; omega) (by omega)]
        cases h2 : readOperands (leadingTypes (typeFields tb n)) zm1 with
        | error e => rfl
        | ok r2 =>
          obtain ⟨vs, zm2⟩ := r2
          simp only [bind, Except.bind, pure, Except.pure]
          rw [take_set_succ vals num v (by omega), drop_set_succ]
          simp only [List.length_cons, List.append_assoc, List.cons_append, List.nil_append]
          rw [show num + 1 + vs.length = num + (vs.length + 1) by omega]

theorem readOperands_ip_lt : ∀ (ts : List Nat) (zm zm' : ZMachine) (vals : List Nat),
    (∀ t ∈ ts, t < 3) → zm.ip < 2 ^ 32 → readOperands ts zm = .ok (vals, zm') →
    zm'.ip < 2 ^ 32 := by
  intro ts
  induction ts with
  | nil =>
    intro zm zm' vals _ hlt h
    cases h
    exact hlt
  | cons t ts ih =>
    intro zm zm' vals hts hlt h
    unfold readOperands at h
    cases h1 : zm.GetOperand t with
    | error e => rw [h1] at h; cases h
    | ok r1 =>
      obtain ⟨v, zm1⟩ := r1
      rw [h1] at h
      simp only [bind, Except.bind] at h
      cases h2 : readOperands ts zm1 with
      | error e => rw [h2] at h; cases h
      | ok r2 =>
        obtain ⟨vs, zm2⟩ := r2
        rw [h2] at h
        cases h
        have hip := GetOperand_ip zm zm1 t v (hts t (List.mem_cons_self _ _)) h1
        exact ih zm1 zm2 vs (fun x hx => hts x (List.mem_cons_of_mem _ hx))
          (by rw [hip]; exact Nat.mod_lt _ (by decide)) h2

theorem decodeRef_types_lt (b t : Nat) : ∀ x ∈ (decodeRef b t).types, x < 3 := by
  unfold decodeRef
  split
  · exact leadingTypes_lt _ (by
      intro x hx
      simp only [List.mem_cons, List.mem_singleton, List.not_mem_nil, or_false] at hx
      rcases hx with rfl | rfl | rfl | rfl <;> exact Nat.mod_lt _ (by decide))
  · split
    · intro x hx
      split at hx
      · cases hx
      · rename_i h3
        simp only [List.mem_singleton] at hx
        have h3' : b / 16 % 4 ≠ 3 := h3
        omega
    · intro x hx
      simp only [List.mem_cons, List.mem_singleton, List.not_mem_nil, or_false] at hx
      rcases hx with rfl | rfl <;> split <;> decide

theorem decodeRef_types_length (b t : Nat) : (decodeRef b t).types.length ≤ 4 := by
  unfold decodeRef
  split
  · exact leadingTypes_length _
  · split
    · show (if b / 16 % 4 = OPERAND_OMITTED then [] else [b / 16 % 4]).length ≤ 4
      split
      · exact Nat.zero_le _
      · exact Nat.le_succ_of_le (Nat.le_succ_of_le (Nat.le_succ_of_le (Nat.le_refl 1)))
    · exact Nat.le_succ_of_le (Nat.le_succ_of_le (Nat.le_refl 2))

theorem interpretVAR_spec (fns : ZFunctions) (zm : ZMachine) (b t : Nat)
    (hb : readAt zm.buf zm.ip = .ok b) (hb256 : b < 256)
    (ht : readAt zm.buf ((zm.ip + 1) % 2 ^ 32) = .ok t) :
    zm.InterpretVARInstruction fns =
      (readOperands (leadingTypes [t / 64 % 4, t / 16 % 4, t / 4 % 4, t % 4])
          { zm with ip := (zm.ip + 2) % 2 ^ 32 } >>= fun r =>
        if b / 32 % 2 = 0 then
          callHandler fns.f2OP (b % 32)
            (fun fn => fn r.2 (r.1 ++ List.replicate (4 - r.1.length) 0) r.1.length)
        else
          callHandler fns.fVAR (b % 32)
            (fun fn => fn r.2 (r.1 ++ List.replicate (4 - r.1.length) 0) r.1.length)) := by
  obtain ⟨_, h1F, h5, _, _, _, _, _, _⟩ := opcode_byte_bits b hb256
  unfold ZMachine.InterpretVARInstruction ZMachine.ReadByte
  rw [hb]
  simp only [bind, Except.bind, pure, Except.pure]
  rw [ht]
  simp only
  unfold ZMachine.GetOperands
  rw [GetOperands_loop_spec t 4 6 _ _ 0 (fun _ => rfl) (by simp) (by decide)]
  rw [show ((zm.ip + 1) % 2 ^ 32 + 1) % 2 ^ 32 = (zm.ip + 2) % 2 ^ 32 by omega]
  rw [show typeFields t 4 = [t / 64 % 4, t / 16 % 4, t / 4 % 4, t % 4] by
    simp [typeFields]]
  cases h2 : readOperands (leadingTypes [t / 64 % 4, t / 16 % 4, t / 4 % 4, t % 4])
      { zm with ip := (zm.ip + 2) % 2 ^ 32 } with
  | error e => rfl
  | ok r =>
    obtain ⟨vs, zm2⟩ := r
    have hlen : vs.length ≤ 4 := by
      have := (readOperands_ip _ _ _ _ (leadingTypes_lt _ (by
        intro x hx
        simp only [List.mem_cons, List.mem_singleton, List.not_mem_nil, or_false] at hx
        rcases hx with rfl | rfl | rfl | rfl <;> exact Nat.mod_lt _ (by decide))) h2).2
      have h4 := leadingTypes_length [t / 64 % 4, t / 16 % 4, t / 4 % 4, t % 4]
      simp only [List.length_cons, List.length_nil] at h4
      omega
    simp only [bind, Except.bind, pure, Except.pure, h1F, h5, List.take_zero, List.nil_append,
      Nat.zero_add, List.drop_replicate, callHandler]
    by_cases h : b / 32 % 2 = 0
    · simp only [h, decide_True, if_true]
      cases fns.f2OP[b % 32]? <;> rfl
    · simp only [h, decide_False, if_false, Bool.false_eq_true]
      cases fns.fVAR[b % 32]? <;> rfl
/-- C25. When the byte at the PC is `b` (and, in the variable form, the byte after it is
`t`), the decoder does what the reference classification `decodeRef b t` says: it reads
one operand for each of the operand types of the classification, in order, starting after
the opcode byte (and the byte of types in the variable form), and calls the handler of the
operand count's table at the opcode number with the values read. There are at most four
operand types, and when the handler is called there is one value for each of them and the
PC has advanced by the length of the instruction: 1, plus 1 for the byte of types in the
variable form, plus 2 for each large constant and 1 for each small constant or variable. -/
theorem decode_spec (fns : ZFunctions) (zm : ZMachine) (b t : Nat)
    (hb : zm.PeekByte = .ok b) (hb256 : b < 256)
    (ht : b / 64 % 4 = 3 → readAt zm.buf ((zm.ip + 1) % 2 ^ 32) = .ok t) :
    zm.InterpretInstruction fns =
      (readOperands (decodeRef b t).types
          { zm with ip := (zm.ip + (if (decodeRef b t).form = .variable then 2 else 1)) % 2 ^ 32 }
        >>= fun r => dispatchRef fns (decodeRef b t) r.2 r.1) ∧
    (decodeRef b t).types.length ≤ 4 ∧
    ∀ vals zm', readOperands (decodeRef b t).types
        { zm with ip := (zm.ip + (if (decodeRef b t).form = .variable then 2 else 1)) % 2 ^ 32 }
          = .ok (vals, zm') →
      zm'.ip = (zm.ip + instructionLength (decodeRef b t)) % 2 ^ 32 ∧
        vals.length = (decodeRef b t).types.length := by
  refine ⟨?_, decodeRef_types_length b t, ?_⟩
  · obtain ⟨h6, h1F, h5, h4, h0F, hl0, hl1, _, _⟩ := opcode_byte_bits b hb256
    have hb' : readAt zm.buf zm.ip = .ok b := hb
    have hs : (if ZForm.short = ZForm.variable then 2 else 1) = 1 := rfl
    have hl : (if ZForm.long = ZForm.variable then 2 else 1) = 1 := rfl
    unfold ZMachine.InterpretInstruction
    rw [hb]
    simp only [bind, Except.bind, h6]
    by_cases h3 : b / 64 % 4 = 3
    · rw [if_neg (by omega), if_pos h3, interpretVAR_spec fns zm b t hb' hb256 (ht h3)]
      unfold decodeRef
      rw [if_pos h3]
      simp only [if_true]
      cases readOperands (leadingTypes [t / 64 % 4, t / 16 % 4, t / 4 % 4, t % 4])
        { zm with ip := (zm.ip + 2) % 2 ^ 32 } with
      | error e => rfl
      | ok r =>
        simp only [bind, Except.bind, dispatchRef]
        by_cases h : b / 32 % 2 = 0
        · simp only [h, if_true]
        · simp only [h, if_false]
    · by_cases h2 : b / 64 % 4 = 2
      · rw [if_pos h2]
        unfold decodeRef ZMachine.InterpretShortInstruction ZMachine.ReadByte
        rw [if_neg h3, if_pos h2, hb']
        simp only [bind, Except.bind, pure, Except.pure, h4, h0F, hs]
        by_cases ho : b / 16 % 4 = OPERAND_OMITTED
        · simp only [ho, ne_eq, not_true_eq_false, if_false, if_true, readOperands, pure,
            Except.pure, dispatchRef, callHandler]
          cases fns.f0P[b % 16]? <;> rfl
        · simp only [ho, ne_eq, not_false_eq_true, if_false, if_true, readOperands, pure,
            Except.pure, bind, Except.bind]
          cases ZMachine.GetOperand { zm with ip := (zm.ip + 1) % 2 ^ 32 } (b / 16 % 4) with
          | error e => rfl
          | ok r =>
            simp only [dispatchRef, callHandler, List.headD_cons]
            cases fns.f1OP[b % 16]? <;> rfl
      · rw [if_neg h2, if_neg h3]
        unfold decodeRef ZMachine.InterpretLongInstruction ZMachine.ReadByte
        rw [if_neg h3, if_neg h2, hb']
        simp only [bind, Except.bind, pure, Except.pure, h1F, hl0, hl1, readOperands, hl]
        cases ZMachine.GetOperand { zm with ip := (zm.ip + 1) % 2 ^ 32 }
            (if b / 64 % 2 = 0 then OPERAND_SMALL else OPERAND_VARIABLE) with
        | error e => rfl
        | ok r =>
          simp only
          cases r.2.GetOperand (if b / 32 % 2 = 0 then OPERAND_SMALL else OPERAND_VARIABLE) with
          | error e => rfl
          | ok r' =>
            simp only [dispatchRef, callHandler]
            cases fns.f2OP[b % 32]? <;> rfl
  · intro vals zm' h
    have hlt := decodeRef_types_lt b t
    obtain ⟨hip, hlen⟩ := readOperands_ip _ _ _ _ hlt h
    have hip' := readOperands_ip_lt _ _ _ _ hlt (Nat.mod_lt _ (by decide)) h
    refine ⟨?_, hlen⟩
    rw [Nat.mod_eq_of_lt hip'] at hip
    rw [hip]
    unfold instructionLength
    show ((zm.ip + (if (decodeRef b t).form = .variable then 2 else 1)) % 2 ^ 32 + _) % 2 ^ 32 = _
    by_cases hf : (decodeRef b t).form = .variable
    · rw [if_pos hf, if_pos hf]
      omega
    · rw [if_neg hf, if_neg hf]
      omega

theorem decode_spec_witness :
    exampleInstruction.PeekByte = .ok 0xE0 ∧
    readAt exampleInstruction.buf ((exampleInstruction.ip + 1) % 2 ^ 32) = .ok 0x1F ∧
    (decodeRef 0xE0 0x1F).types = [OPERAND_LARGE, OPERAND_SMALL] ∧
    (exampleInstruction.InterpretInstruction exampleHandlers =
      (readOperands (decodeRef 0xE0 0x1F).types
          { exampleInstruction with
            ip := (exampleInstruction.ip +
              (if (decodeRef 0xE0 0x1F).form = .variable then 2 else 1)) % 2 ^ 32 }
        >>= fun r => dispatchRef exampleHandlers (decodeRef 0xE0 0x1F) r.2 r.1) ∧
    (decodeRef 0xE0 0x1F).types.length ≤ 4 ∧
    ∀ vals zm', readOperands (decodeRef 0xE0 0x1F).types
        { exampleInstruction with
          ip := (exampleInstruction.ip +
            (if (decodeRef 0xE0 0x1F).form = .variable then 2 else 1)) % 2 ^ 32 }
          = .ok (vals, zm') →
      zm'.ip = (exampleInstruction.ip + instructionLength (decodeRef 0xE0 0x1F)) % 2 ^ 32 ∧
        vals.length = (decodeRef 0xE0 0x1F).types.length) :=
  ⟨rfl, rfl, rfl,
    decode_spec exampleHandlers exampleInstruction 0xE0 0x1F rfl (by decide) (fun _ => rfl)⟩

/-! ## Reading a line -/

theorem set_zero_drop (l : List Nat) (k v : Nat) (h : k < l.length) :
    (l.drop k).set 0 v = v :: l.drop (k + 1) := by
  rw [List.drop_eq_getElem_cons h]
  rfl

/-- When the upper bound of the slice is inside the buffer, the capacity of the buffer
does not matter. -/
theorem copyInto_capacity (capacity : Nat) (buf : List Nat) (lo hi : Nat) (src : List Nat)
    (h : hi ≤ buf.length) (hc : buf.length ≤ capacity) :
    copyInto capacity buf lo hi src = copyInto buf.length buf lo hi src := by
  unfold copyInto
  by_cases hlo : lo > hi
  · rw [if_pos (Or.inl hlo), if_pos (Or.inl hlo)]
  · rw [if_neg (by omega), if_neg (by omega)]

theorem storeInput_capacity (capacity : Nat) (zm : ZMachine) (args input : List Nat)
    (tb n : Nat) (h0 : readAt args 0 = .ok tb) (hn : readAt zm.buf tb = .ok n)
    (hhi : (tb + (n - 1)) % 65536 ≤ zm.buf.length) (hc : zm.buf.length ≤ capacity) :
    ZRead.storeInput capacity zm args input = ZRead.storeInput zm.buf.length zm args input := by
  unfold ZRead.storeInput
  rw [h0]
  simp only [bind, Except.bind]
  rw [hn]
  simp only
  rw [copyInto_capacity capacity zm.buf _ _ input hhi hc]

theorem ZRead_capacity (fuel capacity : Nat) (zm : ZMachine) (args input : List Nat)
    (tb n : Nat) (h0 : readAt args 0 = .ok tb) (hn : readAt zm.buf tb = .ok n)
    (hhi : (tb + (n - 1)) % 65536 ≤ zm.buf.length) (hc : zm.buf.length ≤ capacity) :
    ZRead fuel capacity zm args input = ZRead fuel zm.buf.length zm args input := by
  unfold ZRead
  rw [storeInput_capacity capacity zm args input tb n h0 hn hhi hc]

/-- A line of at most `n - 2` bytes fits: the first stage of `ZRead` stores the whole line
from `M[tb + 1]` on and the terminator right after it, and changes nothing else. -/
theorem store_input_fits (capacity : Nat) (zm : ZMachine) (tb n : Nat) (rest input : List Nat)
    (hn : zm.buf[tb]? = some n) (hL : input.length + 2 ≤ n)
    (hend : tb + n ≤ zm.buf.length) (h16 : tb + n < 65536) (hc : zm.buf.length ≤ capacity) :
    ZRead.storeInput capacity zm (tb :: rest) input =
      .ok { zm with
        buf := zm.buf.take (tb + 1) ++ input ++ [0] ++ zm.buf.drop (tb + input.length + 2) } := by
  unfold ZRead.storeInput
  rw [show readAt (tb :: rest) 0 = .ok tb from readAt_eq_ok (List.getElem?_cons_zero ..)]
  simp only [bind, Except.bind]
  rw [readAt_eq_ok hn]
  simp only
  rw [if_neg (by omega)]
  unfold copyInto
  rw [show (tb + 1) % 65536 = tb + 1 by omega, show (tb + (n - 1)) % 65536 = tb + (n - 1) by omega,
    if_neg (by omega),
    List.take_of_length_le (show input.length ≤ tb + (n - 1) - (tb + 1) by omega),
    List.take_of_length_le (show input.length ≤ zm.buf.length - (tb + 1) by omega),
    Nat.min_eq_right (show input.length ≤ tb + (n - 1) - (tb + 1) by omega)]
  simp only [pure, Except.pure]
  rw [show (tb + input.length % 65536 + 1) % 65536 = tb + 1 + input.length by omega]
  have hlen : (List.take (tb + 1) zm.buf ++ input).length = tb + 1 + input.length := by
    rw [List.length_append, List.length_take, Nat.min_eq_left (by omega)]
  rw [writeAt_of_lt 0 (by
    rw [List.length_append, hlen, List.length_drop]
    omega)]
  simp only
  rw [List.set_append_right _ _ (by rw [hlen]), hlen, Nat.sub_self,
    set_zero_drop _ _ _ (by omega)]
  simp only [List.append_assoc, List.singleton_append]
  rw [show tb + 1 + input.length + 1 = tb + input.length + 2 by omega]

set_option maxRecDepth 1000000 in
/-- C27. With the text buffer at address 2, `M[2] = 5` and the line `abcdefgh`, for every
capacity of the buffer, the first stage of `ZRead` stores the three bytes `abc` at
`M[3 .. 5]`, leaves `M[6]` as it was and writes the terminator at address
`2 + 8 + 1 = 11`, which is outside the buffer `M[3 .. 7]`; and with `M[2] = 1` the slice
expression of the `copy` fails, also for the empty line. -/
theorem store_input_overflow :
    (∀ capacity, exampleTextBuffer.buf.length ≤ capacity →
      ∃ zm', ZRead.storeInput capacity exampleTextBuffer [2, 0] exampleLine = .ok zm' ∧
        zm'.buf = [0, 0, 5, 97, 98, 99, 0xFF, 0xFF, 0xFF, 0xFF, 0xFF, 0, 0xFF] ∧
        exampleTextBuffer.buf[11]? = some 0xFF ∧ zm'.buf[11]? = some 0 ∧
        zm'.buf[6]? = some 0xFF) ∧
    (∀ capacity,
      ZRead.storeInput capacity exampleTextBufferOne [2, 0] [] =
        .error .sliceBoundsOutOfRange) :=
  ⟨fun capacity hc => by
      rw [storeInput_capacity capacity exampleTextBuffer [2, 0] exampleLine 2 5 rfl rfl
        (by decide) hc]
      exact ⟨_, rfl, rfl, rfl, rfl, rfl⟩,
    fun _ => rfl⟩

set_option maxRecDepth 1000000 in
/-- C28. For every capacity of the buffer: with the empty line `ZRead` records one word,
the empty one, at offset 1: it stores 1 at `M[parse_buf + 1]` and writes the block
`0, 0, 0, 1`; with the line `" look"` it records the empty word at offset 1 before the
word `look` at offset 2; and with a line of two spaces it records the empty word at
offset 1. -/
theorem empty_line_token :
    (∀ capacity, exampleParse.buf.length ≤ capacity →
      ∃ zm', ZRead 10 capacity exampleParse [12, 24] [] = .ok zm' ∧
        zm'.buf.drop 24 = [4, 1, 0, 0, 0, 1, 0, 0, 0, 0, 0, 0, 0, 0, 0, 0, 0, 0]) ∧
    (∀ capacity, exampleParse.buf.length ≤ capacity →
      ∃ zm', ZRead 10 capacity exampleParse [12, 24] [32, 108, 111, 111, 107] = .ok zm' ∧
        zm'.buf.drop 12 = [10, 32, 108, 111, 111, 107, 0, 0, 0, 0, 0, 0,
          4, 2, 0, 0, 0, 1, 0, 8, 4, 2, 0, 0, 0, 0, 0, 0, 0, 0]) ∧
    (∀ capacity, exampleParse.buf.length ≤ capacity →
      ∃ zm', ZRead 10 capacity exampleParse [12, 24] [32, 32] = .ok zm' ∧
        zm'.buf.drop 12 = [10, 32, 32, 0, 0, 0, 0, 0, 0, 0, 0, 0,
          4, 1, 0, 0, 0, 1, 0, 0, 0, 0, 0, 0, 0, 0, 0, 0, 0, 0]) :=
  ⟨fun capacity hc => by
      rw [ZRead_capacity 10 capacity exampleParse [12, 24] [] 12 10 rfl rfl (by decide) hc]
      exact ⟨_, rfl, rfl⟩,
    fun capacity hc => by
      rw [ZRead_capacity 10 capacity exampleParse [12, 24] _ 12 10 rfl rfl (by decide) hc]
      exact ⟨_, rfl, rfl⟩,
    fun capacity hc => by
      rw [ZRead_capacity 10 capacity exampleParse [12, 24] _ 12 10 rfl rfl (by decide) hc]
      exact ⟨_, rfl, rfl⟩⟩

end Zmachine
